import Mathlib

set_option maxHeartbeats 1000000

namespace Cwr

/-! Shallow embedding of the crosswords-rs core: the grid (src/cw/mod.rs) and the
dictionary index (src/dict.rs).  The helper modules `point.rs`, `range.rs`,
`point_iter.rs`, `range_iter.rs`, `boundary_iter.rs` and `word_constraint.rs` are not
part of the sources; their definitions below are modelled from the spec and are marked
as such. -/

/-- Modelled from the spec: `Point` (point.rs is missing): a signed integer pair
supporting addition, subtraction and scalar multiplication. -/
structure Point where
  x : Int
  y : Int
deriving DecidableEq

instance : Add Point := ⟨fun a b => ⟨a.x + b.x, a.y + b.y⟩⟩

instance : Sub Point := ⟨fun a b => ⟨a.x - b.x, a.y - b.y⟩⟩

instance : HMul Point Int Point := ⟨fun p n => ⟨p.x * n, p.y * n⟩⟩

/-- Modelled from the spec: `Point::coord(width, height)` (point.rs is missing): the
row-major array index of the point when `0 ≤ x < width` and `0 ≤ y < height`,
otherwise `None`. -/
def Point.coord (p : Point) (w h : Nat) : Option Nat :=
  if 0 ≤ p.x ∧ p.x < (w : Int) ∧ 0 ≤ p.y ∧ p.y < (h : Int) then
    some (p.y.toNat * w + p.x.toNat)
  else
    none

/-- The possible directions for words: `Right` and `Down` (src/cw/mod.rs). -/
inductive Dir
  | Right
  | Down
deriving DecidableEq

/-- The other direction, perpendicular to this one. -/
def Dir.other : Dir → Dir
  | .Right => .Down
  | .Down => .Right

/-- The corresponding unit vector. -/
def Dir.point : Dir → Point
  | .Right => ⟨1, 0⟩
  | .Down => ⟨0, 1⟩

abbrev CVec := List Char

def BLOCK : Char := '#'

/-- The crosswords grid: characters, right/down border bitmaps and the set of placed
words (src/cw/mod.rs, `struct Crosswords`). -/
structure Crosswords where
  width : Nat
  height : Nat
  chars : List Char
  right_border : List Bool
  down_border : List Bool
  words : Finset CVec
deriving DecidableEq

namespace Crosswords

/-- `Crosswords::new`: all cells BLOCK, all borders true, no words. -/
def new (width height : Nat) : Crosswords :=
  { width := width
    height := height
    chars := List.replicate (width * height) BLOCK
    right_border := List.replicate ((width - 1) * height) true
    down_border := List.replicate (width * (height - 1)) true
    words := ∅ }

/-- `Crosswords::get_border`: whether the cell has a right resp. bottom border; points
outside the grid count as having borders all around. -/
def get_border (cw : Crosswords) (p : Point) (d : Dir) : Bool :=
  match d with
  | .Right =>
    match p.coord (cw.width - 1) cw.height with
    | none => true
    | some i => cw.right_border.getD i true
  | .Down =>
    match p.coord cw.width (cw.height - 1) with
    | none => true
    | some i => cw.down_border.getD i true

/-- `Crosswords::both_borders`: borders on both sides along `d`. -/
def both_borders (cw : Crosswords) (p : Point) (d : Dir) : Bool :=
  cw.get_border p d && cw.get_border (p - d.point) d

/-- `Crosswords::set_border` (out-of-grid points are only ever set to `true`, which is
a no-op, so the model leaves the state unchanged there). -/
def set_border (cw : Crosswords) (p : Point) (d : Dir) (value : Bool) : Crosswords :=
  match d with
  | .Right =>
    match p.coord (cw.width - 1) cw.height with
    | none => cw
    | some i => { cw with right_border := cw.right_border.set i value }
  | .Down =>
    match p.coord cw.width (cw.height - 1) with
    | none => cw
    | some i => { cw with down_border := cw.down_border.set i value }

/-- `Crosswords::is_char_allowed`: the cell is inside the grid and holds `c` or BLOCK. -/
def is_char_allowed (cw : Crosswords) (p : Point) (c : Char) : Bool :=
  match p.coord cw.width cw.height with
  | none => false
  | some i => c == cw.chars.getD i BLOCK || cw.chars.getD i BLOCK == BLOCK

/-- `Crosswords::get_char`: the character at the cell, `None` outside the grid. -/
def get_char (cw : Crosswords) (p : Point) : Option Char :=
  (p.coord cw.width cw.height).bind fun i => cw.chars.get? i

/-- `Crosswords::put_char` (callers only use in-grid points, where `coord` is `some`). -/
def put_char (cw : Crosswords) (p : Point) (c : Char) : Crosswords :=
  match p.coord cw.width cw.height with
  | none => cw
  | some i => { cw with chars := cw.chars.set i c }

/-- Modelled from the spec: `PointIter` (point_iter.rs is missing): the points
`p, p + unit(d), …` of the given length. -/
def pointList (p : Point) (d : Dir) (n : Nat) : List Point :=
  (List.range n).map fun k : Nat => p + d.point * (k : Int)

/-- Modelled from the spec: the length computation of `Range::cells_with` (range.rs is
missing): the number of consecutive cells from `p` satisfying the predicate.  The fuel
bounds every run that terminates inside or at the edge of the grid. -/
def cellsWithLen (pred : Point → Bool) (dp : Point) : Nat → Point → Nat
  | 0, _ => 0
  | fuel + 1, p => if pred p then cellsWithLen pred dp fuel (p + dp) + 1 else 0

/-- A `Range`: an axis-aligned run of cells (origin, direction, length). -/
structure Range where
  point : Point
  dir : Dir
  len : Nat

def wrFuel (cw : Crosswords) : Nat := cw.width + cw.height + 2

/-- The length of the word range beginning at `p`: the run of cells whose predicate is
`(q == p) == get_border (q - dp) d`, as in `Crosswords::get_word_range_at`. -/
def rangeLen (cw : Crosswords) (p : Point) (d : Dir) : Nat :=
  cellsWithLen (fun q => decide (q = p) == cw.get_border (q - d.point) d) d.point
    (wrFuel cw) p

/-- `Crosswords::get_word_range_at`: the range beginning at the given point until the
end of the word. -/
def get_word_range_at (cw : Crosswords) (p : Point) (d : Dir) : Range :=
  ⟨p, d, cw.rangeLen p d⟩

/-- Modelled from the spec: `RangeIter` (range_iter.rs is missing) yields the
characters of the cells of a range; `word_at` collects them. -/
def word_at (cw : Crosswords) (p : Point) (d : Dir) : CVec :=
  (pointList p d (cw.rangeLen p d)).filterMap fun q => cw.get_char q

/-- `Crosswords::is_word_allowed`: the word may be inserted at that position. -/
def is_word_allowed (cw : Crosswords) (p : Point) (d : Dir) (word : CVec) : Bool :=
  decide (word ∉ cw.words) && decide (1 < word.length)
    && cw.get_border (p - d.point) d
    && cw.get_border (p + d.point * ((word.length : Int) - 1)) d
    && (word.zip (pointList p d word.length)).all fun cq => cw.is_char_allowed cq.2 cq.1

/-- The first loop of `Crosswords::push_word`: for each letter, deregister the word
currently at that cell in direction `d`, then write the letter. -/
def pushChars (d : Dir) : Crosswords → List (Char × Point) → Crosswords
  | cw, [] => cw
  | cw, (c, q) :: rest =>
    pushChars d (put_char { cw with words := cw.words.erase (cw.word_at q d) } q c) rest

/-- The second loop of `Crosswords::push_word`: clear the internal borders. -/
def pushBorders (d : Dir) : Crosswords → List Point → Crosswords
  | cw, [] => cw
  | cw, q :: rest => pushBorders d (cw.set_border q d false) rest

/-- `Crosswords::push_word`. -/
def push_word (cw : Crosswords) (p : Point) (d : Dir) (word : CVec) : Crosswords :=
  let cw1 := pushChars d cw (word.zip (pointList p d word.length))
  let cw2 := pushBorders d cw1 (pointList p d (word.length - 1))
  { cw2 with words := insert word cw2.words }

/-- The loop of `Crosswords::pop_word`: restore the border at each cell and blank the
cells that no longer belong to a perpendicular word. -/
def popLoop (d : Dir) : Crosswords → List Point → Crosswords
  | cw, [] => cw
  | cw, q :: rest =>
    let cw1 := cw.set_border q d true
    let cw2 := if cw1.both_borders q d.other then cw1.put_char q BLOCK else cw1
    popLoop d cw2 rest

/-- `Crosswords::pop_word`: removes and returns the word at the given position. -/
def pop_word (cw : Crosswords) (p : Point) (d : Dir) : CVec × Crosswords :=
  let word := cw.word_at p d
  if word.length ≤ 1 then ([], cw)
  else
    let cw1 := popLoop d cw (pointList p d word.length)
    (word, { cw1 with words := cw1.words.erase word })

/-- `Crosswords::try_word`: insert the word if allowed, else leave the grid unchanged. -/
def try_word (cw : Crosswords) (p : Point) (d : Dir) (word : CVec) : Bool × Crosswords :=
  if cw.is_word_allowed p d word then (true, cw.push_word p d word) else (false, cw)

/-- `Crosswords::count_borders`: the number of borders inside the grid. -/
def count_borders (cw : Crosswords) : Nat :=
  cw.right_border.count true + cw.down_border.count true

/-- `Crosswords::max_border_count`: `2·W·H − W − H`. -/
def max_border_count (cw : Crosswords) : Nat :=
  2 * cw.width * cw.height - cw.width - cw.height

/-- `Crosswords::is_letter`: the cell contains a letter (not BLOCK, not outside). -/
def is_letter (cw : Crosswords) (p : Point) : Bool :=
  match cw.get_char p with
  | none => false
  | some c => decide (c ≠ BLOCK)

/-- `Crosswords::is_boundary_point`: an empty cell with a letter among its orthogonal
neighbours. -/
def is_boundary_point (cw : Crosswords) (p : Point) : Bool :=
  decide (cw.get_char p = some BLOCK)
    && (cw.is_letter (p + ⟨1, 0⟩) || cw.is_letter (p + ⟨-1, 0⟩)
        || cw.is_letter (p + ⟨0, 1⟩) || cw.is_letter (p + ⟨0, -1⟩))

def neighborsList (p : Point) : List Point :=
  [p + ⟨1, 0⟩, p + ⟨-1, 0⟩, p + ⟨0, 1⟩, p + ⟨0, -1⟩]

/-- One expansion step of the connected cluster of empty cells. -/
def clusterStep (cw : Crosswords) (s : Finset Point) : Finset Point :=
  s ∪ (s.biUnion fun q => (neighborsList q).toFinset).filter
    fun q => cw.get_char q = some BLOCK

/-- Modelled from the spec: the connected cluster of empty cells the point belongs to
(boundary_iter.rs is missing); empty when the cell is not a BLOCK. -/
def cluster (cw : Crosswords) (p : Point) : Finset Point :=
  if cw.get_char p = some BLOCK then
    (fun s => cw.clusterStep s)^[cw.width * cw.height] {p}
  else ∅

/-- Modelled from the spec: `get_boundary_iter_for(p, None)` collected into a set
(boundary_iter.rs is missing): the pairs of an empty cell of the cluster and an
adjacent point that is a letter or outside the grid. -/
def boundarySet (cw : Crosswords) (p : Point) : Finset (Point × Point) :=
  (cw.cluster p).biUnion fun p0 =>
    ((neighborsList p0).filter fun p1 =>
      cw.is_letter p1 || decide (p1.coord cw.width cw.height = none)).toFinset.image
      fun p1 => (p0, p1)

/-- The loop of `Crosswords::get_smallest_boundary` over the scanned cells: skip
visited or non-boundary cells, return any boundary of size at most one immediately,
otherwise keep the first or any strictly smaller boundary and mark its cells visited. -/
def gsbAux (cw : Crosswords) :
    List Point → Finset Point → Finset (Point × Point) → Finset (Point × Point)
  | [], _, smallest => smallest
  | pt :: rest, points, smallest =>
    if pt ∉ points ∧ cw.is_boundary_point pt then
      let boundary := cw.boundarySet pt
      if boundary.card ≤ 1 then boundary
      else
        let smallest' := if points = ∅ ∨ boundary.card < smallest.card
          then boundary else smallest
        gsbAux cw rest (points ∪ boundary.image Prod.fst) smallest'
    else gsbAux cw rest points smallest

/-- The scan order of `Crosswords::get_smallest_boundary` in the source: `x` in the
outer loop, `y` in the inner loop (column-major). -/
def colMajorCells (cw : Crosswords) : List Point :=
  (List.range cw.width).flatMap fun x : Nat =>
    (List.range cw.height).map fun y : Nat => ⟨(x : Int), (y : Int)⟩

/-- `Crosswords::get_smallest_boundary`. -/
def get_smallest_boundary (cw : Crosswords) : Finset (Point × Point) :=
  gsbAux cw cw.colMajorCells ∅ ∅

/-- The scan order asserted by the claim: row-major, `y` in the outer loop and `x` in
the inner loop.  Stated from the spec's words for comparison with the source. -/
def rowMajorCells (cw : Crosswords) : List Point :=
  (List.range cw.height).flatMap fun y : Nat =>
    (List.range cw.width).map fun x : Nat => ⟨(x : Int), (y : Int)⟩

/-- `get_smallest_boundary` as the claim describes it: the same loop body over the
row-major scan order.  Stated from the spec's words for comparison with the source. -/
def get_smallest_boundary_rowmajor (cw : Crosswords) : Finset (Point × Point) :=
  gsbAux cw cw.rowMajorCells ∅ ∅

end Crosswords

/-! The dictionary (src/dict.rs).  `WordConstraint` lives in word_constraint.rs, which
is not among the sources; it is modelled from the spec. -/

/-- Modelled from the spec: `WordConstraint` (word_constraint.rs is missing): either
"length = L" or "the n-gram `gram` occurs at `offset` in a word of length `total`". -/
inductive WordConstraint
  | length (L : Nat)
  | ngram (gram : List Char) (offset : Nat) (total : Nat)
deriving DecidableEq

/-- Modelled from the spec: `WordConstraint::with_ngram`. -/
def WordConstraint.with_ngram (gram : List Char) (offset total : Nat) : WordConstraint :=
  .ngram gram offset total

/-- Modelled from the spec: `WordConstraint::all(word, max_n)`: the length constraint
together with every n-gram constraint for `1 ≤ n ≤ min(max_n, |word|)` and
`0 ≤ offset ≤ |word| − n`. -/
def WordConstraint.all (word : CVec) (maxN : Nat) : List WordConstraint :=
  .length word.length ::
    ((List.range' 1 (min maxN word.length)).flatMap fun n =>
      (List.range (word.length - n + 1)).map fun off =>
        .ngram ((word.drop off).take n) off word.length)

/-- `Dict`: the stored words and the maximum indexed n-gram length.  The inverted
index `lists` is recovered by `get_list`; construction inserts word indices in
increasing order, so each list is the increasingly sorted list of indices of the words
satisfying the constraint. -/
structure Dict where
  words : List CVec
  max_n : Nat

namespace Dict

/-- `Dict::new` over an already shuffled sequence of words (the source shuffles with a
random source; the claims quantify over every order). -/
def new (words : List CVec) : Dict := { words := words, max_n := 3 }

/-- `Dict::get_list`: the index list for a constraint (empty when absent). -/
def get_list (d : Dict) (wc : WordConstraint) : List Nat :=
  (List.range d.words.length).filter fun i =>
    decide (wc ∈ WordConstraint.all (d.words.getD i []) d.max_n)

end Dict

/-- `dict.rs::matches`: the word is no longer than the pattern and agrees with it
wherever the pattern is not BLOCK. -/
def matchesPattern (word pattern : CVec) : Bool :=
  decide (word.length ≤ pattern.length)
    && (word.zip pattern).all fun cc => cc.1 == cc.2 || cc.2 == BLOCK

/-- Keep the shorter of the current and the newly consulted candidate list, as the
adoption step of `Dict::get_matching_word_list` does. -/
def adoptShorter (cur new : List Nat) : List Nat :=
  if cur.length > new.length then new else cur

/-- One step of the outer loop of `Dict::get_matching_word_list`: at each BLOCK
position (and at the end), consult the n-gram lists of the run `pattern[pos..i]` of
non-BLOCK characters (its slice length is `i − pos`) for offsets `dp ∈ [1, run_len − n)`
with `n = min(max_n, run_len)`. -/
def gmwlStep (d : Dict) (pattern : CVec) (len : Nat) (st : List Nat × Nat) (i : Nat) :
    List Nat × Nat :=
  (if st.2 < i then
      (List.range' 1 (i - st.2 - min d.max_n (i - st.2) - 1)).foldl
        (fun acc dp =>
          adoptShorter acc
            (d.get_list (.with_ngram
              ((((pattern.drop st.2).take (i - st.2)).drop dp).take
                (min d.max_n (i - st.2)))
              (st.2 + dp) len)))
        st.1
    else st.1, i + 1)

/-- `Dict::get_matching_word_list`: start from the length list and adopt any strictly
shorter n-gram list (the source's early returns on an empty list do not change the
result and are dropped). -/
def get_matching_word_list (d : Dict) (pattern : CVec) : List Nat :=
  let len := pattern.length
  let idxs := ((List.range len).filter fun i => pattern.get? i == some BLOCK) ++ [len]
  (idxs.foldl (gmwlStep d pattern len) (d.get_list (.length len), 0)).1

/-- `PatternIter::next`: starting from `index`, advance until the candidate word at
the index matches the pattern (returning it together with the next index) or until
`get_word` is `None` (then the vacuous match ends the loop with `None`). -/
def patternNext (d : Dict) (pattern : CVec) (list : List Nat) (index : Nat) :
    Option CVec × Nat :=
  match h : (list.get? index).bind fun i => d.words.get? i with
  | none => (none, index + 1)
  | some w =>
    if matchesPattern w pattern then (some w, index + 1)
    else patternNext d pattern list (index + 1)
termination_by list.length - index
decreasing_by
  have hlt : index < list.length := by
    rcases hg : list.get? index with _ | i
    · rw [hg] at h; simp at h
    · exact (List.get?_eq_some.mp hg).1
  omega

/-- Repeatedly drive `PatternIter::next` and collect the yielded words. -/
def patternCollect (d : Dict) (pattern : CVec) (list : List Nat) :
    Nat → Nat → List CVec
  | 0, _ => []
  | fuel + 1, index =>
    match patternNext d pattern list index with
    | (none, _) => []
    | (some w, index') => w :: patternCollect d pattern list fuel index'

/-- `Dict::matching_words`, collected into the list of yielded words. -/
def matching_words (d : Dict) (pattern : CVec) : List CVec :=
  let list := get_matching_word_list d pattern
  patternCollect d pattern list (list.length + 1) 0

/-! Normalization (src/dict.rs, `normalize_word`). -/

/-- Rust's `to_ascii_uppercase` on one character. -/
def asciiUpChar (c : Char) : Char :=
  if 'a' ≤ c ∧ c ≤ 'z' then Char.ofNat (c.toNat - 32) else c

/-- Whitespace as trimmed by `str::trim` (the ASCII whitespace characters; the inputs
of the spec contain no other whitespace). -/
def isWhitespaceChar (c : Char) : Bool :=
  decide (c = ' ') || decide (c = '\t') || decide (c = '\n') || decide (c = '\r')

def trimList (s : List Char) : List Char :=
  ((s.dropWhile isWhitespaceChar).reverse.dropWhile isWhitespaceChar).reverse

/-- `str::replace` for a single-character pattern. -/
def replaceChar (src : Char) (rep : List Char) (s : List Char) : List Char :=
  s.flatMap fun c => if c = src then rep else [c]

/-- The character transformation of `Dict::normalize_word`: ASCII-uppercase, trim,
then expand the umlauts and ß into their digraphs, in the source's order. -/
def normalizedForm (s : List Char) : List Char :=
  replaceChar 'ß' ['S', 'S']
    (replaceChar 'Ü' ['U', 'E']
      (replaceChar 'ü' ['U', 'E']
        (replaceChar 'Ö' ['O', 'E']
          (replaceChar 'ö' ['O', 'E']
            (replaceChar 'Ä' ['A', 'E']
              (replaceChar 'ä' ['A', 'E'] (trimList (s.map asciiUpChar))))))))

/-- Rust's `c.is_alphabetic() && c.is_ascii()`: an ASCII letter. -/
def asciiAlpha (c : Char) : Bool :=
  decide ('A' ≤ c ∧ c ≤ 'Z') || decide ('a' ≤ c ∧ c ≤ 'z')

/-- `Dict::normalize_word`: keep the normalized form exactly when every character is
an ASCII letter and the length is at least 2. -/
def normalize_word (s : List Char) : Option CVec :=
  let word := normalizedForm s
  if word.all asciiAlpha ∧ 1 < word.length then some word else none

/-- The total word length a constraint talks about. -/
def WordConstraint.total : WordConstraint → Nat
  | .length L => L
  | .ngram _ _ t => t

/-- The words yielded when the iterator walks the given candidate index list: the
words at valid indices that match the pattern, cut short at the first invalid index. -/
def patternYields (d : Dict) (pattern : CVec) : List Nat → List CVec
  | [] => []
  | i :: rest =>
    match d.words.get? i with
    | none => []
    | some w =>
      if matchesPattern w pattern then w :: patternYields d pattern rest
      else patternYields d pattern rest

/-- A constraint every word of the pattern's length that matches the pattern
satisfies; the candidate lists consulted by the query are of this kind, which makes
them supersets of the matching words. -/
def entailed (pattern : CVec) (maxN : Nat) (wc : WordConstraint) : Prop :=
  ∀ u : CVec, u.length = pattern.length →
    (∀ i < pattern.length, pattern.get? i ≠ some BLOCK → u.get? i = pattern.get? i) →
    wc ∈ WordConstraint.all u maxN

/-- The candidate list is the stored list of an entailed constraint of the pattern's
length. -/
def goodList (d : Dict) (pattern : CVec) (L : List Nat) : Prop :=
  ∃ wc, L = d.get_list wc ∧ entailed pattern d.max_n wc ∧ wc.total = pattern.length

/-- A 3-by-4 grid with the words AB (right, from the origin), BCDE (down, from (1,0))
and EF (right, from (1,3)); its six empty cells form two clusters of three cells whose
boundary sets have equal size: one down the left edge starting at (0,1) and one down
the right edge starting at (2,0). -/
def G7 : Crosswords :=
  ((((Crosswords.new 3 4).try_word ⟨0, 0⟩ .Right ['A', 'B']).2.try_word ⟨1, 0⟩ .Down
      ['B', 'C', 'D', 'E']).2.try_word ⟨1, 3⟩ .Right ['E', 'F']).2

/-- The border bit array for a direction. -/
def Crosswords.borderArr (cw : Crosswords) : Dir → List Bool
  | .Right => cw.right_border
  | .Down => cw.down_border

/-- The states of the C5 counterexample: on a fresh 2-by-2 grid, place the all-BLOCK
word "##" downwards, then "AB" rightwards and "AX" downwards, all at the origin. -/
def G5a : Crosswords := ((Crosswords.new 2 2).try_word ⟨0, 0⟩ .Down ['#', '#']).2

def G5b : Crosswords := (G5a.try_word ⟨0, 0⟩ .Right ['A', 'B']).2

def G5c : Crosswords := (G5b.try_word ⟨0, 0⟩ .Down ['A', 'X']).2

/-- The C6 counterexample grid: a 3-by-1 grid holding a stray letter A that belongs to
no placed word. -/
def G6s : Crosswords := ⟨3, 1, ['A', '#', '#'], [true, true], [], ∅⟩

/-- The BARBAZ scenario of C6: on a fresh 6-by-2 grid place BAR and BAZ, then the
superseding BARBAZ across both. -/
def G6a : Crosswords := ((Crosswords.new 6 2).try_word ⟨0, 0⟩ .Right ['B', 'A', 'R']).2

def G6b : Crosswords := (G6a.try_word ⟨3, 0⟩ .Right ['B', 'A', 'Z']).2

def G6c : Crosswords :=
  (G6b.try_word ⟨0, 0⟩ .Right ['B', 'A', 'R', 'B', 'A', 'Z']).2

/-- The index into the border bit array that `get_border`/`set_border` consult. -/
def Crosswords.borderIdx (cw : Crosswords) (d : Dir) (p : Point) : Option Nat :=
  match d with
  | .Right => p.coord (cw.width - 1) cw.height
  | .Down => p.coord cw.width (cw.height - 1)

/-- Well-formed dimensions: positive width and height and arrays of the sizes
`Crosswords::new` allocates. -/
def Crosswords.dimsOK (cw : Crosswords) : Prop :=
  1 ≤ cw.width ∧ 1 ≤ cw.height ∧ cw.chars.length = cw.width * cw.height ∧
    cw.right_border.length = (cw.width - 1) * cw.height ∧
    cw.down_border.length = cw.width * (cw.height - 1)

/-- The border profile of the maximal run beginning at `s`: either the run is empty
(no border before `s`), or it has a border before it, no internal borders, and a
border at its last cell. -/
def Crosswords.IsRun (cw : Crosswords) (s : Point) (d : Dir) (L : Nat) : Prop :=
  (L = 0 ∧ cw.get_border (s - d.point) d = false) ∨
    (1 ≤ L ∧ cw.get_border (s - d.point) d = true ∧
      (∀ k, k + 1 < L → cw.get_border (s + d.point * (k : Int)) d = false) ∧
      cw.get_border (s + d.point * ((L - 1 : Nat) : Int)) d = true)

/-- A run of length at least 2 begins at `s`: the cells of a placed word. -/
def Crosswords.LongRun (cw : Crosswords) (s : Point) (d : Dir) : Prop :=
  2 ≤ cw.rangeLen s d

/-- The representation invariant of the grid: well-formed dimensions; the word set is
exactly the set of words spelled by the runs of length at least 2; the cells of every
such run are inside the grid and hold letters; distinct runs spell distinct words; and
every letter cell belongs to a run in some direction. -/
def Crosswords.Inv (cw : Crosswords) : Prop :=
  cw.dimsOK ∧
    (∀ w : CVec, w ∈ cw.words ↔ ∃ p d, cw.LongRun p d ∧ cw.word_at p d = w) ∧
    (∀ p d, cw.LongRun p d → ∀ k < cw.rangeLen p d,
      ∃ c, cw.get_char (p + d.point * (k : Int)) = some c ∧ c ≠ BLOCK) ∧
    (∀ p d p' d', cw.LongRun p d → cw.LongRun p' d' →
      cw.word_at p d = cw.word_at p' d' → p = p' ∧ d = d') ∧
    (∀ p, cw.is_letter p = true →
      cw.both_borders p .Right = false ∨ cw.both_borders p .Down = false)

/-- The grid states reachable from `new(W, H)` by placements of BLOCK-free words and
removals. -/
inductive ReachableBF : Crosswords → Prop
  | start (w h : Nat) : 1 ≤ w → 1 ≤ h → ReachableBF (Crosswords.new w h)
  | place (cw : Crosswords) (p : Point) (d : Dir) (word : CVec) :
      ReachableBF cw → BLOCK ∉ word → ReachableBF (cw.try_word p d word).2
  | remove (cw : Crosswords) (p : Point) (d : Dir) :
      ReachableBF cw → ReachableBF (cw.pop_word p d).2

/-! Basic lemmas about points, ranges and list access. -/

@[simp] theorem Point.add_x (a b : Point) : (a + b).x = a.x + b.x := rfl

@[simp] theorem Point.add_y (a b : Point) : (a + b).y = a.y + b.y := rfl

@[simp] theorem Point.sub_x (a b : Point) : (a - b).x = a.x - b.x := rfl

@[simp] theorem Point.sub_y (a b : Point) : (a - b).y = a.y - b.y := rfl

@[simp] theorem Point.mul_x (a : Point) (n : Int) : (a * n).x = a.x * n := rfl

@[simp] theorem Point.mul_y (a : Point) (n : Int) : (a * n).y = a.y * n := rfl

theorem Point.ext_xy {a b : Point} (hx : a.x = b.x) (hy : a.y = b.y) : a = b := by
  cases a; cases b; simp_all


theorem pointList_get? (p : Point) (d : Dir) (n k : Nat) :
    (Crosswords.pointList p d n).get? k =
      if k < n then some (p + d.point * (k : Int)) else none := by
  unfold Crosswords.pointList
  rw [List.get?_map]
  by_cases h : k < n
  · rw [List.get?_range h]; simp [h]
  · rw [List.get?_eq_none.mpr (by simpa using Nat.le_of_not_lt h)]
    simp [h]

theorem pointList_length (p : Point) (d : Dir) (n : Nat) :
    (Crosswords.pointList p d n).length = n := by
  unfold Crosswords.pointList
  rw [List.length_map, List.length_range]

theorem mem_pointList {p q : Point} {d : Dir} {n : Nat} :
    q ∈ Crosswords.pointList p d n ↔ ∃ k < n, q = p + d.point * (k : Int) := by
  unfold Crosswords.pointList
  constructor
  · intro hq
    rcases List.mem_map.mp hq with ⟨k, hk, rfl⟩
    exact ⟨k, List.mem_range.mp hk, rfl⟩
  · rintro ⟨k, hk, rfl⟩
    exact List.mem_map.mpr ⟨k, List.mem_range.mpr hk, rfl⟩

theorem zip_all_iff {α β : Type} (f : α × β → Bool) :
    ∀ (l1 : List α) (l2 : List β),
      ((l1.zip l2).all f = true ↔
        ∀ k a b, l1.get? k = some a → l2.get? k = some b → f (a, b) = true)
  | [], l2 => by simp
  | a :: t1, [] => by simp
  | a :: t1, b :: t2 => by
    simp only [List.zip_cons_cons, List.all_cons, Bool.and_eq_true, zip_all_iff f t1 t2]
    constructor
    · rintro ⟨hab, h⟩ k x y hx hy
      cases k with
      | zero => simp at hx hy; subst hx; subst hy; exact hab
      | succ k => exact h k x y hx hy
    · intro h
      refine ⟨h 0 a b rfl rfl, fun k x y hx hy => h (k + 1) x y hx hy⟩

theorem coord_lt {p : Point} {w h i : Nat} (hc : p.coord w h = some i) : i < w * h := by
  unfold Point.coord at hc
  split at hc
  · rename_i hb
    obtain ⟨h1, h2, h3, h4⟩ := hb
    simp only [Option.some.injEq] at hc
    subst hc
    have hx : p.x.toNat < w := by omega
    have hy : p.y.toNat < h := by omega
    calc p.y.toNat * w + p.x.toNat < p.y.toNat * w + w := by omega
      _ = (p.y.toNat + 1) * w := by ring
      _ ≤ h * w := Nat.mul_le_mul_right w hy
      _ = w * h := Nat.mul_comm h w
  · exact absurd hc (by simp)

theorem divmod_unique {w a b c e : Nat} (hb : b < w) (he : e < w)
    (h : a * w + b = c * w + e) : a = c ∧ b = e := by
  have hac : a = c := by
    by_contra hne
    rcases Nat.lt_or_ge a c with hlt | hge
    · have : (a + 1) * w ≤ c * w := Nat.mul_le_mul_right w (Nat.succ_le_of_lt hlt)
      have : a * w + w ≤ c * w := by
        calc a * w + w = (a + 1) * w := by ring
          _ ≤ c * w := this
      omega
    · have hlt' : c < a := by omega
      have : (c + 1) * w ≤ a * w := Nat.mul_le_mul_right w (Nat.succ_le_of_lt hlt')
      have : c * w + w ≤ a * w := by
        calc c * w + w = (c + 1) * w := by ring
          _ ≤ a * w := this
      omega
  subst hac
  omega

theorem coord_inj {p q : Point} {w h i : Nat} (hp : p.coord w h = some i)
    (hq : q.coord w h = some i) : p = q := by
  unfold Point.coord at hp hq
  split at hp
  · rename_i hb
    split at hq
    · rename_i hb'
      simp only [Option.some.injEq] at hp hq
      obtain ⟨h1, h2, h3, h4⟩ := hb
      obtain ⟨h1', h2', h3', h4'⟩ := hb'
      have hbx : p.x.toNat < w := by omega
      have hbx' : q.x.toNat < w := by omega
      have := divmod_unique hbx hbx' (hp.trans hq.symm)
      apply Point.ext_xy <;> omega
    · exact absurd hq (by simp)
  · exact absurd hp (by simp)

theorem is_char_allowed_iff {cw : Crosswords} {q : Point} {c : Char}
    (hdim : cw.width * cw.height ≤ cw.chars.length) :
    cw.is_char_allowed q c = true ↔
      (q.coord cw.width cw.height ≠ none ∧
        (cw.get_char q = some c ∨ cw.get_char q = some BLOCK)) := by
  unfold Crosswords.is_char_allowed Crosswords.get_char
  rcases hc : q.coord cw.width cw.height with _ | i
  · simp
  · have hi : i < cw.chars.length := lt_of_lt_of_le (coord_lt hc) hdim
    have hget : cw.chars.get? i = some (cw.chars.getD i BLOCK) := by
      rcases hg : cw.chars.get? i with _ | a
      · exact absurd (List.get?_eq_none.mp hg) (by omega)
      · rw [List.getD_eq_get?, hg]; rfl
    simp only [Option.some_bind, hget, Option.some.injEq, ne_eq, reduceCtorEq,
      not_false_iff, true_and, Bool.or_eq_true, beq_iff_eq]
    constructor
    · rintro (h | h)
      · exact Or.inl h.symm
      · exact Or.inr h
    · rintro (h | h)
      · exact Or.inl h.symm
      · exact Or.inr h

theorem word_allowed_iff (cw : Crosswords) (p : Point) (d : Dir) (w : CVec)
    (hdim : cw.width * cw.height ≤ cw.chars.length) :
    cw.is_word_allowed p d w = true ↔
      (2 ≤ w.length ∧ w ∉ cw.words ∧
        cw.get_border (p - d.point) d = true ∧
        cw.get_border (p + d.point * ((w.length : Int) - 1)) d = true ∧
        ∀ k < w.length,
          (p + d.point * (k : Int)).coord cw.width cw.height ≠ none ∧
            (cw.get_char (p + d.point * (k : Int)) = w.get? k ∨
              cw.get_char (p + d.point * (k : Int)) = some BLOCK)) := by
  unfold Crosswords.is_word_allowed
  simp only [Bool.and_eq_true, decide_eq_true_eq]
  rw [zip_all_iff]
  constructor
  · rintro ⟨⟨⟨⟨hnotin, hlen⟩, hb1⟩, hb2⟩, hall⟩
    refine ⟨by omega, hnotin, hb1, hb2, ?_⟩
    intro k hk
    obtain ⟨c, hc⟩ : ∃ c, w.get? k = some c := by
      rcases hw : w.get? k with _ | c
      · exact absurd (List.get?_eq_none.mp hw) (by omega)
      · exact ⟨c, rfl⟩
    have hq : (Crosswords.pointList p d w.length).get? k =
        some (p + d.point * (k : Int)) := by
      rw [pointList_get?]; simp [hk]
    have hica := (is_char_allowed_iff hdim).mp (hall k c _ hc hq)
    refine ⟨hica.1, ?_⟩
    rcases hica.2 with h | h
    · exact Or.inl (by rw [h, hc])
    · exact Or.inr h
  · rintro ⟨hlen, hnotin, hb1, hb2, hall⟩
    refine ⟨⟨⟨⟨hnotin, by omega⟩, hb1⟩, hb2⟩, ?_⟩
    intro k c q hc hq
    have hk : k < w.length := (List.get?_eq_some.mp hc).1
    rw [pointList_get?] at hq
    simp only [hk, if_pos, Option.some.injEq] at hq
    subst hq
    obtain ⟨hcoord, hchar⟩ := hall k hk
    apply (is_char_allowed_iff hdim).mpr
    refine ⟨hcoord, ?_⟩
    rcases hchar with h | h
    · exact Or.inl (by rw [h, hc])
    · exact Or.inr h

/-- Claim C2: `is_word_allowed(p, dir, w)` is true iff the word has length at least 2,
is not yet placed, has borders before and after the run, and every cell of the run is
inside the grid and holds the corresponding letter or BLOCK. -/
theorem C2_is_word_allowed_iff (cw : Crosswords) (p : Point) (d : Dir) (w : CVec)
    (hdim : cw.width * cw.height ≤ cw.chars.length) :
    cw.is_word_allowed p d w = true ↔
      (2 ≤ w.length ∧ w ∉ cw.words ∧
        cw.get_border (p - d.point) d = true ∧
        cw.get_border (p + d.point * ((w.length : Int) - 1)) d = true ∧
        ∀ k < w.length,
          (p + d.point * (k : Int)).coord cw.width cw.height ≠ none ∧
            (cw.get_char (p + d.point * (k : Int)) = w.get? k ∨
              cw.get_char (p + d.point * (k : Int)) = some BLOCK)) :=
  word_allowed_iff cw p d w hdim

/-- Witness for C2: on a fresh 2-by-2 grid the characterization shows that placing
"AB" at the origin rightwards is allowed. -/
theorem C2_is_word_allowed_iff_witness :
    (Crosswords.new 2 2).is_word_allowed ⟨0, 0⟩ .Right ['A', 'B'] = true :=
  (C2_is_word_allowed_iff (Crosswords.new 2 2) ⟨0, 0⟩ .Right ['A', 'B']
    (by decide)).mpr (by decide)

/-- Claim C3: `try_word` leaves the grid untouched when it returns false, and it
returns true exactly when `is_word_allowed` holds. -/
theorem C3_try_word_rollback (cw : Crosswords) (p : Point) (d : Dir) (w : CVec) :
    ((cw.try_word p d w).1 = false → (cw.try_word p d w).2 = cw) ∧
      ((cw.try_word p d w).1 = true ↔ cw.is_word_allowed p d w = true) := by
  unfold Crosswords.try_word
  by_cases h : cw.is_word_allowed p d w <;> simp [h]

/-- Witness for C3: a one-letter word is rejected on a fresh grid and the state is
returned unchanged. -/
theorem C3_try_word_rollback_witness :
    ((Crosswords.new 2 2).try_word ⟨0, 0⟩ .Right ['A']).2 = Crosswords.new 2 2 :=
  (C3_try_word_rollback (Crosswords.new 2 2) ⟨0, 0⟩ .Right ['A']).1 (by decide)

/-- Claim C9: when the word at the position has length at most 1, `pop_word` returns
the empty vector and leaves the grid unchanged. -/
theorem C9_pop_word_noop (cw : Crosswords) (p : Point) (d : Dir)
    (h : (cw.word_at p d).length ≤ 1) : cw.pop_word p d = ([], cw) := by
  unfold Crosswords.pop_word
  simp [h]

/-- Witness for C9: popping at the origin of a fresh grid is a no-op. -/
theorem C9_pop_word_noop_witness :
    (Crosswords.new 2 2).pop_word ⟨0, 0⟩ .Right = ([], Crosswords.new 2 2) :=
  C9_pop_word_noop (Crosswords.new 2 2) ⟨0, 0⟩ .Right (by decide)

/-- Claim C8: normalization ASCII-uppercases, trims, expands the umlauts and ß to
digraphs, and keeps the result exactly when every character is an ASCII letter and the
length is at least 2; the examples Straße, SIEß and zoo are kept as STRASSE, SIESS and
ZOO while "hi!" and "a" are dropped. -/
theorem C8_normalize_word :
    (∀ s w, normalize_word s = some w ↔
      (w = normalizedForm s ∧ w.all asciiAlpha = true ∧ 2 ≤ w.length)) ∧
      normalize_word "Straße".toList = some "STRASSE".toList ∧
      normalize_word "SIEß".toList = some "SIESS".toList ∧
      normalize_word "zoo".toList = some "ZOO".toList ∧
      normalize_word "hi!".toList = none ∧
      normalize_word "a".toList = none := by
  refine ⟨?_, by decide, by decide, by decide, by decide, by decide⟩
  intro s w
  unfold normalize_word
  by_cases h : (normalizedForm s).all asciiAlpha ∧ 1 < (normalizedForm s).length
  · rw [if_pos h]
    constructor
    · rintro h'
      simp only [Option.some.injEq] at h'
      subst h'
      exact ⟨rfl, h.1, h.2⟩
    · rintro ⟨rfl, _, _⟩; rfl
  · rw [if_neg h]
    constructor
    · rintro h'; exact absurd h' (by simp)
    · rintro ⟨rfl, ha, hl⟩
      exact absurd ⟨ha, by omega⟩ h

/-! Dictionary index lemmas (claims C4 and C10). -/

theorem mem_all_length {L : Nat} {w : CVec} {maxN : Nat} :
    WordConstraint.length L ∈ WordConstraint.all w maxN ↔ L = w.length := by
  unfold WordConstraint.all
  simp only [List.mem_cons, List.mem_flatMap, List.mem_map, WordConstraint.length.injEq]
  constructor
  · rintro (h | ⟨n, _, off, _, heq⟩)
    · exact h
    · exact absurd heq (by simp)
  · intro h; exact Or.inl h

theorem mem_all_ngram {g : List Char} {off L : Nat} {w : CVec} {maxN : Nat} :
    WordConstraint.ngram g off L ∈ WordConstraint.all w maxN ↔
      (1 ≤ g.length ∧ g.length ≤ maxN ∧ off + g.length ≤ w.length ∧ L = w.length ∧
        g = (w.drop off).take g.length) := by
  unfold WordConstraint.all
  simp only [List.mem_cons, List.mem_flatMap, List.mem_map, List.mem_range,
    List.mem_range'_1, WordConstraint.ngram.injEq]
  constructor
  · rintro (h | ⟨n, ⟨hn1, hn2⟩, off', hoff', hg, hoff, hL⟩)
    · exact absurd h (by simp)
    · subst hoff
      have hnw : n ≤ w.length := by omega
      have hoffn : off' + n ≤ w.length := by omega
      have hglen : g.length = n := by
        rw [← hg, List.length_take, List.length_drop]
        omega
      subst hglen
      exact ⟨hn1, by omega, hoffn, hL.symm, hg.symm⟩
  · rintro ⟨h1, h2, h3, h4, h5⟩
    exact Or.inr ⟨g.length, ⟨h1, by omega⟩, off, by omega, h5.symm, rfl, h4.symm⟩

theorem total_of_mem_all {wc : WordConstraint} {w : CVec} {maxN : Nat}
    (h : wc ∈ WordConstraint.all w maxN) : wc.total = w.length := by
  cases wc with
  | length L => simpa [WordConstraint.total] using mem_all_length.mp h
  | ngram g off L =>
    have := (mem_all_ngram.mp h).2.2.2.1
    simpa [WordConstraint.total]

theorem mem_get_list {d : Dict} {wc : WordConstraint} {i : Nat} :
    i ∈ d.get_list wc ↔
      (i < d.words.length ∧ wc ∈ WordConstraint.all (d.words.getD i []) d.max_n) := by
  unfold Dict.get_list
  rw [List.mem_filter, List.mem_range]
  simp only [decide_eq_true_eq]

theorem entailed_length (pattern : CVec) (maxN : Nat) :
    entailed pattern maxN (.length pattern.length) := by
  intro u hu _
  exact mem_all_length.mpr hu.symm

theorem take_drop_congr {u pattern : CVec} (a n : Nat)
    (hle : a + n ≤ pattern.length) (hlen : u.length = pattern.length)
    (hagree : ∀ j, a ≤ j → j < a + n → u.get? j = pattern.get? j) :
    (u.drop a).take n = (pattern.drop a).take n := by
  apply List.ext_get?
  intro j
  by_cases hj : j < n
  · rw [List.get?_take hj, List.get?_take hj, List.get?_drop, List.get?_drop]
    exact hagree (a + j) (by omega) (by omega)
  · have h1 : ((u.drop a).take n).length ≤ j := by
      rw [List.length_take, List.length_drop]; omega
    have h2 : ((pattern.drop a).take n).length ≤ j := by
      rw [List.length_take, List.length_drop]; omega
    rw [List.get?_eq_none.mpr h1, List.get?_eq_none.mpr h2]

theorem entailed_ngram (pattern : CVec) (maxN : Nat) (pos i dp : Nat)
    (hmax : 1 ≤ maxN) (hpi : pos < i) (hi : i ≤ pattern.length)
    (hnb : ∀ j, pos ≤ j → j < i → pattern.get? j ≠ some BLOCK)
    (hdp : 1 ≤ dp) (hdpn : dp + min maxN (i - pos) ≤ i - pos - 1) :
    entailed pattern maxN
      (.ngram ((((pattern.drop pos).take (i - pos)).drop dp).take (min maxN (i - pos)))
        (pos + dp) pattern.length) := by
  intro u hulen humatch
  set n := min maxN (i - pos) with hn
  have hn1 : 1 ≤ n := by omega
  have hnmax : n ≤ maxN := by omega
  have hbound : pos + dp + n ≤ i := by omega
  have hseg : (((pattern.drop pos).take (i - pos)).drop dp).take n =
      (pattern.drop (pos + dp)).take n := by
    rw [List.drop_take, List.drop_drop]
    have : i - pos - dp ≥ n := by omega
    rw [List.take_take]
    congr 1
    · omega
  rw [hseg]
  have hglen : ((pattern.drop (pos + dp)).take n).length = n := by
    rw [List.length_take, List.length_drop]; omega
  apply mem_all_ngram.mpr
  refine ⟨by omega, by omega, by omega, hulen.symm, ?_⟩
  rw [hglen]
  have := take_drop_congr (pos + dp) n (by omega) hulen ?_
  · exact this.symm
  · intro j hj1 hj2
    exact humatch j (by omega) (hnb j (by omega) (by omega))

theorem foldl_adoptShorter {P : List Nat → Prop} (cand : Nat → List Nat) :
    ∀ (l : List Nat) (acc : List Nat), P acc → (∀ dp ∈ l, P (cand dp)) →
      P (l.foldl (fun a dp => adoptShorter a (cand dp)) acc)
  | [], acc, hacc, _ => hacc
  | dp :: rest, acc, hacc, hcand => by
    rw [List.foldl_cons]
    apply foldl_adoptShorter cand rest
    · unfold adoptShorter
      split
      · exact hcand dp (by simp)
      · exact hacc
    · intro dp' h'
      exact hcand dp' (by simp [h'])

theorem gmwl_fold_inv (d : Dict) (pattern : CVec) (hmax : 1 ≤ d.max_n) :
    ∀ (rest : List Nat) (list : List Nat) (pos : Nat),
      List.Pairwise (· < ·) rest →
      (∀ j ∈ rest, pos ≤ j ∧ j ≤ pattern.length) →
      (∀ j, pos ≤ j → j < pattern.length → pattern.get? j = some BLOCK → j ∈ rest) →
      goodList d pattern list →
      goodList d pattern
        (rest.foldl (gmwlStep d pattern pattern.length) (list, pos)).1
  | [], list, pos, _, _, _, hgood => hgood
  | i :: rest, list, pos, hpw, hbnd, hblk, hgood => by
    rw [List.foldl_cons]
    have hi_le : i ≤ pattern.length := (hbnd i (by simp)).2
    have hpos_le : pos ≤ i := (hbnd i (by simp)).1
    have hstep : gmwlStep d pattern pattern.length (list, pos) i =
        ((gmwlStep d pattern pattern.length (list, pos) i).1, i + 1) := by
      unfold gmwlStep; rfl
    rw [hstep]
    apply gmwl_fold_inv d pattern hmax rest _ (i + 1) (hpw.sublist (by simp))
    · intro j hj
      have := (List.pairwise_cons.mp hpw).1 j hj
      exact ⟨by omega, (hbnd j (by simp [hj])).2⟩
    · intro j hj1 hj2 hj3
      have := hblk j (by omega) hj2 hj3
      rcases List.mem_cons.mp this with rfl | h
      · omega
      · exact h
    · show goodList d pattern (gmwlStep d pattern pattern.length (list, pos) i).1
      unfold gmwlStep
      by_cases hpi : pos < i
      · simp only [hpi, if_pos]
        apply foldl_adoptShorter _ _ _ hgood
        intro dp hdp
        rw [List.mem_range'_1] at hdp
        refine ⟨_, rfl, ?_, rfl⟩
        exact entailed_ngram pattern d.max_n pos i dp hmax hpi hi_le
          (fun j hj1 hj2 hj3 =>
            absurd (hblk j hj1 (by omega) hj3)
              (by
                intro hmem
                rcases List.mem_cons.mp hmem with rfl | hmem'
                · omega
                · exact absurd ((List.pairwise_cons.mp hpw).1 j hmem') (by omega)))
          (by omega) (by omega)
      · simp only [hpi, if_neg, if_false]
        exact hgood

theorem gmwl_good (d : Dict) (pattern : CVec) (hmax : 1 ≤ d.max_n) :
    goodList d pattern (get_matching_word_list d pattern) := by
  unfold get_matching_word_list
  apply gmwl_fold_inv d pattern hmax
  · apply List.pairwise_append.mpr
    refine ⟨(List.pairwise_lt_range pattern.length).filter _, by simp, ?_⟩
    intro a ha b hb
    simp only [List.mem_singleton] at hb
    subst hb
    exact List.mem_range.mp (List.mem_of_mem_filter ha)
  · intro j hj
    rcases List.mem_append.mp hj with h | h
    · exact ⟨Nat.zero_le j, Nat.le_of_lt (List.mem_range.mp (List.mem_of_mem_filter h))⟩
    · simp only [List.mem_singleton] at h
      subst h
      exact ⟨Nat.zero_le _, le_refl _⟩
  · intro j _ hj2 hj3
    apply List.mem_append.mpr
    left
    apply List.mem_filter.mpr
    refine ⟨List.mem_range.mpr hj2, ?_⟩
    rw [beq_iff_eq]
    exact hj3
  · exact ⟨.length pattern.length, rfl, entailed_length pattern d.max_n, rfl⟩

theorem matchesPattern_iff {w pattern : CVec} (hl : w.length = pattern.length) :
    matchesPattern w pattern = true ↔
      ∀ i < pattern.length, pattern.get? i ≠ some BLOCK → w.get? i = pattern.get? i := by
  unfold matchesPattern
  simp only [Bool.and_eq_true, decide_eq_true_eq]
  rw [zip_all_iff]
  constructor
  · rintro ⟨_, hall⟩ i hi hnb
    obtain ⟨a, ha⟩ : ∃ a, w.get? i = some a := by
      rcases hg : w.get? i with _ | a
      · exact absurd (List.get?_eq_none.mp hg) (by omega)
      · exact ⟨a, rfl⟩
    obtain ⟨b, hb⟩ : ∃ b, pattern.get? i = some b := by
      rcases hg : pattern.get? i with _ | b
      · exact absurd (List.get?_eq_none.mp hg) (by omega)
      · exact ⟨b, rfl⟩
    have := hall i a b ha hb
    simp only [Bool.or_eq_true, beq_iff_eq] at this
    rcases this with h | h
    · rw [ha, hb, h]
    · exact absurd (by rw [hb, h]) hnb
  · intro hp
    refine ⟨le_of_eq hl, ?_⟩
    intro k a b ha hb
    simp only [Bool.or_eq_true, beq_iff_eq]
    by_cases hB : b = BLOCK
    · exact Or.inr hB
    · left
      have hk : k < pattern.length := (List.get?_eq_some.mp hb).1
      have := hp k hk (by rw [hb]; simp [hB])
      rw [ha, hb] at this
      exact Option.some.injEq _ _ ▸ this.symm ▸ rfl

theorem mem_patternYields (d : Dict) (pattern : CVec) :
    ∀ (list : List Nat), (∀ i ∈ list, i < d.words.length) → ∀ w,
      (w ∈ patternYields d pattern list ↔
        ∃ i ∈ list, d.words.get? i = some w ∧ matchesPattern w pattern = true)
  | [], _, w => by simp [patternYields]
  | i :: rest, hvalid, w => by
    have hi : i < d.words.length := hvalid i (by simp)
    obtain ⟨wi, hwi⟩ : ∃ wi, d.words.get? i = some wi := by
      rcases hg : d.words.get? i with _ | wi
      · exact absurd (List.get?_eq_none.mp hg) (by omega)
      · exact ⟨wi, rfl⟩
    have ihyp := mem_patternYields d pattern rest (fun j hj => hvalid j (by simp [hj])) w
    have hstep : patternYields d pattern (i :: rest) =
        if matchesPattern wi pattern then wi :: patternYields d pattern rest
        else patternYields d pattern rest := by
      have h0 : patternYields d pattern (i :: rest) =
          match d.words.get? i with
          | none => []
          | some w =>
            if matchesPattern w pattern then w :: patternYields d pattern rest
            else patternYields d pattern rest := rfl
      rw [h0, hwi]
    rw [hstep]
    by_cases hm : matchesPattern wi pattern
    · rw [if_pos hm]
      simp only [List.mem_cons, ihyp]
      constructor
      · rintro (rfl | ⟨j, hj, hg, hm'⟩)
        · exact ⟨i, Or.inl rfl, hwi, hm⟩
        · exact ⟨j, Or.inr hj, hg, hm'⟩
      · rintro ⟨j, hj, hg, hm'⟩
        rcases hj with rfl | hj'
        · left; rw [hwi] at hg; exact (Option.some.inj hg).symm
        · exact Or.inr ⟨j, hj', hg, hm'⟩
    · rw [if_neg hm, ihyp]
      constructor
      · rintro ⟨j, hj, hg, hm'⟩
        exact ⟨j, List.mem_cons.mpr (Or.inr hj), hg, hm'⟩
      · rintro ⟨j, hj, hg, hm'⟩
        rcases List.mem_cons.mp hj with rfl | hj'
        · rw [hwi] at hg
          exact absurd ((Option.some.inj hg) ▸ hm') hm
        · exact ⟨j, hj', hg, hm'⟩

theorem patternNext_eq (d : Dict) (pattern : CVec) (list : List Nat) (index : Nat) :
    patternNext d pattern list index =
      match (list.get? index).bind fun i => d.words.get? i with
      | none => (none, index + 1)
      | some w =>
        if matchesPattern w pattern then (some w, index + 1)
        else patternNext d pattern list (index + 1) := by
  rw [patternNext]
  split
  · rename_i h
    rw [h]
  · rename_i w h
    rw [h]

theorem patternNext_of_none {d : Dict} {pattern : CVec} {list : List Nat} {index : Nat}
    (h : ((list.get? index).bind fun i => d.words.get? i) = none) :
    patternNext d pattern list index = (none, index + 1) := by
  rw [patternNext_eq, h]

theorem patternNext_of_match {d : Dict} {pattern : CVec} {list : List Nat} {index : Nat}
    {w : CVec} (h : ((list.get? index).bind fun i => d.words.get? i) = some w)
    (hm : matchesPattern w pattern = true) :
    patternNext d pattern list index = (some w, index + 1) := by
  rw [patternNext_eq, h]
  dsimp only
  rw [if_pos hm]

theorem patternNext_of_skip {d : Dict} {pattern : CVec} {list : List Nat} {index : Nat}
    {w : CVec} (h : ((list.get? index).bind fun i => d.words.get? i) = some w)
    (hm : ¬matchesPattern w pattern = true) :
    patternNext d pattern list index = patternNext d pattern list (index + 1) := by
  rw [patternNext_eq, h]
  dsimp only
  rw [if_neg hm]

theorem patternCollect_succ (d : Dict) (pattern : CVec) (list : List Nat)
    (fuel index : Nat) :
    patternCollect d pattern list (fuel + 1) index =
      match patternNext d pattern list index with
      | (none, _) => []
      | (some w, index') => w :: patternCollect d pattern list fuel index' := rfl

theorem collect_eq_yields (d : Dict) (pattern : CVec) (list : List Nat) :
    ∀ (index fuel : Nat), list.length - index < fuel →
      patternCollect d pattern list fuel index =
        patternYields d pattern (list.drop index) := by
  have H : ∀ (n index fuel : Nat), list.length - index ≤ n →
      list.length - index < fuel →
      patternCollect d pattern list fuel index =
        patternYields d pattern (list.drop index) := by
    intro n
    induction n with
    | zero =>
      intro index fuel h0 hf
      obtain ⟨f, rfl⟩ : ∃ f, fuel = f + 1 := ⟨fuel - 1, by omega⟩
      have hlen : list.length ≤ index := by omega
      have hg : list.get? index = none := List.get?_eq_none.mpr hlen
      rw [List.drop_eq_nil_of_le hlen, patternCollect_succ,
        patternNext_of_none (by rw [hg]; rfl)]
      rfl
    | succ n ih =>
      intro index fuel hle hf
      obtain ⟨f, rfl⟩ : ∃ f, fuel = f + 1 := ⟨fuel - 1, by omega⟩
      rcases hg : list.get? index with _ | i
      · have hlen : list.length ≤ index := List.get?_eq_none.mp hg
        rw [List.drop_eq_nil_of_le hlen, patternCollect_succ,
          patternNext_of_none (by rw [hg]; rfl)]
        rfl
      · have hlen : index < list.length := (List.get?_eq_some.mp hg).1
        have hdrop : list.drop index = i :: list.drop (index + 1) := by
          rw [List.drop_eq_get_cons hlen]
          congr 1
          exact (List.get?_eq_some.mp hg).2
        rw [hdrop]
        have hyield : patternYields d pattern (i :: list.drop (index + 1)) =
            match d.words.get? i with
            | none => []
            | some w =>
              if matchesPattern w pattern then
                w :: patternYields d pattern (list.drop (index + 1))
              else patternYields d pattern (list.drop (index + 1)) := rfl
        rcases hw : d.words.get? i with _ | w
        · rw [patternCollect_succ, patternNext_of_none (by rw [hg]; simpa using hw),
            hyield, hw]
        · by_cases hm : matchesPattern w pattern
          · rw [patternCollect_succ,
              patternNext_of_match (by rw [hg]; simpa using hw) hm, hyield, hw]
            dsimp only
            rw [if_pos hm]
            congr 1
            exact ih (index + 1) f (by omega) (by omega)
          · have hcol : patternCollect d pattern list (f + 1) index =
                patternCollect d pattern list (f + 1) (index + 1) := by
              rw [patternCollect_succ, patternCollect_succ,
                patternNext_of_skip (by rw [hg]; simpa using hw) hm]
            rw [hcol, ih (index + 1) (f + 1) (by omega) (by omega), hyield, hw]
            dsimp only
            rw [if_neg hm]
  intro index fuel h
  exact H (list.length - index) index fuel (le_refl _) h

theorem patternYields_length (d : Dict) (pattern : CVec) :
    ∀ list : List Nat, (patternYields d pattern list).length ≤ list.length
  | [] => by simp [patternYields]
  | i :: rest => by
    have ih := patternYields_length d pattern rest
    have h0 : patternYields d pattern (i :: rest) =
        match d.words.get? i with
        | none => []
        | some w =>
          if matchesPattern w pattern then w :: patternYields d pattern rest
          else patternYields d pattern rest := rfl
    rw [h0]
    rcases d.words.get? i with _ | w
    · simp
    · dsimp only
      by_cases hm : matchesPattern w pattern
      · rw [if_pos hm]
        simpa using ih
      · rw [if_neg hm]
        calc (patternYields d pattern rest).length ≤ rest.length := ih
          _ ≤ (i :: rest).length := by simp

/-- Claim C4: for a dictionary built from any sequence of words and any pattern,
`matching_words` yields exactly the stored words of the pattern's length that agree
with the pattern at every non-BLOCK position: the selected candidate list is a
superset of the matching words and the final filter is exact. -/
theorem C4_matching_words (ws : List CVec) (pattern w : CVec) :
    w ∈ matching_words (Dict.new ws) pattern ↔
      (w ∈ ws ∧ w.length = pattern.length ∧
        ∀ i < pattern.length, pattern.get? i ≠ some BLOCK →
          w.get? i = pattern.get? i) := by
  have hmax : 1 ≤ (Dict.new ws).max_n := by simp [Dict.new]
  obtain ⟨wc, hlist, hent, htot⟩ := gmwl_good (Dict.new ws) pattern hmax
  have hwords : (Dict.new ws).words = ws := rfl
  unfold matching_words
  rw [collect_eq_yields _ _ _ 0 _ (by omega), List.drop_zero]
  have hvalid : ∀ i ∈ get_matching_word_list (Dict.new ws) pattern,
      i < (Dict.new ws).words.length := by
    intro i hi
    rw [hlist] at hi
    exact (mem_get_list.mp hi).1
  rw [mem_patternYields (Dict.new ws) pattern _ hvalid w]
  constructor
  · rintro ⟨i, hi, hget, hm⟩
    rw [hlist] at hi
    obtain ⟨hilen, hall⟩ := mem_get_list.mp hi
    have hgetD : (Dict.new ws).words.getD i [] = w := by
      rw [List.getD_eq_get?, hget]; rfl
    rw [hgetD] at hall
    have hlen : w.length = pattern.length := by
      have := total_of_mem_all hall
      omega
    refine ⟨List.get?_mem (hwords ▸ hget), hlen, (matchesPattern_iff hlen).mp hm⟩
  · rintro ⟨hmem, hlen, hpos⟩
    obtain ⟨i, hget⟩ := List.mem_iff_get?.mp (hwords ▸ hmem : w ∈ (Dict.new ws).words)
    have hilen : i < (Dict.new ws).words.length := (List.get?_eq_some.mp hget).1
    refine ⟨i, ?_, hget, (matchesPattern_iff hlen).mpr hpos⟩
    rw [hlist]
    apply mem_get_list.mpr
    refine ⟨hilen, ?_⟩
    have hgetD : (Dict.new ws).words.getD i [] = w := by
      rw [List.getD_eq_get?, hget]; rfl
    rw [hgetD]
    exact hent w hlen hpos

/-- Witness for C4: the source's own dictionary test: FOE matches the pattern "#OE"
over the word set FOO, FOOBAR, FOE, TOE. -/
theorem C4_matching_words_witness :
    ['F', 'O', 'E'] ∈ matching_words
      (Dict.new [['F', 'O', 'O'], ['F', 'O', 'O', 'B', 'A', 'R'], ['F', 'O', 'E'],
        ['T', 'O', 'E']]) ['#', 'O', 'E'] :=
  (C4_matching_words [['F', 'O', 'O'], ['F', 'O', 'O', 'B', 'A', 'R'], ['F', 'O', 'E'],
    ['T', 'O', 'E']] ['#', 'O', 'E'] ['F', 'O', 'E']).mpr (by decide)

/-- Claim C10: each call of the pattern iterator's `next` strictly advances the index;
once the index is past the end of the candidate list the vacuous match ends the loop
with `None`; and the collected iterator yields at most one word per candidate-list
entry, so the iterator is finite. -/
theorem C10_pattern_iter_finite (d : Dict) (pattern : CVec) (list : List Nat)
    (index : Nat) :
    index < (patternNext d pattern list index).2 ∧
      (list.length ≤ index → patternNext d pattern list index = (none, index + 1)) ∧
      (patternCollect d pattern list (list.length + 1) 0).length ≤ list.length := by
  refine ⟨?_, ?_, ?_⟩
  · have H : ∀ (n idx : Nat), list.length - idx ≤ n →
        idx < (patternNext d pattern list idx).2 := by
      intro n
      induction n with
      | zero =>
        intro idx h0
        have hg : list.get? idx = none := List.get?_eq_none.mpr (by omega)
        rw [patternNext_of_none (by rw [hg]; rfl)]
        omega
      | succ n ih =>
        intro idx hle
        rcases hg : list.get? idx with _ | i
        · rw [patternNext_of_none (by rw [hg]; rfl)]
          omega
        · have hlen : idx < list.length := (List.get?_eq_some.mp hg).1
          rcases hw : d.words.get? i with _ | w
          · rw [patternNext_of_none (by rw [hg]; simpa using hw)]
            omega
          · by_cases hm : matchesPattern w pattern
            · rw [patternNext_of_match (by rw [hg]; simpa using hw) hm]
              omega
            · rw [patternNext_of_skip (by rw [hg]; simpa using hw) hm]
              have := ih (idx + 1) (by omega)
              omega
    exact H (list.length - index) index (le_refl _)
  · intro hlen
    exact patternNext_of_none (by rw [List.get?_eq_none.mpr hlen]; rfl)
  · rw [collect_eq_yields _ _ _ 0 _ (by omega), List.drop_zero]
    exact patternYields_length d pattern list

/-- Witness for C10: past the end of an empty candidate list, `next` returns `None`
and advances the index. -/
theorem C10_pattern_iter_finite_witness :
    patternNext (Dict.new []) [] [] 0 = (none, 1) :=
  (C10_pattern_iter_finite (Dict.new []) [] [] 0).2.1 (by decide)

/-- Counterexample to claim C7: the source scans with `x` in the outer loop and `y` in
the inner loop, so on the grid `G7`, whose two empty clusters tie in boundary size,
the returned boundary differs from the row-major-scan result asserted by the claim:
the row-major scan would return the cluster whose first boundary point is (2,0), yet
the code does not. -/
theorem C7_scan_order_counterexample :
    Crosswords.get_smallest_boundary G7 ≠ Crosswords.get_smallest_boundary_rowmajor G7
      ∧ Crosswords.get_smallest_boundary_rowmajor G7 = G7.boundarySet ⟨2, 0⟩
      ∧ (G7.boundarySet ⟨0, 1⟩).card = (G7.boundarySet ⟨2, 0⟩).card := by
  refine ⟨by decide, by decide, by decide⟩

/-- Claim C7 as amended: `get_smallest_boundary` scans column-major (`x` increasing in
the outer loop, `y` in the inner loop); on the tie grid `G7` the returned set is the
boundary of the cluster whose first boundary point (0,1) comes earliest in
column-major order, although the first boundary point in row-major order is (2,0) and
belongs to the other, equally large, cluster. -/
theorem C7_scan_order_colmajor :
    Crosswords.get_smallest_boundary G7 = G7.boundarySet ⟨0, 1⟩
      ∧ (G7.boundarySet ⟨0, 1⟩).card = (G7.boundarySet ⟨2, 0⟩).card
      ∧ G7.boundarySet ⟨0, 1⟩ ≠ G7.boundarySet ⟨2, 0⟩
      ∧ (G7.colMajorCells.filter fun q => G7.is_boundary_point q).head? =
          some ⟨0, 1⟩
      ∧ (G7.rowMajorCells.filter fun q => G7.is_boundary_point q).head? =
          some ⟨2, 0⟩ := by
  refine ⟨by decide, by decide, by decide, by decide, by decide⟩

/-! Point arithmetic along a direction. -/

theorem point_mul_zero (p dp : Point) : p + dp * ((0 : Nat) : Int) = p := by
  apply Point.ext_xy <;> simp

theorem point_mul_succ (p dp : Point) (k : Nat) :
    p + dp * ((k + 1 : Nat) : Int) = (p + dp) + dp * (k : Int) := by
  apply Point.ext_xy <;> (push_cast; simp; ring)

theorem point_mul_sub_one (p dp : Point) (k : Nat) (hk : 1 ≤ k) :
    (p + dp * (k : Int)) - dp = p + dp * ((k - 1 : Nat) : Int) := by
  obtain ⟨j, rfl⟩ : ∃ j, k = j + 1 := ⟨k - 1, by omega⟩
  apply Point.ext_xy <;> (push_cast; simp; ring)

theorem dirPt_cancel {d : Dir} {p : Point} {a b : Int}
    (h : p + d.point * a = p + d.point * b) : a = b := by
  cases d <;>
    (have hx := congrArg Point.x h
     have hy := congrArg Point.y h
     simp [Dir.point] at hx hy
     omega)

theorem dirPt_cancel_nat {d : Dir} {p : Point} {a b : Nat}
    (h : p + d.point * (a : Int) = p + d.point * (b : Int)) : a = b := by
  have := dirPt_cancel h
  omega

theorem dirPt_shift (d : Dir) (p : Point) (a b : Nat) :
    (p + d.point * (a : Int)) + d.point * (b : Int) = p + d.point * ((a + b : Nat) : Int) := by
  apply Point.ext_xy <;> (push_cast; simp; ring)

/-! Accessing and updating borders. -/

theorem get_border_eq (cw : Crosswords) (p : Point) (d : Dir) :
    cw.get_border p d =
      match cw.borderIdx d p with
      | none => true
      | some i => (cw.borderArr d).getD i true := by
  cases d <;> rfl

theorem set_border_of_idx_none {cw : Crosswords} {p : Point} {d : Dir} {v : Bool}
    (h : cw.borderIdx d p = none) : cw.set_border p d v = cw := by
  cases d <;>
    (dsimp only [Crosswords.set_border]
     dsimp only [Crosswords.borderIdx] at h
     rw [h])

theorem set_border_width (cw : Crosswords) (p : Point) (d : Dir) (v : Bool) :
    (cw.set_border p d v).width = cw.width := by
  cases d <;> (dsimp only [Crosswords.set_border]; split <;> rfl)

theorem set_border_height (cw : Crosswords) (p : Point) (d : Dir) (v : Bool) :
    (cw.set_border p d v).height = cw.height := by
  cases d <;> (dsimp only [Crosswords.set_border]; split <;> rfl)

theorem set_border_chars (cw : Crosswords) (p : Point) (d : Dir) (v : Bool) :
    (cw.set_border p d v).chars = cw.chars := by
  cases d <;> (dsimp only [Crosswords.set_border]; split <;> rfl)

theorem set_border_words (cw : Crosswords) (p : Point) (d : Dir) (v : Bool) :
    (cw.set_border p d v).words = cw.words := by
  cases d <;> (dsimp only [Crosswords.set_border]; split <;> rfl)

theorem borderIdx_congr {cw1 cw2 : Crosswords} (hw : cw1.width = cw2.width)
    (hh : cw1.height = cw2.height) (d : Dir) (p : Point) :
    cw1.borderIdx d p = cw2.borderIdx d p := by
  cases d <;> (unfold Crosswords.borderIdx; rw [hw, hh])

theorem set_border_borderIdx (cw : Crosswords) (p : Point) (d : Dir) (v : Bool) :
    ∀ d' q, (cw.set_border p d v).borderIdx d' q = cw.borderIdx d' q := by
  intro d' q
  exact borderIdx_congr (set_border_width cw p d v) (set_border_height cw p d v) d' q

theorem borderArr_set_border_self (cw : Crosswords) (p : Point) (d : Dir) (v : Bool)
    {i : Nat} (h : cw.borderIdx d p = some i) :
    (cw.set_border p d v).borderArr d = (cw.borderArr d).set i v := by
  cases d <;>
    (dsimp only [Crosswords.set_border]
     dsimp only [Crosswords.borderIdx] at h
     rw [h]
     rfl)

theorem borderArr_set_border_other {cw : Crosswords} {p : Point} {d d' : Dir}
    {v : Bool} (h : d' ≠ d) :
    (cw.set_border p d v).borderArr d' = cw.borderArr d' := by
  cases d <;> cases d' <;> first
    | exact absurd rfl h
    | (dsimp only [Crosswords.set_border]
       split <;> rfl)

theorem get_border_set_same {cw : Crosswords} {p : Point} {d : Dir} {v : Bool}
    {i : Nat} (h : cw.borderIdx d p = some i) (hi : i < (cw.borderArr d).length) :
    (cw.set_border p d v).get_border p d = v := by
  rw [get_border_eq, set_border_borderIdx, h, borderArr_set_border_self cw p d v h]
  simp [List.getD_eq_get?, List.get?_set_eq, hi]

theorem get_border_set_of_dir {cw : Crosswords} {p : Point} {d d' : Dir} {v : Bool}
    (hne : d' ≠ d) (r : Point) :
    (cw.set_border p d v).get_border r d' = cw.get_border r d' := by
  rw [get_border_eq, set_border_borderIdx, borderArr_set_border_other hne,
    ← get_border_eq]

theorem get_border_set_of_ne {cw : Crosswords} {p : Point} {d : Dir} {v : Bool}
    {r : Point} (hne : r ≠ p) :
    (cw.set_border p d v).get_border r d = cw.get_border r d := by
  rcases h : cw.borderIdx d p with _ | i
  · rw [set_border_of_idx_none h]
  · rw [get_border_eq, set_border_borderIdx, borderArr_set_border_self cw p d v h,
      get_border_eq]
    rcases hr : cw.borderIdx d r with _ | j
    · rfl
    · have hij : j ≠ i := by
        intro hji
        subst hji
        exact hne (by
          cases d <;> exact coord_inj hr h)
      dsimp only
      rw [List.getD_eq_get?, List.getD_eq_get?, List.get?_set_ne _ _ (Ne.symm hij)]

/-! Accessing and updating characters. -/

theorem put_char_width (cw : Crosswords) (p : Point) (c : Char) :
    (cw.put_char p c).width = cw.width := by
  unfold Crosswords.put_char
  split <;> rfl

theorem put_char_height (cw : Crosswords) (p : Point) (c : Char) :
    (cw.put_char p c).height = cw.height := by
  unfold Crosswords.put_char
  split <;> rfl

theorem put_char_right_border (cw : Crosswords) (p : Point) (c : Char) :
    (cw.put_char p c).right_border = cw.right_border := by
  unfold Crosswords.put_char
  split <;> rfl

theorem put_char_down_border (cw : Crosswords) (p : Point) (c : Char) :
    (cw.put_char p c).down_border = cw.down_border := by
  unfold Crosswords.put_char
  split <;> rfl

theorem put_char_words (cw : Crosswords) (p : Point) (c : Char) :
    (cw.put_char p c).words = cw.words := by
  unfold Crosswords.put_char
  split <;> rfl

theorem put_char_chars_length (cw : Crosswords) (p : Point) (c : Char) :
    (cw.put_char p c).chars.length = cw.chars.length := by
  unfold Crosswords.put_char
  split
  · rfl
  · simp

theorem get_char_put_same {cw : Crosswords} {p : Point} {c : Char} {i : Nat}
    (h : p.coord cw.width cw.height = some i) (hi : i < cw.chars.length) :
    (cw.put_char p c).get_char p = some c := by
  unfold Crosswords.put_char
  rw [h]
  unfold Crosswords.get_char
  simp only
  rw [h, Option.some_bind]
  simp [List.get?_set_eq, hi]

theorem get_char_put_other {cw : Crosswords} {p : Point} {c : Char} {r : Point}
    (hne : r ≠ p) : (cw.put_char p c).get_char r = cw.get_char r := by
  unfold Crosswords.put_char
  rcases h : p.coord cw.width cw.height with _ | i
  · rfl
  · unfold Crosswords.get_char
    simp only
    rcases hr : r.coord cw.width cw.height with _ | j
    · rfl
    · have hij : j ≠ i := fun hji => hne (coord_inj (hji ▸ hr) h)
      rw [Option.some_bind, Option.some_bind, List.get?_set_ne _ _ (Ne.symm hij)]

/-! Congruence: borders, range lengths and words only read part of the state. -/

theorem get_border_congr {cw1 cw2 : Crosswords} (hw : cw1.width = cw2.width)
    (hh : cw1.height = cw2.height) (hr : cw1.right_border = cw2.right_border)
    (hd : cw1.down_border = cw2.down_border) (p : Point) (d : Dir) :
    cw1.get_border p d = cw2.get_border p d := by
  cases d <;> (unfold Crosswords.get_border; rw [hw, hh, hr]) <;> rw [hd]

theorem rangeLen_congr {cw1 cw2 : Crosswords} (hw : cw1.width = cw2.width)
    (hh : cw1.height = cw2.height) (hr : cw1.right_border = cw2.right_border)
    (hd : cw1.down_border = cw2.down_border) (p : Point) (d : Dir) :
    cw1.rangeLen p d = cw2.rangeLen p d := by
  unfold Crosswords.rangeLen Crosswords.wrFuel
  rw [hw, hh]
  congr 1
  funext q
  rw [get_border_congr hw hh hr hd]

theorem get_char_congr {cw1 cw2 : Crosswords} (hw : cw1.width = cw2.width)
    (hh : cw1.height = cw2.height) (hc : cw1.chars = cw2.chars) (p : Point) :
    cw1.get_char p = cw2.get_char p := by
  unfold Crosswords.get_char
  rw [hw, hh, hc]

theorem word_at_congr {cw1 cw2 : Crosswords} (hw : cw1.width = cw2.width)
    (hh : cw1.height = cw2.height) (hr : cw1.right_border = cw2.right_border)
    (hd : cw1.down_border = cw2.down_border) (p : Point) (d : Dir)
    (hc : ∀ k < cw2.rangeLen p d,
      cw1.get_char (p + d.point * (k : Int)) = cw2.get_char (p + d.point * (k : Int))) :
    cw1.word_at p d = cw2.word_at p d := by
  unfold Crosswords.word_at
  rw [rangeLen_congr hw hh hr hd]
  apply List.filterMap_congr
  intro q hq
  obtain ⟨k, hk, rfl⟩ := mem_pointList.mp hq
  exact hc k hk

/-! The characterization of `rangeLen` through `IsRun`. -/

theorem cellsWithLen_eq (pred : Point → Bool) (dp : Point) :
    ∀ (fuel : Nat) (p : Point) (n : Nat), n ≤ fuel →
      (∀ j < n, pred (p + dp * (j : Int)) = true) →
      pred (p + dp * (n : Int)) = false →
      Crosswords.cellsWithLen pred dp fuel p = n := by
  intro fuel
  induction fuel with
  | zero =>
    intro p n hn _ _
    interval_cases n
    rfl
  | succ f ih =>
    intro p n hn hall hstop
    rcases n with _ | m
    · rw [point_mul_zero] at hstop
      unfold Crosswords.cellsWithLen
      rw [hstop]
      rfl
    · have hp : pred p = true := by
        have := hall 0 (by omega)
        rwa [point_mul_zero] at this
      unfold Crosswords.cellsWithLen
      rw [hp]
      simp only [if_true]
      have : Crosswords.cellsWithLen pred dp f (p + dp) = m := by
        apply ih (p + dp) m (by omega)
        · intro j hj
          have := hall (j + 1) (by omega)
          rwa [point_mul_succ] at this
        · have := hstop
          rwa [point_mul_succ] at this
      omega

theorem border_true_exists (cw : Crosswords) (p : Point) (d : Dir) :
    ∃ j : Nat, j ≤ cw.width + cw.height ∧
      cw.get_border (p + d.point * (j : Int)) d = true := by
  cases d with
  | Right =>
    by_cases hx : p.x < 0
    · refine ⟨0, by omega, ?_⟩
      rw [point_mul_zero, get_border_eq]
      have hidx : cw.borderIdx .Right p = none := by
        dsimp only [Crosswords.borderIdx]
        unfold Point.coord
        rw [if_neg (by omega)]
      rw [hidx]
    · refine ⟨cw.width, by omega, ?_⟩
      rw [get_border_eq]
      have hidx : cw.borderIdx .Right (p + Dir.point .Right * (cw.width : Int)) =
          none := by
        dsimp only [Crosswords.borderIdx]
        unfold Point.coord
        rw [if_neg (by
          dsimp only [Point.add_x, Point.mul_x, Dir.point]
          omega)]
      rw [hidx]
  | Down =>
    by_cases hy : p.y < 0
    · refine ⟨0, by omega, ?_⟩
      rw [point_mul_zero, get_border_eq]
      have hidx : cw.borderIdx .Down p = none := by
        dsimp only [Crosswords.borderIdx]
        unfold Point.coord
        rw [if_neg (by omega)]
      rw [hidx]
    · refine ⟨cw.height, by omega, ?_⟩
      rw [get_border_eq]
      have hidx : cw.borderIdx .Down (p + Dir.point .Down * (cw.height : Int)) =
          none := by
        dsimp only [Crosswords.borderIdx]
        unfold Point.coord
        rw [if_neg (by
          dsimp only [Point.add_y, Point.mul_y, Dir.point]
          omega)]
      rw [hidx]

theorem rangeLen_isRun (cw : Crosswords) (p : Point) (d : Dir) :
    cw.IsRun p d (cw.rangeLen p d) := by
  have hpred0 : (decide (p = p) == cw.get_border (p - d.point) d) =
      cw.get_border (p - d.point) d := by
    simp
  by_cases hb : cw.get_border (p - d.point) d = true
  · have hex : ∃ j : Nat, cw.get_border (p + d.point * (j : Int)) d = true := by
      obtain ⟨j, _, hj⟩ := border_true_exists cw p d
      exact ⟨j, hj⟩
    classical
    set j0 := Nat.find hex with hj0
    have hfind : cw.get_border (p + d.point * (j0 : Int)) d = true := Nat.find_spec hex
    have hmin : ∀ j < j0, ¬cw.get_border (p + d.point * (j : Int)) d = true :=
      fun j hj => Nat.find_min hex hj
    have hbound : j0 ≤ cw.width + cw.height := by
      obtain ⟨j, hjle, hj⟩ := border_true_exists cw p d
      exact le_trans (Nat.find_min' hex hj) hjle
    have hlen : cw.rangeLen p d = j0 + 1 := by
      unfold Crosswords.rangeLen
      apply cellsWithLen_eq
      · unfold Crosswords.wrFuel
        omega
      · intro j hj
        rcases j with _ | m
        · rw [point_mul_zero, hpred0]
          exact hb
        · have hne : p + d.point * ((m + 1 : Nat) : Int) ≠ p := by
            intro heq
            have : ((m + 1 : Nat) : Int) = ((0 : Nat) : Int) :=
              dirPt_cancel (by rw [heq, point_mul_zero])
            omega
          have hprev : cw.get_border ((p + d.point * ((m + 1 : Nat) : Int)) - d.point)
              d = false := by
            rw [point_mul_sub_one _ _ _ (by omega)]
            simp only [Nat.add_sub_cancel]
            have := hmin m (by omega)
            simpa using this
          push_cast at hne hprev
          simp [hne, hprev]
      · have hne : p + d.point * ((j0 + 1 : Nat) : Int) ≠ p := by
          intro heq
          have : ((j0 + 1 : Nat) : Int) = ((0 : Nat) : Int) :=
            dirPt_cancel (by rw [heq, point_mul_zero])
          omega
        have hprev : cw.get_border ((p + d.point * ((j0 + 1 : Nat) : Int)) - d.point)
            d = true := by
          rw [point_mul_sub_one _ _ _ (by omega)]
          simpa using hfind
        push_cast at hne hprev
        simp [hne, hprev]
    rw [hlen]
    right
    refine ⟨by omega, hb, ?_, ?_⟩
    · intro k hk
      have := hmin k (by omega)
      simpa using this
    · simpa using hfind
  · have hlen : cw.rangeLen p d = 0 := by
      unfold Crosswords.rangeLen
      apply cellsWithLen_eq
      · omega
      · intro j hj; omega
      · rw [point_mul_zero, hpred0]
        simpa using hb
    rw [hlen]
    left
    exact ⟨rfl, by simpa using hb⟩

theorem isRun_unique {cw : Crosswords} {p : Point} {d : Dir} {L L' : Nat}
    (h : cw.IsRun p d L) (h' : cw.IsRun p d L') : L = L' := by
  rcases h with ⟨rfl, hb⟩ | ⟨hL, hb, hint, hend⟩ <;>
    rcases h' with ⟨rfl, hb'⟩ | ⟨hL', hb', hint', hend'⟩
  · rfl
  · rw [hb'] at hb; exact absurd hb (by simp)
  · rw [hb'] at hb; exact absurd hb (by simp)
  · by_contra hne
    rcases Nat.lt_or_ge L L' with hlt | hge
    · have h1 := hint' (L - 1) (by omega)
      obtain ⟨m, rfl⟩ : ∃ m, L = m + 1 := ⟨L - 1, by omega⟩
      simp only [Nat.add_sub_cancel] at hend h1
      rw [hend] at h1
      exact absurd h1 (by simp)
    · have hlt' : L' < L := by omega
      have h1 := hint (L' - 1) (by omega)
      obtain ⟨m, rfl⟩ : ∃ m, L' = m + 1 := ⟨L' - 1, by omega⟩
      simp only [Nat.add_sub_cancel] at hend' h1
      rw [hend'] at h1
      exact absurd h1 (by simp)

theorem rangeLen_eq_of_isRun {cw : Crosswords} {p : Point} {d : Dir} {L : Nat}
    (h : cw.IsRun p d L) : cw.rangeLen p d = L :=
  isRun_unique (rangeLen_isRun cw p d) h

theorem rangeLen_before {cw : Crosswords} {p : Point} {d : Dir}
    (h : 1 ≤ cw.rangeLen p d) : cw.get_border (p - d.point) d = true := by
  rcases rangeLen_isRun cw p d with ⟨h0, _⟩ | ⟨_, hb, _, _⟩
  · omega
  · exact hb

theorem rangeLen_zero {cw : Crosswords} {p : Point} {d : Dir}
    (h : cw.rangeLen p d = 0) : cw.get_border (p - d.point) d = false := by
  rcases rangeLen_isRun cw p d with ⟨_, hb⟩ | ⟨h1, _, _, _⟩
  · exact hb
  · omega

theorem rangeLen_internal {cw : Crosswords} {p : Point} {d : Dir} {k : Nat}
    (h : k + 1 < cw.rangeLen p d) :
    cw.get_border (p + d.point * (k : Int)) d = false := by
  rcases rangeLen_isRun cw p d with ⟨h0, _⟩ | ⟨_, _, hint, _⟩
  · omega
  · exact hint k h

theorem rangeLen_end {cw : Crosswords} {p : Point} {d : Dir}
    (h : 1 ≤ cw.rangeLen p d) :
    cw.get_border (p + d.point * ((cw.rangeLen p d - 1 : Nat) : Int)) d = true := by
  rcases rangeLen_isRun cw p d with ⟨h0, _⟩ | ⟨_, _, _, hend⟩
  · omega
  · exact hend

/-! State descriptions of the push and pop loops. -/

theorem Dir.other_ne (d : Dir) : d.other ≠ d := by
  cases d <;> simp [Dir.other]

theorem dims_borderIdx_lt {cw : Crosswords} (hdim : cw.dimsOK) {d : Dir} {q : Point}
    {i : Nat} (h : cw.borderIdx d q = some i) : i < (cw.borderArr d).length := by
  obtain ⟨hw, hh, hc, hr, hdn⟩ := hdim
  cases d
  · unfold Crosswords.borderIdx at h
    simp only at h
    unfold Crosswords.borderArr
    rw [hr]
    exact coord_lt h
  · unfold Crosswords.borderIdx at h
    simp only at h
    unfold Crosswords.borderArr
    rw [hdn]
    exact coord_lt h

theorem dims_coord_lt {cw : Crosswords} (hdim : cw.dimsOK) {q : Point} {i : Nat}
    (h : q.coord cw.width cw.height = some i) : i < cw.chars.length := by
  rw [hdim.2.2.1]
  exact coord_lt h

theorem get_char_none_of_coord {cw : Crosswords} {q : Point}
    (h : q.coord cw.width cw.height = none) : cw.get_char q = none := by
  unfold Crosswords.get_char
  rw [h]
  rfl

theorem pointList_cons (p : Point) (d : Dir) (n : Nat) :
    Crosswords.pointList p d (n + 1) = p :: Crosswords.pointList (p + d.point) d n := by
  unfold Crosswords.pointList
  rw [List.range_succ_eq_map, List.map_cons, List.map_map]
  congr 1
  · exact point_mul_zero p d.point
  · apply List.map_congr_left
    intro k _
    exact point_mul_succ p d.point k

theorem pushChars_width (d : Dir) :
    ∀ (L : List (Char × Point)) (cw : Crosswords),
      (Crosswords.pushChars d cw L).width = cw.width
  | [], cw => rfl
  | (c, q) :: rest, cw => by
    unfold Crosswords.pushChars
    rw [pushChars_width d rest, put_char_width]

theorem pushChars_height (d : Dir) :
    ∀ (L : List (Char × Point)) (cw : Crosswords),
      (Crosswords.pushChars d cw L).height = cw.height
  | [], cw => rfl
  | (c, q) :: rest, cw => by
    unfold Crosswords.pushChars
    rw [pushChars_height d rest, put_char_height]

theorem pushChars_right_border (d : Dir) :
    ∀ (L : List (Char × Point)) (cw : Crosswords),
      (Crosswords.pushChars d cw L).right_border = cw.right_border
  | [], cw => rfl
  | (c, q) :: rest, cw => by
    unfold Crosswords.pushChars
    rw [pushChars_right_border d rest, put_char_right_border]

theorem pushChars_down_border (d : Dir) :
    ∀ (L : List (Char × Point)) (cw : Crosswords),
      (Crosswords.pushChars d cw L).down_border = cw.down_border
  | [], cw => rfl
  | (c, q) :: rest, cw => by
    unfold Crosswords.pushChars
    rw [pushChars_down_border d rest, put_char_down_border]

theorem pushChars_chars_length (d : Dir) :
    ∀ (L : List (Char × Point)) (cw : Crosswords),
      (Crosswords.pushChars d cw L).chars.length = cw.chars.length
  | [], cw => rfl
  | (c, q) :: rest, cw => by
    unfold Crosswords.pushChars
    rw [pushChars_chars_length d rest, put_char_chars_length]

theorem pushChars_get_char_other (d : Dir) :
    ∀ (w : CVec) (p : Point) (cw : Crosswords) (r : Point),
      (∀ k < w.length, r ≠ p + d.point * (k : Int)) →
      (Crosswords.pushChars d cw (w.zip (Crosswords.pointList p d w.length))).get_char r
        = cw.get_char r
  | [], p, cw, r, _ => rfl
  | c :: w', p, cw, r, h => by
    rw [List.length_cons, pointList_cons, List.zip_cons_cons]
    unfold Crosswords.pushChars
    have hrest := pushChars_get_char_other d w' (p + d.point)
      (Crosswords.put_char
        { cw with words := cw.words.erase (cw.word_at p d) } p c) r
      (fun k hk => by
        have := h (k + 1) (by simpa using Nat.succ_lt_succ hk)
        rwa [point_mul_succ] at this)
    rw [hrest]
    have hr0 : r ≠ p := by
      have := h 0 (by simp)
      rwa [point_mul_zero] at this
    rw [get_char_put_other hr0]
    rfl

theorem pushChars_get_char_write (d : Dir) :
    ∀ (w : CVec) (p : Point) (cw : Crosswords) (k : Nat), k < w.length →
      ∀ c, w.get? k = some c →
      ∀ i, (p + d.point * (k : Int)).coord cw.width cw.height = some i →
      i < cw.chars.length →
      (Crosswords.pushChars d cw (w.zip (Crosswords.pointList p d w.length))).get_char
        (p + d.point * (k : Int)) = some c
  | [], p, cw, k, hk, c, hc, i, hcoord, hi => by simp at hk
  | c0 :: w', p, cw, k, hk, c, hc, i, hcoord, hi => by
    rw [List.length_cons, pointList_cons, List.zip_cons_cons]
    unfold Crosswords.pushChars
    set cwE : Crosswords := { cw with words := cw.words.erase (cw.word_at p d) }
    rcases k with _ | j
    · rw [point_mul_zero] at hcoord ⊢
      simp only [List.get?_cons_zero, Option.some.injEq] at hc
      subst hc
      rw [pushChars_get_char_other d w' (p + d.point) _ p
        (fun k' hk' => by
          intro heq
          have : ((0 : Nat) : Int) = ((k' + 1 : Nat) : Int) := by
            apply dirPt_cancel (d := d) (p := p)
            rw [point_mul_zero, point_mul_succ]
            exact heq
          omega)]
      exact get_char_put_same hcoord hi
    · rw [point_mul_succ] at hcoord ⊢
      have hw' : (Crosswords.put_char cwE p c0).width = cw.width := put_char_width ..
      have hh' : (Crosswords.put_char cwE p c0).height = cw.height := put_char_height ..
      have hl' : (Crosswords.put_char cwE p c0).chars.length = cw.chars.length :=
        put_char_chars_length ..
      exact pushChars_get_char_write d w' (p + d.point) _ j (by simpa using hk) c
        (by simpa using hc) i (by rw [hw', hh']; exact hcoord) (by rw [hl']; exact hi)

theorem pushChars_words (d : Dir) :
    ∀ (w : CVec) (p : Point) (cw : Crosswords) (u : CVec),
      (u ∈ (Crosswords.pushChars d cw (w.zip (Crosswords.pointList p d w.length))).words
        ↔ (u ∈ cw.words ∧ ∀ k < w.length, u ≠ cw.word_at (p + d.point * (k : Int)) d))
  | [], p, cw, u => by
    show u ∈ cw.words ↔ _
    simp only [List.length_nil]
    constructor
    · intro h
      exact ⟨h, fun k hk => absurd hk (by omega)⟩
    · intro h
      exact h.1
  | c0 :: w', p, cw, u => by
    rw [List.length_cons, pointList_cons, List.zip_cons_cons]
    unfold Crosswords.pushChars
    set cwE : Crosswords := { cw with words := cw.words.erase (cw.word_at p d) }
    set cw1 : Crosswords := Crosswords.put_char cwE p c0 with hcw1
    have hmain := pushChars_words d w' (p + d.point) cw1 u
    rw [hmain]
    have hwords : cw1.words = cw.words.erase (cw.word_at p d) := put_char_words ..
    have hwa : ∀ k' < w'.length,
        cw1.word_at ((p + d.point) + d.point * (k' : Int)) d =
          cw.word_at ((p + d.point) + d.point * (k' : Int)) d := by
      intro k' hk'
      apply word_at_congr (put_char_width ..) (put_char_height ..)
        (put_char_right_border ..) (put_char_down_border ..)
      intro kk _
      have hne : ((p + d.point) + d.point * (k' : Int)) + d.point * (kk : Int) ≠ p := by
        rw [← point_mul_succ, dirPt_shift]
        intro heq
        have : ((k' + 1 + kk : Nat) : Int) = ((0 : Nat) : Int) := by
          apply dirPt_cancel (d := d) (p := p)
          rw [point_mul_zero]
          exact heq
        omega
      rw [get_char_put_other hne]
    constructor
    · rintro ⟨hmem, hrest⟩
      rw [hwords, Finset.mem_erase] at hmem
      refine ⟨hmem.2, ?_⟩
      intro k hk
      rcases k with _ | j
      · rw [point_mul_zero]
        exact hmem.1
      · rw [point_mul_succ]
        have := hrest j (by simpa using hk)
        rwa [hwa j (by simpa using hk)] at this
    · rintro ⟨hmem, hall⟩
      constructor
      · rw [hwords, Finset.mem_erase]
        refine ⟨?_, hmem⟩
        have := hall 0 (by simp)
        rwa [point_mul_zero] at this
      · intro j hj
        rw [hwa j hj]
        have := hall (j + 1) (by simpa using Nat.succ_lt_succ hj)
        rwa [point_mul_succ] at this

theorem set_border_borderArr_length (cw : Crosswords) (p : Point) (d : Dir) (v : Bool)
    (d' : Dir) :
    ((cw.set_border p d v).borderArr d').length = (cw.borderArr d').length := by
  by_cases h : d' = d
  · subst h
    rcases hidx : cw.borderIdx d' p with _ | i
    · rw [set_border_of_idx_none hidx]
    · rw [borderArr_set_border_self cw p d' v hidx]
      simp
  · rw [borderArr_set_border_other h]

theorem get_char_set_border (cw : Crosswords) (q : Point) (d : Dir) (v : Bool)
    (r : Point) : (cw.set_border q d v).get_char r = cw.get_char r :=
  get_char_congr (set_border_width ..) (set_border_height ..) (set_border_chars ..) r

theorem get_border_put_char (cw : Crosswords) (q : Point) (c : Char) (r : Point)
    (d' : Dir) : (cw.put_char q c).get_border r d' = cw.get_border r d' :=
  get_border_congr (put_char_width ..) (put_char_height ..)
    (put_char_right_border ..) (put_char_down_border ..) r d'

theorem pushBorders_width (d : Dir) :
    ∀ (L : List Point) (cw : Crosswords), (Crosswords.pushBorders d cw L).width = cw.width
  | [], cw => rfl
  | q :: rest, cw => by
    unfold Crosswords.pushBorders
    rw [pushBorders_width d rest, set_border_width]

theorem pushBorders_height (d : Dir) :
    ∀ (L : List Point) (cw : Crosswords),
      (Crosswords.pushBorders d cw L).height = cw.height
  | [], cw => rfl
  | q :: rest, cw => by
    unfold Crosswords.pushBorders
    rw [pushBorders_height d rest, set_border_height]

theorem pushBorders_chars (d : Dir) :
    ∀ (L : List Point) (cw : Crosswords), (Crosswords.pushBorders d cw L).chars = cw.chars
  | [], cw => rfl
  | q :: rest, cw => by
    unfold Crosswords.pushBorders
    rw [pushBorders_chars d rest, set_border_chars]

theorem pushBorders_words (d : Dir) :
    ∀ (L : List Point) (cw : Crosswords), (Crosswords.pushBorders d cw L).words = cw.words
  | [], cw => rfl
  | q :: rest, cw => by
    unfold Crosswords.pushBorders
    rw [pushBorders_words d rest, set_border_words]

theorem pushBorders_borderArr_length (d : Dir) :
    ∀ (L : List Point) (cw : Crosswords) (d' : Dir),
      ((Crosswords.pushBorders d cw L).borderArr d').length = (cw.borderArr d').length
  | [], cw, d' => rfl
  | q :: rest, cw, d' => by
    unfold Crosswords.pushBorders
    rw [pushBorders_borderArr_length d rest, set_border_borderArr_length]

theorem pushBorders_get_border_other (d : Dir) :
    ∀ (n : Nat) (p : Point) (cw : Crosswords) (r : Point) (d' : Dir),
      (d' ≠ d ∨ ∀ k < n, r ≠ p + d.point * (k : Int)) →
      (Crosswords.pushBorders d cw (Crosswords.pointList p d n)).get_border r d' =
        cw.get_border r d'
  | 0, p, cw, r, d', _ => rfl
  | n + 1, p, cw, r, d', h => by
    rw [pointList_cons]
    unfold Crosswords.pushBorders
    have hrec := pushBorders_get_border_other d n (p + d.point)
      (cw.set_border p d false) r d'
      (by
        rcases h with hd | hpts
        · exact Or.inl hd
        · refine Or.inr fun k hk => ?_
          have := hpts (k + 1) (by omega)
          rwa [point_mul_succ] at this)
    rw [hrec]
    rcases h with hd | hpts
    · exact get_border_set_of_dir hd r
    · have hr0 : r ≠ p := by
        have := hpts 0 (by omega)
        rwa [point_mul_zero] at this
      by_cases hdd : d' = d
      · subst hdd
        exact get_border_set_of_ne hr0
      · exact get_border_set_of_dir hdd r

theorem pushBorders_get_border_set (d : Dir) :
    ∀ (n : Nat) (p : Point) (cw : Crosswords),
      (∀ q i, cw.borderIdx d q = some i → i < (cw.borderArr d).length) →
      ∀ k < n, cw.borderIdx d (p + d.point * (k : Int)) ≠ none →
      (Crosswords.pushBorders d cw (Crosswords.pointList p d n)).get_border
        (p + d.point * (k : Int)) d = false
  | 0, p, cw, _, k, hk, _ => by omega
  | n + 1, p, cw, hB, k, hk, hidx => by
    rw [pointList_cons]
    unfold Crosswords.pushBorders
    rcases k with _ | j
    · rw [point_mul_zero] at hidx ⊢
      rw [pushBorders_get_border_other d n (p + d.point) _ p d
        (Or.inr fun k' hk' => by
          intro heq
          have : ((0 : Nat) : Int) = ((k' + 1 : Nat) : Int) := by
            apply dirPt_cancel (d := d) (p := p)
            rw [point_mul_zero, point_mul_succ]
            exact heq
          omega)]
      rcases hsome : cw.borderIdx d p with _ | i
      · exact absurd hsome hidx
      · exact get_border_set_same hsome (hB p i hsome)
    · rw [point_mul_succ] at hidx ⊢
      apply pushBorders_get_border_set d n (p + d.point) (cw.set_border p d false)
      · intro q i hq
        rw [set_border_borderIdx] at hq
        rw [set_border_borderArr_length]
        exact hB q i hq
      · exact by simpa using hk
      · rwa [set_border_borderIdx]

theorem popLoop_width (d : Dir) :
    ∀ (L : List Point) (cw : Crosswords), (Crosswords.popLoop d cw L).width = cw.width
  | [], cw => rfl
  | q :: rest, cw => by
    unfold Crosswords.popLoop
    rw [popLoop_width d rest]
    split
    · rw [put_char_width, set_border_width]
    · rw [set_border_width]

theorem popLoop_height (d : Dir) :
    ∀ (L : List Point) (cw : Crosswords), (Crosswords.popLoop d cw L).height = cw.height
  | [], cw => rfl
  | q :: rest, cw => by
    unfold Crosswords.popLoop
    rw [popLoop_height d rest]
    split
    · rw [put_char_height, set_border_height]
    · rw [set_border_height]

theorem popLoop_words (d : Dir) :
    ∀ (L : List Point) (cw : Crosswords), (Crosswords.popLoop d cw L).words = cw.words
  | [], cw => rfl
  | q :: rest, cw => by
    unfold Crosswords.popLoop
    rw [popLoop_words d rest]
    split
    · rw [put_char_words, set_border_words]
    · rw [set_border_words]

theorem popLoop_chars_length (d : Dir) :
    ∀ (L : List Point) (cw : Crosswords),
      (Crosswords.popLoop d cw L).chars.length = cw.chars.length
  | [], cw => rfl
  | q :: rest, cw => by
    unfold Crosswords.popLoop
    rw [popLoop_chars_length d rest]
    split
    · rw [put_char_chars_length]
      rw [set_border_chars]
    · rw [set_border_chars]

theorem popLoop_borderArr_length (d : Dir) :
    ∀ (L : List Point) (cw : Crosswords) (d' : Dir),
      ((Crosswords.popLoop d cw L).borderArr d').length = (cw.borderArr d').length
  | [], cw, d' => rfl
  | q :: rest, cw, d' => by
    unfold Crosswords.popLoop
    rw [popLoop_borderArr_length d rest]
    split
    · show ((Crosswords.put_char _ q BLOCK).borderArr d').length = _
      have h1 : ∀ cwx : Crosswords, ((Crosswords.put_char cwx q BLOCK).borderArr d').length
          = (cwx.borderArr d').length := by
        intro cwx
        cases d' <;>
          simp [Crosswords.borderArr, put_char_right_border, put_char_down_border]
      rw [h1, set_border_borderArr_length]
    · rw [set_border_borderArr_length]

theorem popLoop_step (d : Dir) (cw : Crosswords) (q : Point) (rest : List Point) :
    Crosswords.popLoop d cw (q :: rest) =
      Crosswords.popLoop d
        (if (cw.set_border q d true).both_borders q d.other then
          (cw.set_border q d true).put_char q BLOCK
        else cw.set_border q d true) rest := rfl

theorem both_borders_set_border {cw : Crosswords} {q r : Point} {d : Dir} {v : Bool} :
    (cw.set_border q d v).both_borders r d.other = cw.both_borders r d.other := by
  unfold Crosswords.both_borders
  rw [get_border_set_of_dir (Dir.other_ne d), get_border_set_of_dir (Dir.other_ne d)]

theorem both_borders_put_char {cw : Crosswords} {q r : Point} {c : Char} {d' : Dir} :
    (cw.put_char q c).both_borders r d' = cw.both_borders r d' := by
  unfold Crosswords.both_borders
  rw [get_border_put_char, get_border_put_char]

theorem popLoop_get_border_other (d : Dir) :
    ∀ (n : Nat) (p : Point) (cw : Crosswords) (r : Point) (d' : Dir),
      (d' ≠ d ∨ ∀ k < n, r ≠ p + d.point * (k : Int)) →
      (Crosswords.popLoop d cw (Crosswords.pointList p d n)).get_border r d' =
        cw.get_border r d'
  | 0, p, cw, r, d', _ => rfl
  | n + 1, p, cw, r, d', h => by
    rw [pointList_cons, popLoop_step]
    set cw2 : Crosswords := if (cw.set_border p d true).both_borders p d.other then
        (cw.set_border p d true).put_char p BLOCK
      else cw.set_border p d true with hcw2
    have hrec := popLoop_get_border_other d n (p + d.point) cw2 r d'
      (by
        rcases h with hd | hpts
        · exact Or.inl hd
        · refine Or.inr fun k hk => ?_
          have := hpts (k + 1) (by omega)
          rwa [point_mul_succ] at this)
    rw [hrec]
    have hset : (cw.set_border p d true).get_border r d' = cw.get_border r d' := by
      rcases h with hd | hpts
      · exact get_border_set_of_dir hd r
      · have hr0 : r ≠ p := by
          have := hpts 0 (by omega)
          rwa [point_mul_zero] at this
        by_cases hdd : d' = d
        · subst hdd
          exact get_border_set_of_ne hr0
        · exact get_border_set_of_dir hdd r
    rw [hcw2]
    split
    · rw [get_border_put_char, hset]
    · rw [hset]

theorem popLoop_get_border_set (d : Dir) :
    ∀ (n : Nat) (p : Point) (cw : Crosswords),
      (∀ q i, cw.borderIdx d q = some i → i < (cw.borderArr d).length) →
      ∀ k < n,
      (Crosswords.popLoop d cw (Crosswords.pointList p d n)).get_border
        (p + d.point * (k : Int)) d = true
  | 0, p, cw, _, k, hk => by omega
  | n + 1, p, cw, hB, k, hk => by
    rw [pointList_cons, popLoop_step]
    have hBstep : ∀ (cwx : Crosswords), cwx.width = cw.width → cwx.height = cw.height →
        (∀ dd, (cwx.borderArr dd).length = (cw.borderArr dd).length) →
        ∀ q i, cwx.borderIdx d q = some i → i < (cwx.borderArr d).length := by
      intro cwx hwx hhx hax q i hq
      rw [borderIdx_congr hwx hhx] at hq
      rw [hax]
      exact hB q i hq
    rcases k with _ | j
    · rw [point_mul_zero]
      rw [popLoop_get_border_other d n (p + d.point) _ p d
        (Or.inr fun k' hk' => by
          intro heq
          have : ((0 : Nat) : Int) = ((k' + 1 : Nat) : Int) := by
            apply dirPt_cancel (d := d) (p := p)
            rw [point_mul_zero, point_mul_succ]
            exact heq
          omega)]
      have hone : (cw.set_border p d true).get_border p d = true := by
        rcases hsome : cw.borderIdx d p with _ | i
        · rw [set_border_of_idx_none hsome, get_border_eq, hsome]
        · exact get_border_set_same hsome (hB p i hsome)
      split
      · rw [get_border_put_char, hone]
      · rw [hone]
    · rw [point_mul_succ]
      have harr : ∀ dd : Dir,
          ((if (cw.set_border p d true).both_borders p d.other then
              (cw.set_border p d true).put_char p BLOCK
            else cw.set_border p d true).borderArr dd).length =
            (cw.borderArr dd).length := by
        intro dd
        split
        · have h1 : ((cw.set_border p d true).put_char p BLOCK).borderArr dd
              = (cw.set_border p d true).borderArr dd := by
            cases dd <;>
              simp [Crosswords.borderArr, put_char_right_border, put_char_down_border]
          rw [h1, set_border_borderArr_length]
        · exact set_border_borderArr_length cw p d true dd
      have hw : (if (cw.set_border p d true).both_borders p d.other then
          (cw.set_border p d true).put_char p BLOCK
        else cw.set_border p d true).width = cw.width := by
        split
        · rw [put_char_width, set_border_width]
        · rw [set_border_width]
      have hh : (if (cw.set_border p d true).both_borders p d.other then
          (cw.set_border p d true).put_char p BLOCK
        else cw.set_border p d true).height = cw.height := by
        split
        · rw [put_char_height, set_border_height]
        · rw [set_border_height]
      exact popLoop_get_border_set d n (p + d.point) _
        (hBstep _ hw hh harr) j (by omega)

theorem popLoop_get_char_other (d : Dir) :
    ∀ (n : Nat) (p : Point) (cw : Crosswords) (r : Point),
      (∀ k < n, r ≠ p + d.point * (k : Int)) →
      (Crosswords.popLoop d cw (Crosswords.pointList p d n)).get_char r = cw.get_char r
  | 0, p, cw, r, _ => rfl
  | n + 1, p, cw, r, h => by
    rw [pointList_cons, popLoop_step]
    set cw2 : Crosswords := if (cw.set_border p d true).both_borders p d.other then
        (cw.set_border p d true).put_char p BLOCK
      else cw.set_border p d true with hcw2
    have hrec := popLoop_get_char_other d n (p + d.point) cw2 r
      (fun k hk => by
        have := h (k + 1) (by omega)
        rwa [point_mul_succ] at this)
    rw [hrec]
    have hr0 : r ≠ p := by
      have := h 0 (by omega)
      rwa [point_mul_zero] at this
    rw [hcw2]
    split
    · rw [get_char_put_other hr0, get_char_set_border]
    · rw [get_char_set_border]

theorem popLoop_get_char_cell (d : Dir) :
    ∀ (n : Nat) (p : Point) (cw : Crosswords), ∀ k < n,
      (cw.both_borders (p + d.point * (k : Int)) d.other = true →
        ((p + d.point * (k : Int)).coord cw.width cw.height = none →
          (Crosswords.popLoop d cw (Crosswords.pointList p d n)).get_char
            (p + d.point * (k : Int)) = none) ∧
        (∀ i, (p + d.point * (k : Int)).coord cw.width cw.height = some i →
          i < cw.chars.length →
          (Crosswords.popLoop d cw (Crosswords.pointList p d n)).get_char
            (p + d.point * (k : Int)) = some BLOCK)) ∧
      (cw.both_borders (p + d.point * (k : Int)) d.other = false →
        (Crosswords.popLoop d cw (Crosswords.pointList p d n)).get_char
          (p + d.point * (k : Int)) = cw.get_char (p + d.point * (k : Int)))
  | 0, p, cw, k, hk => by omega
  | n + 1, p, cw, k, hk => by
    rw [pointList_cons, popLoop_step]
    set cw1 : Crosswords := cw.set_border p d true with hcw1
    set cw2 : Crosswords := if cw1.both_borders p d.other then cw1.put_char p BLOCK
      else cw1 with hcw2
    have hbbeq : cw1.both_borders p d.other = cw.both_borders p d.other :=
      both_borders_set_border
    have hw2 : cw2.width = cw.width := by
      rw [hcw2]; split
      · rw [put_char_width, set_border_width]
      · rw [set_border_width]
    have hh2 : cw2.height = cw.height := by
      rw [hcw2]; split
      · rw [put_char_height, set_border_height]
      · rw [set_border_height]
    have hl2 : cw2.chars.length = cw.chars.length := by
      rw [hcw2]; split
      · rw [put_char_chars_length]
        show (cw.set_border p d true).chars.length = _
        rw [set_border_chars]
      · show (cw.set_border p d true).chars.length = _
        rw [set_border_chars]
    have hbb2 : ∀ r, cw2.both_borders r d.other = cw.both_borders r d.other := by
      intro r
      rw [hcw2]
      split
      · rw [both_borders_put_char, both_borders_set_border]
      · rw [both_borders_set_border]
    rcases k with _ | j
    · rw [point_mul_zero]
      have hother : (Crosswords.popLoop d cw2 (Crosswords.pointList (p + d.point) d n)).get_char p
          = cw2.get_char p :=
        popLoop_get_char_other d n (p + d.point) cw2 p
          (fun k' hk' => by
            intro heq
            have : ((0 : Nat) : Int) = ((k' + 1 : Nat) : Int) := by
              apply dirPt_cancel (d := d) (p := p)
              rw [point_mul_zero, point_mul_succ]
              exact heq
            omega)
      constructor
      · intro hbb
        constructor
        · intro hcoord
          rw [hother]
          apply get_char_none_of_coord
          rw [hw2, hh2]
          exact hcoord
        · intro i hcoord hi
          rw [hother, hcw2, if_pos (by rw [hbbeq]; exact hbb)]
          apply get_char_put_same
          · show p.coord cw1.width cw1.height = some i
            rw [hcw1, set_border_width, set_border_height]
            exact hcoord
          · show i < cw1.chars.length
            rw [hcw1, set_border_chars]
            exact hi
      · intro hbb
        rw [hother, hcw2, if_neg (by rw [hbbeq, hbb]; simp)]
        rw [hcw1, get_char_set_border]
    · rw [point_mul_succ]
      have hrec := popLoop_get_char_cell d n (p + d.point) cw2 j (by omega)
      rw [hbb2] at hrec
      have hchars2 : cw2.get_char ((p + d.point) + d.point * (j : Int)) =
          cw.get_char ((p + d.point) + d.point * (j : Int)) := by
        have hne : (p + d.point) + d.point * (j : Int) ≠ p := by
          rw [← point_mul_succ]
          intro heq
          have : ((j + 1 : Nat) : Int) = ((0 : Nat) : Int) := by
            apply dirPt_cancel (d := d) (p := p)
            rw [point_mul_zero]
            exact heq
          omega
        rw [hcw2]
        split
        · rw [get_char_put_other hne, hcw1, get_char_set_border]
        · rw [hcw1, get_char_set_border]
      constructor
      · intro hbb
        obtain ⟨h1, _⟩ := hrec
        obtain ⟨h1a, h1b⟩ := h1 hbb
        constructor
        · intro hcoord
          apply h1a
          rw [hw2, hh2]
          exact hcoord
        · intro i hcoord hi
          apply h1b i
          · rw [hw2, hh2]
            exact hcoord
          · rw [hl2]
            exact hi
      · intro hbb
        obtain ⟨_, h2⟩ := hrec
        rw [h2 hbb, hchars2]

/-! The assembled descriptions of `push_word` and `pop_word`. -/

theorem push_word_eq (cw : Crosswords) (p : Point) (d : Dir) (word : CVec) :
    cw.push_word p d word =
      { Crosswords.pushBorders d
          (Crosswords.pushChars d cw (word.zip (Crosswords.pointList p d word.length)))
          (Crosswords.pointList p d (word.length - 1)) with
        words := insert word
          (Crosswords.pushBorders d
            (Crosswords.pushChars d cw (word.zip (Crosswords.pointList p d word.length)))
            (Crosswords.pointList p d (word.length - 1))).words } := rfl

theorem words_update_width (cw : Crosswords) (W : Finset CVec) :
    ({ cw with words := W } : Crosswords).width = cw.width := rfl

theorem words_update_get_char (cw : Crosswords) (W : Finset CVec) (r : Point) :
    ({ cw with words := W } : Crosswords).get_char r = cw.get_char r := rfl

theorem words_update_get_border (cw : Crosswords) (W : Finset CVec) (r : Point)
    (d : Dir) : ({ cw with words := W } : Crosswords).get_border r d =
      cw.get_border r d := rfl

theorem words_update_rangeLen (cw : Crosswords) (W : Finset CVec) (r : Point)
    (d : Dir) : ({ cw with words := W } : Crosswords).rangeLen r d =
      cw.rangeLen r d := rfl

theorem words_update_word_at (cw : Crosswords) (W : Finset CVec) (r : Point)
    (d : Dir) : ({ cw with words := W } : Crosswords).word_at r d = cw.word_at r d := rfl

theorem push_word_width (cw : Crosswords) (p : Point) (d : Dir) (word : CVec) :
    (cw.push_word p d word).width = cw.width := by
  rw [push_word_eq, words_update_width, pushBorders_width, pushChars_width]

theorem push_word_height (cw : Crosswords) (p : Point) (d : Dir) (word : CVec) :
    (cw.push_word p d word).height = cw.height := by
  rw [push_word_eq]
  show (Crosswords.pushBorders _ _ _).height = _
  rw [pushBorders_height, pushChars_height]

theorem push_word_get_char_eq (cw : Crosswords) (p : Point) (d : Dir) (word : CVec)
    (r : Point) :
    (cw.push_word p d word).get_char r =
      (Crosswords.pushChars d cw
        (word.zip (Crosswords.pointList p d word.length))).get_char r := by
  rw [push_word_eq, words_update_get_char]
  exact get_char_congr (pushBorders_width ..) (pushBorders_height ..)
    (pushBorders_chars ..) r

theorem push_word_get_border_eq (cw : Crosswords) (p : Point) (d : Dir) (word : CVec)
    (r : Point) (d' : Dir) :
    (cw.push_word p d word).get_border r d' =
      (Crosswords.pushBorders d
        (Crosswords.pushChars d cw (word.zip (Crosswords.pointList p d word.length)))
        (Crosswords.pointList p d (word.length - 1))).get_border r d' := by
  rw [push_word_eq, words_update_get_border]

theorem pushChars_get_border (d : Dir) (cw : Crosswords)
    (L : List (Char × Point)) (r : Point) (d' : Dir) :
    (Crosswords.pushChars d cw L).get_border r d' = cw.get_border r d' :=
  get_border_congr (pushChars_width ..) (pushChars_height ..)
    (pushChars_right_border ..) (pushChars_down_border ..) r d'

theorem pushChars_borderIdx (d : Dir) (cw : Crosswords) (L : List (Char × Point))
    (dd : Dir) (q : Point) :
    (Crosswords.pushChars d cw L).borderIdx dd q = cw.borderIdx dd q :=
  borderIdx_congr (pushChars_width ..) (pushChars_height ..) dd q

theorem pushChars_borderArr (d : Dir) (cw : Crosswords) (L : List (Char × Point))
    (dd : Dir) :
    (Crosswords.pushChars d cw L).borderArr dd = cw.borderArr dd := by
  cases dd <;>
    simp [Crosswords.borderArr, pushChars_right_border, pushChars_down_border]

theorem push_word_get_char_write {cw : Crosswords} {p : Point} {d : Dir} {word : CVec}
    (hdim : cw.dimsOK) {k : Nat} (hk : k < word.length) {c : Char}
    (hc : word.get? k = some c) {i : Nat}
    (hcoord : (p + d.point * (k : Int)).coord cw.width cw.height = some i) :
    (cw.push_word p d word).get_char (p + d.point * (k : Int)) = some c := by
  rw [push_word_get_char_eq]
  exact pushChars_get_char_write d word p cw k hk c hc i hcoord (dims_coord_lt hdim hcoord)

theorem push_word_get_char_other {cw : Crosswords} {p : Point} {d : Dir} {word : CVec}
    {r : Point} (h : ∀ k < word.length, r ≠ p + d.point * (k : Int)) :
    (cw.push_word p d word).get_char r = cw.get_char r := by
  rw [push_word_get_char_eq]
  exact pushChars_get_char_other d word p cw r h

theorem push_word_get_border_internal {cw : Crosswords} {p : Point} {d : Dir}
    {word : CVec} (hdim : cw.dimsOK) {k : Nat} (hk : k + 1 < word.length)
    (hidx : cw.borderIdx d (p + d.point * (k : Int)) ≠ none) :
    (cw.push_word p d word).get_border (p + d.point * (k : Int)) d = false := by
  rw [push_word_get_border_eq]
  set cwA := Crosswords.pushChars d cw (word.zip (Crosswords.pointList p d word.length))
    with hcwA
  apply pushBorders_get_border_set d (word.length - 1) p cwA
  · intro q i hq
    rw [pushChars_borderIdx] at hq
    rw [hcwA, pushChars_borderArr]
    exact dims_borderIdx_lt hdim hq
  · omega
  · rw [hcwA, pushChars_borderIdx]
    exact hidx

theorem push_word_get_border_other {cw : Crosswords} {p : Point} {d : Dir}
    {word : CVec} {r : Point}
    (h : ∀ k, k + 1 < word.length → r ≠ p + d.point * (k : Int)) :
    (cw.push_word p d word).get_border r d = cw.get_border r d := by
  rw [push_word_get_border_eq]
  rw [pushBorders_get_border_other d (word.length - 1) p _ r d
    (Or.inr fun k hk => h k (by omega))]
  exact pushChars_get_border ..

theorem push_word_get_border_dir {cw : Crosswords} {p : Point} {d : Dir} {word : CVec}
    {r : Point} {d' : Dir} (hne : d' ≠ d) :
    (cw.push_word p d word).get_border r d' = cw.get_border r d' := by
  rw [push_word_get_border_eq]
  rw [pushBorders_get_border_other d (word.length - 1) p _ r d' (Or.inl hne)]
  exact pushChars_get_border ..

theorem push_word_words (cw : Crosswords) (p : Point) (d : Dir) (word : CVec)
    (u : CVec) :
    u ∈ (cw.push_word p d word).words ↔
      (u = word ∨ (u ∈ cw.words ∧
        ∀ k < word.length, u ≠ cw.word_at (p + d.point * (k : Int)) d)) := by
  rw [push_word_eq]
  show u ∈ insert word (Crosswords.pushBorders _ _ _).words ↔ _
  rw [Finset.mem_insert, pushBorders_words, pushChars_words]

theorem push_word_dimsOK {cw : Crosswords} {p : Point} {d : Dir} {word : CVec}
    (hdim : cw.dimsOK) : (cw.push_word p d word).dimsOK := by
  obtain ⟨hw, hh, hc, hr, hdn⟩ := hdim
  refine ⟨?_, ?_, ?_, ?_, ?_⟩
  · rw [push_word_width]; exact hw
  · rw [push_word_height]; exact hh
  · rw [push_word_width, push_word_height]
    rw [push_word_eq]
    show (Crosswords.pushBorders _ _ _).chars.length = _
    rw [pushBorders_chars, pushChars_chars_length]
    exact hc
  · rw [push_word_width, push_word_height]
    have : (cw.push_word p d word).right_border =
        (cw.push_word p d word).borderArr .Right := rfl
    rw [this, push_word_eq]
    show ((Crosswords.pushBorders _ _ _).borderArr .Right).length = _
    rw [pushBorders_borderArr_length, pushChars_borderArr]
    exact hr
  · rw [push_word_width, push_word_height]
    have : (cw.push_word p d word).down_border =
        (cw.push_word p d word).borderArr .Down := rfl
    rw [this, push_word_eq]
    show ((Crosswords.pushBorders _ _ _).borderArr .Down).length = _
    rw [pushBorders_borderArr_length, pushChars_borderArr]
    exact hdn

theorem pop_word_eq {cw : Crosswords} {p : Point} {d : Dir}
    (h : ¬(cw.word_at p d).length ≤ 1) :
    cw.pop_word p d = (cw.word_at p d,
      { Crosswords.popLoop d cw (Crosswords.pointList p d (cw.word_at p d).length) with
        words := (Crosswords.popLoop d cw
          (Crosswords.pointList p d (cw.word_at p d).length)).words.erase
            (cw.word_at p d) }) := by
  unfold Crosswords.pop_word
  rw [if_neg h]

theorem pop_word_fst {cw : Crosswords} {p : Point} {d : Dir}
    (h : ¬(cw.word_at p d).length ≤ 1) : (cw.pop_word p d).1 = cw.word_at p d := by
  rw [pop_word_eq h]

theorem pop_word_width {cw : Crosswords} {p : Point} {d : Dir}
    (h : ¬(cw.word_at p d).length ≤ 1) : (cw.pop_word p d).2.width = cw.width := by
  rw [pop_word_eq h]
  show (Crosswords.popLoop _ _ _).width = _
  rw [popLoop_width]

theorem pop_word_height {cw : Crosswords} {p : Point} {d : Dir}
    (h : ¬(cw.word_at p d).length ≤ 1) : (cw.pop_word p d).2.height = cw.height := by
  rw [pop_word_eq h]
  show (Crosswords.popLoop _ _ _).height = _
  rw [popLoop_height]

theorem pop_word_words {cw : Crosswords} {p : Point} {d : Dir}
    (h : ¬(cw.word_at p d).length ≤ 1) :
    (cw.pop_word p d).2.words = cw.words.erase (cw.word_at p d) := by
  rw [pop_word_eq h]
  show (Crosswords.popLoop _ _ _).words.erase _ = _
  rw [popLoop_words]

theorem pop_word_get_char_eq {cw : Crosswords} {p : Point} {d : Dir}
    (h : ¬(cw.word_at p d).length ≤ 1) (r : Point) :
    (cw.pop_word p d).2.get_char r =
      (Crosswords.popLoop d cw
        (Crosswords.pointList p d (cw.word_at p d).length)).get_char r := by
  rw [pop_word_eq h]
  exact words_update_get_char ..

theorem pop_word_get_border_eq {cw : Crosswords} {p : Point} {d : Dir}
    (h : ¬(cw.word_at p d).length ≤ 1) (r : Point) (d' : Dir) :
    (cw.pop_word p d).2.get_border r d' =
      (Crosswords.popLoop d cw
        (Crosswords.pointList p d (cw.word_at p d).length)).get_border r d' := by
  rw [pop_word_eq h]
  exact words_update_get_border ..

theorem pop_word_dimsOK {cw : Crosswords} {p : Point} {d : Dir} (hdim : cw.dimsOK)
    (h : ¬(cw.word_at p d).length ≤ 1) : (cw.pop_word p d).2.dimsOK := by
  obtain ⟨hw, hh, hc, hr, hdn⟩ := hdim
  refine ⟨?_, ?_, ?_, ?_, ?_⟩
  · rw [pop_word_width h]; exact hw
  · rw [pop_word_height h]; exact hh
  · rw [pop_word_width h, pop_word_height h, pop_word_eq h]
    show (Crosswords.popLoop _ _ _).chars.length = _
    rw [popLoop_chars_length]
    exact hc
  · rw [pop_word_width h, pop_word_height h, pop_word_eq h]
    show ((Crosswords.popLoop _ _ _).borderArr .Right).length = _
    rw [popLoop_borderArr_length]
    exact hr
  · rw [pop_word_width h, pop_word_height h, pop_word_eq h]
    show ((Crosswords.popLoop _ _ _).borderArr .Down).length = _
    rw [popLoop_borderArr_length]
    exact hdn

/-! Run combinatorics: runs never overlap, and every false border is internal to a
unique run of length at least 2. -/

theorem dirPt_cancel_right {d : Dir} {q q' : Point} {t : Int}
    (h : q + d.point * t = q' + d.point * t) : q = q' := by
  cases d <;>
    (have hx := congrArg Point.x h
     have hy := congrArg Point.y h
     simp [Dir.point] at hx hy
     exact Point.ext_xy (by omega) (by omega))

theorem point_sub_mul_succ (r dp : Point) (m : Nat) :
    (r - dp * (m : Int)) - dp = r - dp * ((m + 1 : Nat) : Int) := by
  apply Point.ext_xy <;> (push_cast; simp; ring)

theorem point_sub_add_cancel (r dp : Point) (m : Nat) :
    (r - dp * (m : Int)) + dp * (m : Int) = r := by
  apply Point.ext_xy <;> (simp; try ring)

theorem point_sub_shift (r dp : Point) {m j : Nat} (h : j ≤ m) :
    (r - dp * (m : Int)) + dp * (j : Int) = r - dp * ((m - j : Nat) : Int) := by
  have hcast : ((m - j : Nat) : Int) = (m : Int) - (j : Int) := by omega
  apply Point.ext_xy <;> (simp [hcast]; try ring)

theorem longRun_overlap_eq {cw : Crosswords} {s s' : Point} {d : Dir} {k k' : Nat}
    (hs' : 1 ≤ cw.rangeLen s' d)
    (hk : k < cw.rangeLen s d) (hk' : k' < cw.rangeLen s' d)
    (heq : s + d.point * (k : Int) = s' + d.point * (k' : Int)) :
    s = s' := by
  rcases le_or_lt k' k with hle | hlt
  · -- s' = s + dp * (k - k')
    have hshift : s' = s + d.point * ((k - k' : Nat) : Int) := by
      apply dirPt_cancel_right (d := d) (t := (k' : Int))
      have : (s + d.point * ((k - k' : Nat) : Int)) + d.point * (k' : Int) =
          s + d.point * (k : Int) := by
        rw [dirPt_shift]
        congr 2
        omega
      rw [this, heq]
    rcases Nat.eq_zero_or_pos (k - k') with hz | hpos
    · rw [hshift, hz, point_mul_zero]
    · exfalso
      have hbefore : cw.get_border (s' - d.point) d = true := rangeLen_before hs'
      have : s' - d.point = s + d.point * ((k - k' - 1 : Nat) : Int) := by
        rw [hshift]
        rw [point_mul_sub_one s d.point (k - k') hpos]
      rw [this] at hbefore
      have hint : cw.get_border (s + d.point * ((k - k' - 1 : Nat) : Int)) d = false := by
        apply rangeLen_internal
        omega
      rw [hint] at hbefore
      exact absurd hbefore (by simp)
  · -- symmetric: s = s' + dp * (k' - k), and k' - k ≥ 1
    exfalso
    have hs1 : 1 ≤ cw.rangeLen s d := by omega
    have hshift : s = s' + d.point * ((k' - k : Nat) : Int) := by
      apply dirPt_cancel_right (d := d) (t := (k : Int))
      have : (s' + d.point * ((k' - k : Nat) : Int)) + d.point * (k : Int) =
          s' + d.point * (k' : Int) := by
        rw [dirPt_shift]
        congr 2
        omega
      rw [this, heq]
    have hpos : 1 ≤ k' - k := by omega
    have hbefore : cw.get_border (s - d.point) d = true := rangeLen_before hs1
    have : s - d.point = s' + d.point * ((k' - k - 1 : Nat) : Int) := by
      rw [hshift]
      rw [point_mul_sub_one s' d.point (k' - k) hpos]
    rw [this] at hbefore
    have hint : cw.get_border (s' + d.point * ((k' - k - 1 : Nat) : Int)) d = false := by
      apply rangeLen_internal
      omega
    rw [hint] at hbefore
    exact absurd hbefore (by simp)

theorem borderIdx_some_of_border_false {cw : Crosswords} {r : Point} {d : Dir}
    (h : cw.get_border r d = false) : ∃ i, cw.borderIdx d r = some i := by
  rw [get_border_eq] at h
  rcases hidx : cw.borderIdx d r with _ | i
  · rw [hidx] at h
    exact absurd h (by simp)
  · exact ⟨i, rfl⟩

theorem back_border_exists (cw : Crosswords) (r : Point) (d : Dir)
    (h : cw.get_border r d = false) :
    ∃ m : Nat, cw.get_border (r - d.point * ((m + 1 : Nat) : Int)) d = true := by
  obtain ⟨i, hidx⟩ := borderIdx_some_of_border_false h
  cases d with
  | Right =>
    refine ⟨r.x.toNat, ?_⟩
    unfold Crosswords.borderIdx at hidx
    simp only at hidx
    unfold Point.coord at hidx
    split at hidx
    · rename_i hb
      rw [get_border_eq]
      have hnone : cw.borderIdx .Right (r - Dir.point .Right *
          ((r.x.toNat + 1 : Nat) : Int)) = none := by
        unfold Crosswords.borderIdx
        simp only
        unfold Point.coord
        rw [if_neg (by
          dsimp only [Point.sub_x, Point.mul_x, Dir.point]
          omega)]
      rw [hnone]
    · exact absurd hidx (by simp)
  | Down =>
    refine ⟨r.y.toNat, ?_⟩
    unfold Crosswords.borderIdx at hidx
    simp only at hidx
    unfold Point.coord at hidx
    split at hidx
    · rename_i hb
      rw [get_border_eq]
      have hnone : cw.borderIdx .Down (r - Dir.point .Down *
          ((r.y.toNat + 1 : Nat) : Int)) = none := by
        unfold Crosswords.borderIdx
        simp only
        unfold Point.coord
        rw [if_neg (by
          dsimp only [Point.sub_y, Point.mul_y, Dir.point]
          omega)]
      rw [hnone]
    · exact absurd hidx (by simp)

theorem border_false_in_run {cw : Crosswords} {r : Point} {d : Dir}
    (h : cw.get_border r d = false) :
    ∃ (s : Point) (m : Nat), r = s + d.point * (m : Int) ∧
      m + 2 ≤ cw.rangeLen s d := by
  classical
  have hex := back_border_exists cw r d h
  set m0 := Nat.find hex with hm0
  have hspec : cw.get_border (r - d.point * ((m0 + 1 : Nat) : Int)) d = true :=
    Nat.find_spec hex
  have hmin : ∀ j < m0, ¬cw.get_border (r - d.point * ((j + 1 : Nat) : Int)) d = true :=
    fun j hj => Nat.find_min hex hj
  set s := r - d.point * ((m0 : Nat) : Int) with hs
  have hr : r = s + d.point * ((m0 : Nat) : Int) := by
    rw [hs, point_sub_add_cancel]
  have hsub0 : r - d.point * ((0 : Nat) : Int) = r := by
    apply Point.ext_xy <;> simp
  have hfalse : ∀ j ≤ m0, cw.get_border (r - d.point * ((j : Nat) : Int)) d = false := by
    intro j hj
    rcases j with _ | j'
    · rw [hsub0]
      exact h
    · have hm := hmin j' (by omega)
      cases hbool : cw.get_border (r - d.point * ((j' + 1 : Nat) : Int)) d with
      | false => rfl
      | true => exact absurd hbool hm
  refine ⟨s, m0, hr, ?_⟩
  by_contra hcon
  push_neg at hcon
  rcases rangeLen_isRun cw s d with ⟨h0, hb⟩ | ⟨hL, hb, hint, hend⟩
  · have : cw.get_border (s - d.point) d = true := by
      have : s - d.point = r - d.point * ((m0 + 1 : Nat) : Int) := by
        rw [hs, point_sub_mul_succ]
      rw [this]
      exact hspec
    rw [this] at hb
    exact absurd hb (by simp)
  · set L := cw.rangeLen s d with hLdef
    have hL1 : L ≤ m0 + 1 := by omega
    have hLpos : 1 ≤ L := hL
    have hendpt : s + d.point * ((L - 1 : Nat) : Int) =
        r - d.point * ((m0 - (L - 1) : Nat) : Int) := by
      rw [hs, point_sub_shift r d.point (by omega)]
    rw [hendpt] at hend
    have : cw.get_border (r - d.point * ((m0 - (L - 1) : Nat) : Int)) d = false :=
      hfalse (m0 - (L - 1)) (by omega)
    rw [this] at hend
    exact absurd hend (by simp)

theorem word_at_length_le (cw : Crosswords) (p : Point) (d : Dir) :
    (cw.word_at p d).length ≤ cw.rangeLen p d := by
  unfold Crosswords.word_at
  calc ((Crosswords.pointList p d (cw.rangeLen p d)).filterMap fun q =>
        cw.get_char q).length
      ≤ (Crosswords.pointList p d (cw.rangeLen p d)).length :=
        List.length_filterMap_le _ _
    _ = cw.rangeLen p d := pointList_length ..

theorem filterMap_all_some {α β : Type} (g : α → Option β) (f' : α → β) :
    ∀ l : List α, (∀ a ∈ l, g a = some (f' a)) → l.filterMap g = l.map f'
  | [], _ => rfl
  | a :: l, h => by
    rw [List.filterMap_cons, h a (by simp), List.map_cons,
      filterMap_all_some g f' l (fun b hb => h b (by simp [hb]))]

theorem word_at_of_chars {cw : Crosswords} {p : Point} {d : Dir} (f : Nat → Char)
    (hc : ∀ k < cw.rangeLen p d, cw.get_char (p + d.point * (k : Int)) = some (f k)) :
    cw.word_at p d = (List.range (cw.rangeLen p d)).map f := by
  unfold Crosswords.word_at
  unfold Crosswords.pointList
  rw [List.filterMap_map]
  apply filterMap_all_some
  intro k hk
  exact hc k (List.mem_range.mp hk)

theorem rangeLen_eq_of_borders {cw1 cw2 : Crosswords} {s : Point} {d : Dir}
    (h : ∀ r, cw1.get_border r d = cw2.get_border r d) :
    cw1.rangeLen s d = cw2.rangeLen s d := by
  apply rangeLen_eq_of_isRun
  rcases rangeLen_isRun cw2 s d with ⟨h0, hb⟩ | ⟨hL, hb, hint, hend⟩
  · exact Or.inl ⟨h0, by rw [h]; exact hb⟩
  · exact Or.inr ⟨hL, by rw [h]; exact hb,
      fun k hk => by rw [h]; exact hint k hk, by rw [h]; exact hend⟩

theorem word_at_eq_of {cw1 cw2 : Crosswords} {s : Point} {d : Dir}
    (hlen : cw1.rangeLen s d = cw2.rangeLen s d)
    (hc : ∀ k < cw2.rangeLen s d,
      cw1.get_char (s + d.point * (k : Int)) = cw2.get_char (s + d.point * (k : Int))) :
    cw1.word_at s d = cw2.word_at s d := by
  unfold Crosswords.word_at
  rw [hlen]
  apply List.filterMap_congr
  intro q hq
  obtain ⟨k, hk, rfl⟩ := mem_pointList.mp hq
  exact hc k hk

theorem filterMap_length_of_some {α β : Type} (g : α → Option β) :
    ∀ l : List α, (∀ a ∈ l, (g a).isSome) → (l.filterMap g).length = l.length
  | [], _ => rfl
  | a :: l, h => by
    rw [List.filterMap_cons]
    rcases hg : g a with _ | b
    · have := h a (by simp)
      rw [hg] at this
      exact absurd this (by simp)
    · rw [List.length_cons, List.length_cons,
        filterMap_length_of_some g l (fun b hb => h b (by simp [hb]))]

theorem word_at_length_eq {cw : Crosswords} {s : Point} {d : Dir}
    (h : ∀ k < cw.rangeLen s d, (cw.get_char (s + d.point * (k : Int))).isSome) :
    (cw.word_at s d).length = cw.rangeLen s d := by
  unfold Crosswords.word_at
  rw [filterMap_length_of_some _ _ (fun q hq => by
    obtain ⟨k, hk, rfl⟩ := mem_pointList.mp hq
    exact h k hk), pointList_length]

theorem getD_replicate {α : Type} (n i : Nat) (a : α) :
    (List.replicate n a).getD i a = a := by
  rw [List.getD_eq_get?]
  rcases hg : (List.replicate n a).get? i with _ | b
  · rfl
  · have hmem : b ∈ List.replicate n a := List.get?_mem hg
    rw [List.eq_of_mem_replicate hmem]
    rfl

theorem new_get_border (w h : Nat) (q : Point) (d : Dir) :
    (Crosswords.new w h).get_border q d = true := by
  rw [get_border_eq]
  rcases hidx : (Crosswords.new w h).borderIdx d q with _ | i
  · rfl
  · cases d
    · show ((Crosswords.new w h).right_border).getD i true = true
      unfold Crosswords.new
      exact getD_replicate ..
    · show ((Crosswords.new w h).down_border).getD i true = true
      unfold Crosswords.new
      exact getD_replicate ..

theorem new_rangeLen_le_one (w h : Nat) (q : Point) (d : Dir) :
    (Crosswords.new w h).rangeLen q d ≤ 1 := by
  by_contra hcon
  push_neg at hcon
  have := @rangeLen_internal (Crosswords.new w h) q d 0 (by omega)
  rw [new_get_border] at this
  exact absurd this (by simp)

theorem new_get_char {w h : Nat} {q : Point} {c : Char}
    (hc : (Crosswords.new w h).get_char q = some c) : c = BLOCK := by
  unfold Crosswords.get_char at hc
  rcases hcoord : q.coord (Crosswords.new w h).width (Crosswords.new w h).height
    with _ | i
  · rw [hcoord] at hc
    exact absurd hc (by simp)
  · rw [hcoord, Option.some_bind] at hc
    have : c ∈ (Crosswords.new w h).chars := List.get?_mem hc
    exact List.eq_of_mem_replicate this

theorem inv_new (w h : Nat) (hw : 1 ≤ w) (hh : 1 ≤ h) : (Crosswords.new w h).Inv := by
  refine ⟨?_, ?_, ?_, ?_, ?_⟩
  · exact ⟨hw, hh, by simp [Crosswords.new], by simp [Crosswords.new],
      by simp [Crosswords.new]⟩
  · intro u
    constructor
    · intro hu
      exact absurd hu (by simp [Crosswords.new])
    · rintro ⟨s, d', hlong, _⟩
      have := new_rangeLen_le_one w h s d'
      exact absurd hlong (by unfold Crosswords.LongRun; omega)
  · intro s d' hlong
    have := new_rangeLen_le_one w h s d'
    exact absurd hlong (by unfold Crosswords.LongRun; omega)
  · intro s d' s2 d2 hlong
    have := new_rangeLen_le_one w h s d'
    exact absurd hlong (by unfold Crosswords.LongRun; omega)
  · intro q hq
    unfold Crosswords.is_letter at hq
    rcases hc : (Crosswords.new w h).get_char q with _ | c
    · rw [hc] at hq
      exact absurd hq (by simp)
    · rw [hc] at hq
      have := new_get_char hc
      simp [this] at hq

theorem list_eq_map_range {α : Type} (w : List α) (dflt : α) :
    (List.range w.length).map (fun k => w.getD k dflt) = w := by
  apply List.ext_get?
  intro k
  rw [List.get?_map]
  by_cases hk : k < w.length
  · rw [List.get?_range hk]
    rcases hg : w.get? k with _ | a
    · exact absurd (List.get?_eq_none.mp hg) (by omega)
    · show some (w.getD k dflt) = _
      rw [List.getD_eq_get?, hg]
      rfl
  · rw [List.get?_eq_none.mpr (by simpa using Nat.le_of_not_lt hk),
      List.get?_eq_none.mpr (by omega)]
    rfl

/-! Preservation of the representation invariant by `push_word`. -/

theorem point_mul_succ_right (p dp : Point) (k : Nat) :
    p + dp * ((k + 1 : Nat) : Int) = (p + dp * (k : Int)) + dp := by
  apply Point.ext_xy <;> (push_cast; simp; ring)

theorem point_sub_add_point (s dp : Point) : (s - dp) + dp = s := by
  apply Point.ext_xy <;> simp

theorem point_before_ne {d : Dir} (p : Point) (k : Nat) :
    p - d.point ≠ p + d.point * (k : Int) := by
  intro h
  cases d
  · have := congrArg Point.x h
    simp [Dir.point] at this
    omega
  · have := congrArg Point.y h
    simp [Dir.point] at this
    omega

theorem borderIdx_some_of_coords {cw : Crosswords} {d : Dir} {q : Point} {i j : Nat}
    (h1 : q.coord cw.width cw.height = some i)
    (h2 : (q + d.point).coord cw.width cw.height = some j) :
    cw.borderIdx d q ≠ none := by
  unfold Point.coord at h1 h2
  split at h1
  · rename_i hc1
    split at h2
    · rename_i hc2
      obtain ⟨a1, a2, a3, a4⟩ := hc1
      cases d
      · show Point.coord q (cw.width - 1) cw.height ≠ none
        unfold Point.coord
        rw [if_pos ⟨a1, by
          have := hc2.2.1
          simp [Dir.point] at this
          omega, a3, a4⟩]
        simp
      · show Point.coord q cw.width (cw.height - 1) ≠ none
        unfold Point.coord
        rw [if_pos ⟨a1, a2, a3, by
          have := hc2.2.2.2
          simp [Dir.point] at this
          omega⟩]
        simp
    · exact absurd h2 (by simp)
  · exact absurd h1 (by simp)

theorem allowed_facts {cw : Crosswords} {p : Point} {d : Dir} {word : CVec}
    (hdim : cw.dimsOK) (hallow : cw.is_word_allowed p d word = true) :
    2 ≤ word.length ∧ word ∉ cw.words ∧
      cw.get_border (p - d.point) d = true ∧
      cw.get_border (p + d.point * ((word.length - 1 : Nat) : Int)) d = true ∧
      ∀ k < word.length,
        (∃ i, (p + d.point * (k : Int)).coord cw.width cw.height = some i) ∧
          (cw.get_char (p + d.point * (k : Int)) = word.get? k ∨
            cw.get_char (p + d.point * (k : Int)) = some BLOCK) := by
  have hle : cw.width * cw.height ≤ cw.chars.length := le_of_eq hdim.2.2.1.symm
  obtain ⟨hlen, hnotin, hb1, hb2, hall⟩ := (word_allowed_iff cw p d word hle).mp hallow
  have hcast : ((word.length - 1 : Nat) : Int) = (word.length : Int) - 1 := by omega
  refine ⟨hlen, hnotin, hb1, by rw [hcast]; exact hb2, ?_⟩
  intro k hk
  obtain ⟨hcoord, hchar⟩ := hall k hk
  refine ⟨?_, hchar⟩
  rcases hc : (p + d.point * (k : Int)).coord cw.width cw.height with _ | i
  · exact absurd hc hcoord
  · exact ⟨i, rfl⟩

theorem push_border_mono {cw : Crosswords} {p : Point} {d : Dir} {word : CVec}
    (hdim : cw.dimsOK) {r : Point} (h : cw.get_border r d = false) :
    (cw.push_word p d word).get_border r d = false := by
  by_cases hr : ∃ k, k + 1 < word.length ∧ r = p + d.point * (k : Int)
  · obtain ⟨k, hk, rfl⟩ := hr
    apply push_word_get_border_internal hdim hk
    obtain ⟨i, hi⟩ := borderIdx_some_of_border_false h
    rw [hi]
    simp
  · push_neg at hr
    rw [push_word_get_border_other hr]
    exact h

theorem border_false_of_ne_true {cw : Crosswords} {r : Point} {d : Dir}
    (h : ¬cw.get_border r d = true) : cw.get_border r d = false := by
  cases hb : cw.get_border r d
  · rfl
  · exact absurd hb h

theorem push_rangeLen_self {cw : Crosswords} {p : Point} {d : Dir} {word : CVec}
    (hdim : cw.dimsOK) (hallow : cw.is_word_allowed p d word = true) :
    (cw.push_word p d word).rangeLen p d = word.length := by
  obtain ⟨hlen, _, hb1, hb2, hcell⟩ := allowed_facts hdim hallow
  apply rangeLen_eq_of_isRun
  refine Or.inr ⟨by omega, ?_, ?_, ?_⟩
  · rw [push_word_get_border_other (fun k _ => point_before_ne p k)]
    exact hb1
  · intro k hk
    obtain ⟨i, hi⟩ := (hcell k (by omega)).1
    obtain ⟨j, hj⟩ := (hcell (k + 1) (by omega)).1
    rw [point_mul_succ_right] at hj
    exact push_word_get_border_internal hdim hk (borderIdx_some_of_coords hi hj)
  · rw [push_word_get_border_other (fun k hk heq => by
      have := dirPt_cancel_nat heq
      omega)]
    exact hb2

theorem push_word_at_self {cw : Crosswords} {p : Point} {d : Dir} {word : CVec}
    (hdim : cw.dimsOK) (hallow : cw.is_word_allowed p d word = true) :
    (cw.push_word p d word).word_at p d = word := by
  obtain ⟨hlen, _, _, _, hcell⟩ := allowed_facts hdim hallow
  have hr := push_rangeLen_self hdim hallow
  have hchars : ∀ k < (cw.push_word p d word).rangeLen p d,
      (cw.push_word p d word).get_char (p + d.point * (k : Int)) =
        some (word.getD k BLOCK) := by
    intro k hk
    rw [hr] at hk
    obtain ⟨c, hc⟩ : ∃ c, word.get? k = some c := by
      rcases hw : word.get? k with _ | c
      · exact absurd (List.get?_eq_none.mp hw) (by omega)
      · exact ⟨c, rfl⟩
    obtain ⟨i, hi⟩ := (hcell k hk).1
    rw [push_word_get_char_write hdim hk hc hi]
    rw [List.getD_eq_get?, hc]
    rfl
  rw [word_at_of_chars (fun k => word.getD k BLOCK) hchars, hr, list_eq_map_range]

theorem push_char_eq_of_letter {cw : Crosswords} {p : Point} {d : Dir} {word : CVec}
    (hdim : cw.dimsOK) (hallow : cw.is_word_allowed p d word = true) {r : Point}
    {c : Char} (hc : cw.get_char r = some c) (hcb : c ≠ BLOCK) :
    (cw.push_word p d word).get_char r = cw.get_char r := by
  obtain ⟨_, _, _, _, hcell⟩ := allowed_facts hdim hallow
  by_cases hr : ∃ m, m < word.length ∧ r = p + d.point * (m : Int)
  · obtain ⟨m, hm, rfl⟩ := hr
    obtain ⟨⟨i, hi⟩, hch⟩ := hcell m hm
    rcases hch with hch | hch
    · have hg : word.get? m = some c := by
        rw [← hch]
        exact hc
      rw [push_word_get_char_write hdim hm hg hi, hc]
    · rw [hc] at hch
      exact absurd (Option.some.inj hch) hcb
  · push_neg at hr
    exact push_word_get_char_other hr

theorem push_run_other_start {cw : Crosswords} {p : Point} {d : Dir} {word : CVec}
    (hdim : cw.dimsOK) (hallow : cw.is_word_allowed p d word = true) {s : Point}
    (hs : s ≠ p) (hlong : 2 ≤ (cw.push_word p d word).rangeLen s d) :
    cw.rangeLen s d = (cw.push_word p d word).rangeLen s d ∧
      ∀ j < (cw.push_word p d word).rangeLen s d, ∀ k < word.length,
        s + d.point * (j : Int) ≠ p + d.point * (k : Int) := by
  obtain ⟨hlen, _, _, _, _⟩ := allowed_facts hdim hallow
  have hLp := push_rangeLen_self hdim hallow
  have havoid : ∀ j < (cw.push_word p d word).rangeLen s d, ∀ k < word.length,
      s + d.point * (j : Int) ≠ p + d.point * (k : Int) := by
    intro j hj k hk heq
    exact hs (@longRun_overlap_eq (cw.push_word p d word) s p d j k
      (by omega) hj (by omega) heq)
  refine ⟨?_, havoid⟩
  have hpre : cw.get_border (s - d.point) d = true := by
    have hres : (cw.push_word p d word).get_border (s - d.point) d = true :=
      rangeLen_before (by omega)
    by_contra hfalse
    have := @push_border_mono cw p d word hdim _ (border_false_of_ne_true hfalse)
    rw [this] at hres
    exact absurd hres (by simp)
  apply rangeLen_eq_of_isRun
  refine Or.inr ⟨by omega, hpre, ?_, ?_⟩
  · intro j hj
    have hres : (cw.push_word p d word).get_border (s + d.point * (j : Int)) d = false :=
      rangeLen_internal hj
    rw [push_word_get_border_other
      (fun k hk => havoid j (by omega) k (by omega))] at hres
    exact hres
  · have hres := @rangeLen_end (cw.push_word p d word) s d (by omega)
    by_contra hfalse
    have := @push_border_mono cw p d word hdim _ (border_false_of_ne_true hfalse)
    rw [this] at hres
    exact absurd hres (by simp)

theorem push_rangeLen_odir {cw : Crosswords} {p : Point} {d : Dir} {word : CVec}
    {s : Point} {d' : Dir} (hne : d' ≠ d) :
    (cw.push_word p d word).rangeLen s d' = cw.rangeLen s d' :=
  rangeLen_eq_of_borders (fun r => push_word_get_border_dir hne)

theorem push_run_survives {cw : Crosswords} {p : Point} {d : Dir} {word : CVec}
    (hdim : cw.dimsOK) (hallow : cw.is_word_allowed p d word = true) {s : Point}
    (hlong : 2 ≤ cw.rangeLen s d)
    (hnotsup : ∀ k < word.length, s ≠ p + d.point * (k : Int)) :
    (cw.push_word p d word).rangeLen s d = cw.rangeLen s d ∧
      ∀ j < cw.rangeLen s d, ∀ k < word.length,
        s + d.point * (j : Int) ≠ p + d.point * (k : Int) := by
  obtain ⟨hlen, _, hb1, _, _⟩ := allowed_facts hdim hallow
  have havoid : ∀ j < cw.rangeLen s d, ∀ k < word.length,
      s + d.point * (j : Int) ≠ p + d.point * (k : Int) := by
    intro j hj k hk heq
    rcases Nat.eq_zero_or_pos j with rfl | hjpos
    · rw [point_mul_zero] at heq
      exact hnotsup k hk heq
    · rcases le_or_lt j k with hle | hlt
      · have hshift : s = p + d.point * ((k - j : Nat) : Int) := by
          apply dirPt_cancel_right (d := d) (t := (j : Int))
          have : (p + d.point * ((k - j : Nat) : Int)) + d.point * (j : Int) =
              p + d.point * (k : Int) := by
            rw [dirPt_shift]
            congr 2
            omega
          rw [this]
          exact heq
        exact hnotsup (k - j) (by omega) hshift
      · have hp : p = s + d.point * ((j - k : Nat) : Int) := by
          apply dirPt_cancel_right (d := d) (t := (k : Int))
          have : (s + d.point * ((j - k : Nat) : Int)) + d.point * (k : Int) =
              s + d.point * (j : Int) := by
            rw [dirPt_shift]
            congr 2
            omega
          rw [this]
          exact heq.symm
        have hbefore : p - d.point = s + d.point * ((j - k - 1 : Nat) : Int) := by
          rw [hp, point_mul_sub_one s d.point (j - k) (by omega)]
        have hint := @rangeLen_internal cw s d (j - k - 1) (by omega)
        rw [← hbefore] at hint
        rw [hint] at hb1
        exact absurd hb1 (by simp)
  refine ⟨?_, havoid⟩
  apply rangeLen_eq_of_isRun
  refine Or.inr ⟨by omega, ?_, ?_, ?_⟩
  · rw [push_word_get_border_other (fun k hk heq => by
      have hs2 : s = p + d.point * ((k + 1 : Nat) : Int) := by
        rw [point_mul_succ_right, ← heq, point_sub_add_point]
      exact hnotsup (k + 1) (by omega) hs2)]
    exact rangeLen_before (by omega)
  · intro j hj
    rw [push_word_get_border_other (fun k hk => havoid j (by omega) k (by omega))]
    exact rangeLen_internal hj
  · rw [push_word_get_border_other
      (fun k hk => havoid (cw.rangeLen s d - 1) (by omega) k (by omega))]
    exact rangeLen_end (by omega)

theorem push_longRun_cases {cw : Crosswords} {p : Point} {d : Dir} {word : CVec}
    (hdim : cw.dimsOK) (hallow : cw.is_word_allowed p d word = true)
    (hchars : ∀ s0 d0, 2 ≤ cw.rangeLen s0 d0 → ∀ k < cw.rangeLen s0 d0,
      ∃ c, cw.get_char (s0 + d0.point * (k : Int)) = some c ∧ c ≠ BLOCK)
    {s : Point} {d' : Dir}
    (hlong : 2 ≤ (cw.push_word p d word).rangeLen s d') :
    (s = p ∧ d' = d) ∨
      (2 ≤ cw.rangeLen s d' ∧
        (cw.push_word p d word).rangeLen s d' = cw.rangeLen s d' ∧
        (∀ k < cw.rangeLen s d',
          (cw.push_word p d word).get_char (s + d'.point * (k : Int)) =
            cw.get_char (s + d'.point * (k : Int))) ∧
        (cw.push_word p d word).word_at s d' = cw.word_at s d' ∧
        (d' = d → ∀ k < word.length, s ≠ p + d.point * (k : Int))) := by
  by_cases hd : d' = d
  · subst hd
    by_cases hsp : s = p
    · exact Or.inl ⟨hsp, rfl⟩
    · obtain ⟨hlen_eq, havoid⟩ := push_run_other_start hdim hallow hsp hlong
      right
      have hcells : ∀ k < cw.rangeLen s d',
          (cw.push_word p d' word).get_char (s + d'.point * (k : Int)) =
            cw.get_char (s + d'.point * (k : Int)) := by
        intro k hk
        exact push_word_get_char_other (fun m hm => havoid k (by omega) m hm)
      refine ⟨by omega, hlen_eq.symm, hcells, word_at_eq_of hlen_eq.symm hcells, ?_⟩
      intro _ k hk heq
      have := havoid 0 (by omega) k hk
      rw [point_mul_zero] at this
      exact this heq
  · right
    have hr : (cw.push_word p d word).rangeLen s d' = cw.rangeLen s d' :=
      push_rangeLen_odir hd
    have hlongcw : 2 ≤ cw.rangeLen s d' := by
      rw [← hr]
      exact hlong
    have hcells : ∀ k < cw.rangeLen s d',
        (cw.push_word p d word).get_char (s + d'.point * (k : Int)) =
          cw.get_char (s + d'.point * (k : Int)) := by
      intro k hk
      obtain ⟨c, hc, hcb⟩ := hchars s d' hlongcw k hk
      exact push_char_eq_of_letter hdim hallow hc hcb
    exact ⟨hlongcw, hr, hcells, word_at_eq_of hr hcells, fun h => absurd h hd⟩

theorem push_both_borders_false {cw : Crosswords} {p : Point} {d : Dir} {word : CVec}
    (hdim : cw.dimsOK) {r : Point} {dd : Dir}
    (h : cw.both_borders r dd = false) :
    (cw.push_word p d word).both_borders r dd = false := by
  by_cases hdd : dd = d
  · subst hdd
    unfold Crosswords.both_borders at h ⊢
    cases hb1 : cw.get_border r dd with
    | false =>
      rw [push_border_mono hdim hb1, Bool.false_and]
    | true =>
      cases hb2 : cw.get_border (r - dd.point) dd with
      | false =>
        rw [push_border_mono hdim hb2, Bool.and_false]
      | true =>
        rw [hb1, hb2] at h
        exact absurd h (by simp)
  · unfold Crosswords.both_borders at h ⊢
    rw [push_word_get_border_dir hdd, push_word_get_border_dir hdd]
    exact h

theorem inv_push {cw : Crosswords} {p : Point} {d : Dir} {word : CVec}
    (hinv : cw.Inv) (hallow : cw.is_word_allowed p d word = true)
    (hbf : BLOCK ∉ word) : (cw.push_word p d word).Inv := by
  obtain ⟨hdim, hB, hC, hE, hD⟩ := hinv
  obtain ⟨hlen2, hnotin, hb1, hb2, hcell⟩ := allowed_facts hdim hallow
  have hCall : ∀ s0 d0, 2 ≤ cw.rangeLen s0 d0 → ∀ k < cw.rangeLen s0 d0,
      ∃ c, cw.get_char (s0 + d0.point * (k : Int)) = some c ∧ c ≠ BLOCK :=
    fun s0 d0 h2 => hC s0 d0 h2
  have hLp : (cw.push_word p d word).rangeLen p d = word.length :=
    push_rangeLen_self hdim hallow
  have hWp : (cw.push_word p d word).word_at p d = word :=
    push_word_at_self hdim hallow
  refine ⟨push_word_dimsOK hdim, ?_, ?_, ?_, ?_⟩
  · intro u
    rw [push_word_words]
    constructor
    · rintro (rfl | ⟨hucw, hunot⟩)
      · exact ⟨p, d, by show 2 ≤ _; rw [hLp]; omega, hWp⟩
      · obtain ⟨s, d', hlongcw, hword⟩ := (hB u).mp hucw
        by_cases hd : d' = d
        · subst hd
          have hnot : ∀ k < word.length, s ≠ p + d'.point * (k : Int) := by
            intro k hk heq
            exact hunot k hk (by rw [← heq]; exact hword.symm)
          obtain ⟨hlen_eq, havoid⟩ := push_run_survives hdim hallow hlongcw hnot
          refine ⟨s, d', ?_, ?_⟩
          · show 2 ≤ _
            rw [hlen_eq]
            exact hlongcw
          · rw [word_at_eq_of hlen_eq
              (fun k hk => push_word_get_char_other (fun m hm => havoid k hk m hm))]
            exact hword
        · have hr := @push_rangeLen_odir cw p d word s d' hd
          have hcells : ∀ k < cw.rangeLen s d',
              (cw.push_word p d word).get_char (s + d'.point * (k : Int)) =
                cw.get_char (s + d'.point * (k : Int)) := by
            intro k hk
            obtain ⟨c, hc, hcb⟩ := hC s d' hlongcw k hk
            exact push_char_eq_of_letter hdim hallow hc hcb
          refine ⟨s, d', ?_, ?_⟩
          · show 2 ≤ _
            rw [hr]
            exact hlongcw
          · rw [word_at_eq_of hr hcells]
            exact hword
    · rintro ⟨s, d', hlongres, hwordres⟩
      rcases push_longRun_cases hdim hallow hCall hlongres with ⟨hs, hd2⟩ |
        ⟨hlongcw, hlen_eq, hcells, hword_eq, hnsup⟩
      · left
        rw [← hwordres, hs, hd2]
        exact hWp
      · right
        have hucw_word : u = cw.word_at s d' := by
          rw [← hword_eq]
          exact hwordres.symm
        have hucw : u ∈ cw.words := (hB u).mpr ⟨s, d', hlongcw, hucw_word.symm⟩
        refine ⟨hucw, ?_⟩
        intro k hk hueq
        have hulen2 : 2 ≤ u.length := by
          rw [hucw_word, word_at_length_eq (fun j hj => by
            obtain ⟨c, hc, _⟩ := hC s d' hlongcw j hj
            rw [hc]
            rfl)]
          exact hlongcw
        have hlongq : 2 ≤ cw.rangeLen (p + d.point * (k : Int)) d := by
          have h1 := word_at_length_le cw (p + d.point * (k : Int)) d
          rw [← hueq] at h1
          omega
        have heq2 : cw.word_at s d' = cw.word_at (p + d.point * (k : Int)) d := by
          rw [← hucw_word]
          exact hueq
        obtain ⟨hs_eq, hd_eq⟩ := hE s d' (p + d.point * (k : Int)) d hlongcw hlongq heq2
        exact hnsup hd_eq k hk hs_eq
  · intro s d' hlongres k hk
    rcases push_longRun_cases hdim hallow hCall hlongres with ⟨hs, hd2⟩ |
      ⟨hlongcw, hlen_eq, hcells, _, _⟩
    · rw [hs, hd2] at hk ⊢
      rw [hLp] at hk
      obtain ⟨c, hc⟩ : ∃ c, word.get? k = some c := by
        rcases hw : word.get? k with _ | c
        · exact absurd (List.get?_eq_none.mp hw) (by omega)
        · exact ⟨c, rfl⟩
      obtain ⟨i, hi⟩ := (hcell k hk).1
      refine ⟨c, push_word_get_char_write hdim hk hc hi, ?_⟩
      intro hcb
      exact hbf (hcb ▸ List.get?_mem hc)
    · rw [hlen_eq] at hk
      obtain ⟨c, hc, hcb⟩ := hC s d' hlongcw k hk
      refine ⟨c, ?_, hcb⟩
      rw [hcells k hk]
      exact hc
  · intro s d' s2 d2 h1 h2 heq
    rcases push_longRun_cases hdim hallow hCall h1 with ⟨hs1, hd1⟩ |
      ⟨hl1, he1, hc1, hw1, hn1⟩ <;>
      rcases push_longRun_cases hdim hallow hCall h2 with ⟨hs2, hd2⟩ |
        ⟨hl2, he2, hc2, hw2, hn2⟩
    · exact ⟨hs1.trans hs2.symm, hd1.trans hd2.symm⟩
    · exfalso
      apply hnotin
      rw [hs1, hd1, hWp, hw2] at heq
      exact (hB word).mpr ⟨s2, d2, hl2, heq.symm⟩
    · exfalso
      apply hnotin
      rw [hs2, hd2, hWp, hw1] at heq
      exact (hB word).mpr ⟨s, d', hl1, heq⟩
    · rw [hw1, hw2] at heq
      exact hE s d' s2 d2 hl1 hl2 heq
  · intro r hr
    by_cases hq : ∃ k, k < word.length ∧ r = p + d.point * (k : Int)
    · obtain ⟨k, hk, rfl⟩ := hq
      have hbb : (cw.push_word p d word).both_borders (p + d.point * (k : Int)) d
          = false := by
        unfold Crosswords.both_borders
        rcases Nat.lt_or_ge (k + 1) word.length with hlt | hge
        · obtain ⟨i, hi⟩ := (hcell k hk).1
          obtain ⟨j, hj⟩ := (hcell (k + 1) (by omega)).1
          rw [point_mul_succ_right] at hj
          rw [push_word_get_border_internal hdim hlt (borderIdx_some_of_coords hi hj),
            Bool.false_and]
        · have hk1 : 1 ≤ k := by omega
          rw [point_mul_sub_one p d.point k hk1]
          obtain ⟨i, hi⟩ := (hcell (k - 1) (by omega)).1
          obtain ⟨j, hj⟩ := (hcell k hk).1
          have hksucc : k - 1 + 1 = k := by omega
          have hj2 : ((p + d.point * ((k - 1 : Nat) : Int)) + d.point).coord
              cw.width cw.height = some j := by
            rw [← point_mul_succ_right, hksucc]
            exact hj
          rw [push_word_get_border_internal hdim
            (show (k - 1) + 1 < word.length by omega)
            (borderIdx_some_of_coords hi hj2), Bool.and_false]
      cases d
      · exact Or.inl hbb
      · exact Or.inr hbb
    · push_neg at hq
      have hchar : (cw.push_word p d word).get_char r = cw.get_char r :=
        push_word_get_char_other hq
      have hlet : cw.is_letter r = true := by
        unfold Crosswords.is_letter at hr ⊢
        rw [hchar] at hr
        exact hr
      rcases hD r hlet with hbb | hbb
      · exact Or.inl (push_both_borders_false hdim hbb)
      · exact Or.inr (push_both_borders_false hdim hbb)

/-! Preservation of the representation invariant by `pop_word`. -/

theorem dir_eq_other_of_ne {d' d : Dir} (h : d' ≠ d) : d' = d.other := by
  cases d <;> cases d' <;> first | rfl | exact absurd rfl h | rfl

theorem pop_border_cell {cw : Crosswords} {p : Point} {d : Dir} (hdim : cw.dimsOK)
    (h : ¬(cw.word_at p d).length ≤ 1) {k : Nat} (hk : k < (cw.word_at p d).length) :
    (cw.pop_word p d).2.get_border (p + d.point * (k : Int)) d = true := by
  rw [pop_word_get_border_eq h]
  exact popLoop_get_border_set d (cw.word_at p d).length p cw
    (fun q i hq => dims_borderIdx_lt hdim hq) k hk

theorem pop_border_other {cw : Crosswords} {p : Point} {d : Dir}
    (h : ¬(cw.word_at p d).length ≤ 1) {r : Point} {d' : Dir}
    (hcond : d' ≠ d ∨ ∀ k < (cw.word_at p d).length, r ≠ p + d.point * (k : Int)) :
    (cw.pop_word p d).2.get_border r d' = cw.get_border r d' := by
  rw [pop_word_get_border_eq h]
  exact popLoop_get_border_other d (cw.word_at p d).length p cw r d' hcond

theorem pop_char_other {cw : Crosswords} {p : Point} {d : Dir}
    (h : ¬(cw.word_at p d).length ≤ 1) {r : Point}
    (hr : ∀ k < (cw.word_at p d).length, r ≠ p + d.point * (k : Int)) :
    (cw.pop_word p d).2.get_char r = cw.get_char r := by
  rw [pop_word_get_char_eq h]
  exact popLoop_get_char_other d (cw.word_at p d).length p cw r hr

theorem pop_char_cell_keep {cw : Crosswords} {p : Point} {d : Dir}
    (h : ¬(cw.word_at p d).length ≤ 1) {k : Nat} (hk : k < (cw.word_at p d).length)
    (hbb : cw.both_borders (p + d.point * (k : Int)) d.other = false) :
    (cw.pop_word p d).2.get_char (p + d.point * (k : Int)) =
      cw.get_char (p + d.point * (k : Int)) := by
  rw [pop_word_get_char_eq h]
  exact (popLoop_get_char_cell d (cw.word_at p d).length p cw k hk).2 hbb

theorem pop_char_cell_blank {cw : Crosswords} {p : Point} {d : Dir} (hdim : cw.dimsOK)
    (h : ¬(cw.word_at p d).length ≤ 1) {k : Nat} (hk : k < (cw.word_at p d).length)
    (hbb : cw.both_borders (p + d.point * (k : Int)) d.other = true) {i : Nat}
    (hi : (p + d.point * (k : Int)).coord cw.width cw.height = some i) :
    (cw.pop_word p d).2.get_char (p + d.point * (k : Int)) = some BLOCK := by
  rw [pop_word_get_char_eq h]
  exact ((popLoop_get_char_cell d (cw.word_at p d).length p cw k hk).1 hbb).2 i hi
    (dims_coord_lt hdim hi)

theorem pop_border_mono {cw : Crosswords} {p : Point} {d : Dir} (hdim : cw.dimsOK)
    (h : ¬(cw.word_at p d).length ≤ 1) {r : Point}
    (ht : cw.get_border r d = true) : (cw.pop_word p d).2.get_border r d = true := by
  by_cases hr : ∃ k, k < (cw.word_at p d).length ∧ r = p + d.point * (k : Int)
  · obtain ⟨k, hk, rfl⟩ := hr
    exact pop_border_cell hdim h hk
  · push_neg at hr
    rw [pop_border_other h (Or.inr hr)]
    exact ht

theorem pop_context {cw : Crosswords} {p : Point} {d : Dir} (hinv : cw.Inv)
    (h : ¬(cw.word_at p d).length ≤ 1) :
    2 ≤ cw.rangeLen p d ∧ (cw.word_at p d).length = cw.rangeLen p d := by
  have hle := word_at_length_le cw p d
  have hlong : 2 ≤ cw.rangeLen p d := by omega
  exact ⟨hlong, word_at_length_eq (fun k hk => by
    obtain ⟨c, hc, _⟩ := hinv.2.2.1 p d hlong k hk
    rw [hc]
    rfl)⟩

theorem pop_run_avoid {cw : Crosswords} {p : Point} {d : Dir} (hinv : cw.Inv)
    (h : ¬(cw.word_at p d).length ≤ 1) {s : Point}
    (hlong : 2 ≤ (cw.pop_word p d).2.rangeLen s d) :
    ∀ j < (cw.pop_word p d).2.rangeLen s d, ∀ k < (cw.word_at p d).length,
      s + d.point * (j : Int) ≠ p + d.point * (k : Int) := by
  obtain ⟨hLp, hwlen⟩ := pop_context hinv h
  have hdim := hinv.1
  intro j hj k hk heq
  rcases Nat.lt_or_ge (j + 1) ((cw.pop_word p d).2.rangeLen s d) with hjint | hjend
  · have hfalse := @rangeLen_internal (cw.pop_word p d).2 s d j hjint
    rw [heq, pop_border_cell hdim h hk] at hfalse
    exact absurd hfalse (by simp)
  · have hj1 : 1 ≤ j := by omega
    have hpred : s + d.point * ((j - 1 : Nat) : Int) =
        (p + d.point * (k : Int)) - d.point := by
      rw [← heq]
      exact (point_mul_sub_one s d.point j hj1).symm
    have hfalse := @rangeLen_internal (cw.pop_word p d).2 s d (j - 1) (by omega)
    rcases Nat.eq_zero_or_pos k with rfl | hk1
    · have hpos : s + d.point * ((j - 1 : Nat) : Int) = p - d.point := by
        rw [hpred, point_mul_zero]
      rw [hpos, pop_border_other h (Or.inr (fun m _ => point_before_ne p m)),
        @rangeLen_before cw p d (by omega)] at hfalse
      exact absurd hfalse (by simp)
    · have hpos : s + d.point * ((j - 1 : Nat) : Int) =
          p + d.point * ((k - 1 : Nat) : Int) := by
        rw [hpred, point_mul_sub_one p d.point k hk1]
      rw [hpos, pop_border_cell hdim h
        (show k - 1 < (cw.word_at p d).length by omega)] at hfalse
      exact absurd hfalse (by simp)

theorem pop_char_odir {cw : Crosswords} {p : Point} {d : Dir} (hinv : cw.Inv)
    (h : ¬(cw.word_at p d).length ≤ 1) {s : Point} {d' : Dir} (hd : d' ≠ d)
    (hlongcw : 2 ≤ cw.rangeLen s d') :
    ∀ k < cw.rangeLen s d',
      (cw.pop_word p d).2.get_char (s + d'.point * (k : Int)) =
        cw.get_char (s + d'.point * (k : Int)) := by
  intro k hk
  by_cases hcellq : ∃ m, m < (cw.word_at p d).length ∧
      s + d'.point * (k : Int) = p + d.point * (m : Int)
  · obtain ⟨m, hm, heq⟩ := hcellq
    have hdo : d' = d.other := dir_eq_other_of_ne hd
    have hbb : cw.both_borders (p + d.point * (m : Int)) d.other = false := by
      rw [← heq, ← hdo]
      unfold Crosswords.both_borders
      rcases Nat.lt_or_ge (k + 1) (cw.rangeLen s d') with hki | hke
      · rw [rangeLen_internal hki, Bool.false_and]
      · have hk1 : 1 ≤ k := by omega
        rw [point_mul_sub_one s d'.point k hk1,
          rangeLen_internal (show k - 1 + 1 < cw.rangeLen s d' by omega), Bool.and_false]
    rw [heq]
    exact pop_char_cell_keep h hm hbb
  · push_neg at hcellq
    exact pop_char_other h hcellq

theorem pop_longRun_cases {cw : Crosswords} {p : Point} {d : Dir} (hinv : cw.Inv)
    (h : ¬(cw.word_at p d).length ≤ 1) {s : Point} {d' : Dir}
    (hlong : 2 ≤ (cw.pop_word p d).2.rangeLen s d') :
    2 ≤ cw.rangeLen s d' ∧
      (cw.pop_word p d).2.rangeLen s d' = cw.rangeLen s d' ∧
      (∀ k < cw.rangeLen s d',
        (cw.pop_word p d).2.get_char (s + d'.point * (k : Int)) =
          cw.get_char (s + d'.point * (k : Int))) ∧
      (cw.pop_word p d).2.word_at s d' = cw.word_at s d' ∧
      ¬(s = p ∧ d' = d) := by
  obtain ⟨hLp, hwlen⟩ := pop_context hinv h
  have hdim := hinv.1
  by_cases hd : d' = d
  case neg =>
    have hr : (cw.pop_word p d).2.rangeLen s d' = cw.rangeLen s d' :=
      rangeLen_eq_of_borders (fun r => pop_border_other h (Or.inl hd))
    have hlongcw : 2 ≤ cw.rangeLen s d' := by
      rw [← hr]
      exact hlong
    have hcells := pop_char_odir hinv h hd hlongcw
    exact ⟨hlongcw, hr, hcells, word_at_eq_of hr hcells, fun hc => hd hc.2⟩
  case pos =>
    subst hd
    have havoid := pop_run_avoid hinv h hlong
    have hsnotp : ¬(s = p) := by
      intro hsp
      have := havoid 0 (by omega) 0 (by omega)
      rw [point_mul_zero, point_mul_zero] at this
      exact this hsp
    have hlen_eq : cw.rangeLen s d' = (cw.pop_word p d').2.rangeLen s d' := by
      apply rangeLen_eq_of_isRun
      refine Or.inr ⟨by omega, ?_, ?_, ?_⟩
      · have hres : (cw.pop_word p d').2.get_border (s - d'.point) d' = true :=
          rangeLen_before (by omega)
        by_cases hq : ∃ m, m < (cw.word_at p d').length ∧
            s - d'.point = p + d'.point * (m : Int)
        · obtain ⟨m, hm, heqm⟩ := hq
          rcases Nat.lt_or_ge (m + 1) (cw.word_at p d').length with hlt | hge
          · exfalso
            have hs_eq : s = p + d'.point * ((m + 1 : Nat) : Int) := by
              rw [point_mul_succ_right, ← heqm, point_sub_add_point]
            have := havoid 0 (by omega) (m + 1) hlt
            rw [point_mul_zero] at this
            exact this hs_eq
          · have hm_eq : m = cw.rangeLen p d' - 1 := by omega
            rw [heqm, hm_eq]
            exact rangeLen_end (by omega)
        · push_neg at hq
          rw [← pop_border_other h (Or.inr hq)]
          exact hres
      · intro j hjint
        rw [← pop_border_other h (Or.inr (fun m hm => havoid j (by omega) m hm))]
        exact rangeLen_internal hjint
      · rw [← pop_border_other h (Or.inr (fun m hm =>
          havoid ((cw.pop_word p d').2.rangeLen s d' - 1) (by omega) m hm))]
        exact rangeLen_end (by omega)
    have hcells : ∀ k < cw.rangeLen s d',
        (cw.pop_word p d').2.get_char (s + d'.point * (k : Int)) =
          cw.get_char (s + d'.point * (k : Int)) := by
      intro k hk
      exact pop_char_other h (fun m hm => havoid k (by omega) m hm)
    exact ⟨by omega, hlen_eq.symm, hcells, word_at_eq_of hlen_eq.symm hcells,
      fun hc => hsnotp hc.1⟩

theorem pop_run_survives {cw : Crosswords} {p : Point} {d : Dir} (hinv : cw.Inv)
    (h : ¬(cw.word_at p d).length ≤ 1) {s : Point} {d' : Dir}
    (hlongcw : 2 ≤ cw.rangeLen s d') (hne : ¬(s = p ∧ d' = d)) :
    (cw.pop_word p d).2.rangeLen s d' = cw.rangeLen s d' ∧
      (cw.pop_word p d).2.word_at s d' = cw.word_at s d' := by
  obtain ⟨hLp, hwlen⟩ := pop_context hinv h
  have hdim := hinv.1
  by_cases hd : d' = d
  case pos =>
    subst hd
    have hsnotp : s ≠ p := fun hsp => hne ⟨hsp, rfl⟩
    have havoid : ∀ j < cw.rangeLen s d', ∀ k < (cw.word_at p d').length,
        s + d'.point * (j : Int) ≠ p + d'.point * (k : Int) := by
      intro j hj k hk heq
      apply hsnotp
      exact @longRun_overlap_eq cw s p d' j k (by omega) hj (by omega) heq
    have hlen_eq : (cw.pop_word p d').2.rangeLen s d' = cw.rangeLen s d' := by
      apply rangeLen_eq_of_isRun
      refine Or.inr ⟨by omega, ?_, ?_, ?_⟩
      · by_cases hq : ∃ m, m < (cw.word_at p d').length ∧
            s - d'.point = p + d'.point * (m : Int)
        · obtain ⟨m, hm, heqm⟩ := hq
          rcases Nat.lt_or_ge (m + 1) (cw.word_at p d').length with hlt | hge
          · exfalso
            have hs_eq : s = p + d'.point * ((m + 1 : Nat) : Int) := by
              rw [point_mul_succ_right, ← heqm, point_sub_add_point]
            have := havoid 0 (by omega) (m + 1) hlt
            rw [point_mul_zero] at this
            exact this hs_eq
          · rw [heqm]
            exact pop_border_cell hdim h hm
        · push_neg at hq
          rw [pop_border_other h (Or.inr hq)]
          exact rangeLen_before (by omega)
      · intro j hjint
        rw [pop_border_other h (Or.inr (fun m hm => havoid j (by omega) m hm))]
        exact rangeLen_internal hjint
      · rw [pop_border_other h (Or.inr (fun m hm =>
          havoid (cw.rangeLen s d' - 1) (by omega) m hm))]
        exact rangeLen_end (by omega)
    have hcells : ∀ k < cw.rangeLen s d',
        (cw.pop_word p d').2.get_char (s + d'.point * (k : Int)) =
          cw.get_char (s + d'.point * (k : Int)) := by
      intro k hk
      exact pop_char_other h (fun m hm => havoid k hk m hm)
    exact ⟨hlen_eq, word_at_eq_of hlen_eq hcells⟩
  case neg =>
    have hr : (cw.pop_word p d).2.rangeLen s d' = cw.rangeLen s d' :=
      rangeLen_eq_of_borders (fun r => pop_border_other h (Or.inl hd))
    have hcells := pop_char_odir hinv h hd hlongcw
    exact ⟨hr, word_at_eq_of hr hcells⟩

theorem pop_both_borders_false {cw : Crosswords} {p : Point} {d : Dir} (hinv : cw.Inv)
    (h : ¬(cw.word_at p d).length ≤ 1) {r : Point}
    (hq : ∀ k < (cw.word_at p d).length, r ≠ p + d.point * (k : Int)) {dd : Dir}
    (hbb : cw.both_borders r dd = false) :
    (cw.pop_word p d).2.both_borders r dd = false := by
  obtain ⟨hLp, hwlen⟩ := pop_context hinv h
  by_cases hdd : dd = d
  · subst hdd
    unfold Crosswords.both_borders at hbb ⊢
    rw [pop_border_other h (Or.inr hq)]
    by_cases hq2 : ∃ m, m < (cw.word_at p dd).length ∧
        r - dd.point = p + dd.point * (m : Int)
    · obtain ⟨m, hm, heqm⟩ := hq2
      rcases Nat.lt_or_ge (m + 1) (cw.word_at p dd).length with hlt | hge
      · exfalso
        have hr_eq : r = p + dd.point * ((m + 1 : Nat) : Int) := by
          rw [point_mul_succ_right, ← heqm, point_sub_add_point]
        exact hq (m + 1) hlt hr_eq
      · have hcwend : cw.get_border (r - dd.point) dd = true := by
          rw [heqm, show m = cw.rangeLen p dd - 1 from by omega]
          exact rangeLen_end (by omega)
        rw [hcwend, Bool.and_true] at hbb
        rw [hbb, Bool.false_and]
    · push_neg at hq2
      rw [pop_border_other h (Or.inr hq2)]
      exact hbb
  · unfold Crosswords.both_borders at hbb ⊢
    rw [pop_border_other h (Or.inl hdd), pop_border_other h (Or.inl hdd)]
    exact hbb

theorem inv_pop {cw : Crosswords} {p : Point} {d : Dir} (hinv : cw.Inv) :
    (cw.pop_word p d).2.Inv := by
  by_cases hlen : (cw.word_at p d).length ≤ 1
  · have hid : (cw.pop_word p d).2 = cw := by
      unfold Crosswords.pop_word
      simp [hlen]
    rw [hid]
    exact hinv
  · have hdim := hinv.1
    have hB := hinv.2.1
    have hC := hinv.2.2.1
    have hE := hinv.2.2.2.1
    have hD := hinv.2.2.2.2
    obtain ⟨hLp, hwlen⟩ := pop_context hinv hlen
    refine ⟨pop_word_dimsOK hdim hlen, ?_, ?_, ?_, ?_⟩
    · intro u
      rw [pop_word_words hlen]
      constructor
      · intro hu
        rw [Finset.mem_erase] at hu
        obtain ⟨hune, hucw⟩ := hu
        obtain ⟨s, d', hlongcw, hword⟩ := (hB u).mp hucw
        have hne : ¬(s = p ∧ d' = d) := by
          rintro ⟨hs, hd⟩
          apply hune
          rw [← hword, hs, hd]
        obtain ⟨hlen_eq, hword_eq⟩ := pop_run_survives hinv hlen hlongcw hne
        refine ⟨s, d', ?_, ?_⟩
        · show 2 ≤ _
          rw [hlen_eq]
          exact hlongcw
        · rw [hword_eq]
          exact hword
      · rintro ⟨s, d', hlongres, hwordres⟩
        obtain ⟨hlongcw, hlen_eq, hcells, hword_eq, hne⟩ :=
          pop_longRun_cases hinv hlen hlongres
        rw [Finset.mem_erase]
        constructor
        · intro hueq
          have hu_cw : cw.word_at s d' = u := by
            rw [← hword_eq]
            exact hwordres
          rw [hueq] at hu_cw
          obtain ⟨hs, hd⟩ := hE s d' p d hlongcw hLp hu_cw
          exact hne ⟨hs, hd⟩
        · refine (hB u).mpr ⟨s, d', hlongcw, ?_⟩
          rw [← hword_eq]
          exact hwordres
    · intro s d' hlongres k hk
      obtain ⟨hlongcw, hlen_eq, hcells, _, _⟩ := pop_longRun_cases hinv hlen hlongres
      rw [hlen_eq] at hk
      obtain ⟨c, hc, hcb⟩ := hC s d' hlongcw k hk
      refine ⟨c, ?_, hcb⟩
      rw [hcells k hk]
      exact hc
    · intro s d' s2 d2 h1 h2 heq
      obtain ⟨hl1, _, _, hw1, _⟩ := pop_longRun_cases hinv hlen h1
      obtain ⟨hl2, _, _, hw2, _⟩ := pop_longRun_cases hinv hlen h2
      rw [hw1, hw2] at heq
      exact hE s d' s2 d2 hl1 hl2 heq
    · intro r hr
      by_cases hq : ∃ k, k < (cw.word_at p d).length ∧ r = p + d.point * (k : Int)
      · obtain ⟨k, hk, rfl⟩ := hq
        have hbb : cw.both_borders (p + d.point * (k : Int)) d.other = false := by
          cases hbx : cw.both_borders (p + d.point * (k : Int)) d.other with
          | false => rfl
          | true =>
            exfalso
            rcases hcoord : (p + d.point * (k : Int)).coord cw.width cw.height
              with _ | i
            · have hnone : (cw.pop_word p d).2.get_char (p + d.point * (k : Int))
                  = none := by
                apply get_char_none_of_coord
                rw [pop_word_width hlen, pop_word_height hlen]
                exact hcoord
              unfold Crosswords.is_letter at hr
              rw [hnone] at hr
              exact absurd hr (by simp)
            · have hblank := pop_char_cell_blank hdim hlen hk hbx hcoord
              unfold Crosswords.is_letter at hr
              rw [hblank] at hr
              simp [BLOCK] at hr
        have hres_bb : (cw.pop_word p d).2.both_borders
            (p + d.point * (k : Int)) d.other = false := by
          unfold Crosswords.both_borders at hbb ⊢
          rw [pop_border_other hlen (Or.inl (Dir.other_ne d)),
            pop_border_other hlen (Or.inl (Dir.other_ne d))]
          exact hbb
        cases d
        · exact Or.inr hres_bb
        · exact Or.inl hres_bb
      · push_neg at hq
        have hchar : (cw.pop_word p d).2.get_char r = cw.get_char r :=
          pop_char_other hlen hq
        have hlet : cw.is_letter r = true := by
          unfold Crosswords.is_letter at hr ⊢
          rw [hchar] at hr
          exact hr
        rcases hD r hlet with hbb | hbb
        · exact Or.inl (pop_both_borders_false hinv hlen hq hbb)
        · exact Or.inr (pop_both_borders_false hinv hlen hq hbb)

theorem reach_inv {cw : Crosswords} (h : ReachableBF cw) : cw.Inv := by
  induction h with
  | start w h hw hh => exact inv_new w h hw hh
  | place cw p d word hreach hbf ih =>
    unfold Crosswords.try_word
    split
    · rename_i hallow
      exact inv_push ih hallow hbf
    · exact ih
  | remove cw p d hreach ih => exact inv_pop ih

/-- Counterexample to claim C1 as stated: the fresh 2-by-2 grid is reachable, and the
single-cell vector ['#'] is spelled by `word_at` at the origin even though it is not a
member of the (empty) words set, so the unrestricted iff fails. -/
theorem C1_words_iff_counterexample :
    ReachableBF (Crosswords.new 2 2) ∧
      (∃ p d, (Crosswords.new 2 2).word_at p d = [BLOCK]) ∧
      [BLOCK] ∉ (Crosswords.new 2 2).words :=
  ⟨ReachableBF.start 2 2 (by omega) (by omega),
    ⟨⟨0, 0⟩, .Right, by decide⟩, by decide⟩

/-- Claim C1 (amended with the length restriction): for every grid state reachable
from `new(W, H)` by placements of BLOCK-free words and removals, a character vector of
length at least 2 is a member of the words set iff some point and direction spell it
via `word_at`. -/
theorem C1_words_iff {cw : Crosswords} (h : ReachableBF cw) (w : CVec)
    (hlen : 2 ≤ w.length) :
    w ∈ cw.words ↔ ∃ p d, cw.word_at p d = w := by
  obtain ⟨hdim, hB, hC, hE, hD⟩ := reach_inv h
  constructor
  · intro hw
    obtain ⟨p, d, _, hword⟩ := (hB w).mp hw
    exact ⟨p, d, hword⟩
  · rintro ⟨p, d, hword⟩
    apply (hB w).mpr
    refine ⟨p, d, ?_, hword⟩
    show 2 ≤ _
    have hle := word_at_length_le cw p d
    rw [hword] at hle
    omega

/-- Witness for C1: after placing AB on a fresh 2-by-2 grid, the amended equivalence
produces a point and direction spelling AB. -/
theorem C1_words_iff_witness :
    ∃ p d, ((Crosswords.new 2 2).try_word ⟨0, 0⟩ .Right ['A', 'B']).2.word_at p d =
      ['A', 'B'] :=
  (C1_words_iff
    (ReachableBF.place (Crosswords.new 2 2) ⟨0, 0⟩ .Right ['A', 'B']
      (ReachableBF.start 2 2 (by omega) (by omega)) (by decide))
    ['A', 'B'] (by decide)).mp (by decide)

/-! Counting borders: the C5 invariant for BLOCK-free reachable states. -/

theorem count_eq_sum_range (l : List Bool) (a : Bool) :
    (∑ i ∈ Finset.range l.length, if l.get? i = some a then 1 else 0) = l.count a := by
  induction l with
  | nil => simp
  | cons b t ih =>
    rw [List.length_cons, Finset.sum_range_succ']
    have hstep : ∀ i : Nat, (b :: t).get? (i + 1) = t.get? i := fun i => rfl
    simp only [hstep]
    rw [ih]
    show t.count a + (if some b = some a then 1 else 0) = (b :: t).count a
    by_cases hba : b = a
    · simp [hba, List.count_cons]
    · simp [List.count_cons, hba, Ne.symm hba]

theorem count_true_add_count_false (l : List Bool) :
    l.count true + l.count false = l.length := by
  induction l with
  | nil => rfl
  | cons b t ih => cases b <;> simp [List.count_cons] <;> omega

theorem count_false_card (l : List Bool) :
    ((Finset.range l.length).filter fun i => l.get? i = some false).card =
      l.count false := by
  rw [Finset.card_filter]
  exact count_eq_sum_range l false

theorem coord_surj {W H i : Nat} (hi : i < W * H) :
    ∃ r : Point, r.coord W H = some i := by
  have hW : 0 < W := by
    rcases Nat.eq_zero_or_pos W with rfl | h
    · rw [Nat.zero_mul] at hi
      omega
    · exact h
  have h1 : i % W < W := Nat.mod_lt i hW
  have h2 : i / W < H := Nat.div_lt_iff_lt_mul hW |>.mpr (by rw [Nat.mul_comm]; exact hi)
  obtain ⟨x, hx⟩ : ∃ x, i % W = x := ⟨_, rfl⟩
  obtain ⟨y, hy⟩ : ∃ y, i / W = y := ⟨_, rfl⟩
  rw [hx] at h1
  rw [hy] at h2
  have hdm : y * W + x = i := by
    rw [← hx, ← hy]
    exact Nat.div_add_mod' i W
  refine ⟨⟨(x : Int), (y : Int)⟩, ?_⟩
  unfold Point.coord
  rw [if_pos (by dsimp only; refine ⟨by omega, by omega, by omega, by omega⟩)]
  have htn1 : ((y : Nat) : Int).toNat = y := Int.toNat_ofNat _
  have htn2 : ((x : Nat) : Int).toNat = x := Int.toNat_ofNat _
  dsimp only
  rw [htn1, htn2]
  rw [show y * W + x = i from hdm]

theorem getD_true_false {l : List Bool} {i : Nat} (h : l.getD i true = false) :
    l.get? i = some false := by
  rw [List.getD_eq_get?] at h
  rcases hg : l.get? i with _ | b
  · rw [hg] at h
    exact absurd h (by simp)
  · rw [hg] at h
    cases b
    · rfl
    · exact absurd h (by simp)

theorem get?_false_getD {l : List Bool} {i : Nat} (h : l.get? i = some false) :
    l.getD i true = false := by
  rw [List.getD_eq_get?, h]
  rfl

theorem borderIdx_inj {cw : Crosswords} {d : Dir} {r r' : Point} {i : Nat}
    (h : cw.borderIdx d r = some i) (h' : cw.borderIdx d r' = some i) : r = r' := by
  cases d
  · exact coord_inj h h'
  · exact coord_inj h h'

theorem get_border_of_idx {cw : Crosswords} {d : Dir} {r : Point} {i : Nat}
    (h : cw.borderIdx d r = some i) :
    cw.get_border r d = (cw.borderArr d).getD i true := by
  rw [get_border_eq, h]

theorem inv_border_count {cw : Crosswords} (hinv : cw.Inv) :
    cw.count_borders + ∑ w ∈ cw.words, (w.length - 1) = cw.max_border_count := by
  classical
  obtain ⟨hdim, hB, hC, hE, hD⟩ := hinv
  obtain ⟨hW1, hH1, hchars, hRlen, hDnlen⟩ := hdim
  have hrun0 : ∀ w : CVec, ∃ sd : Point × Dir,
      w ∈ cw.words → (2 ≤ cw.rangeLen sd.1 sd.2 ∧ cw.word_at sd.1 sd.2 = w) := by
    intro w
    by_cases hw : w ∈ cw.words
    · obtain ⟨s, dd, hl, hwd⟩ := (hB w).mp hw
      exact ⟨(s, dd), fun _ => ⟨hl, hwd⟩⟩
    · exact ⟨(⟨0, 0⟩, .Right), fun hww => absurd hww hw⟩
  choose run hrunspec using hrun0
  have hrun1 : ∀ w, w ∈ cw.words → 2 ≤ cw.rangeLen (run w).1 (run w).2 :=
    fun w hw => (hrunspec w hw).1
  have hrun2 : ∀ w, w ∈ cw.words → cw.word_at (run w).1 (run w).2 = w :=
    fun w hw => (hrunspec w hw).2
  have hwlen : ∀ w, w ∈ cw.words → w.length = cw.rangeLen (run w).1 (run w).2 := by
    intro w hw
    have hle : (cw.word_at (run w).1 (run w).2).length =
        cw.rangeLen (run w).1 (run w).2 := by
      apply word_at_length_eq
      intro k hk
      obtain ⟨c, hc, _⟩ := hC _ _ (hrun1 w hw) k hk
      rw [hc]
      rfl
    rw [hrun2 w hw] at hle
    exact hle
  have hkey : ∀ (w : CVec), w ∈ cw.words → ∀ (k : Nat), k < w.length - 1 →
      ∃ j, cw.borderIdx (run w).2 ((run w).1 + (run w).2.point * (k : Int)) = some j ∧
        (cw.borderArr (run w).2).get? j = some false := by
    intro w hw k hk
    have hk2 : k + 1 < cw.rangeLen (run w).1 (run w).2 := by
      have h2 := hrun1 w hw
      have hl := hwlen w hw
      omega
    have hbf := rangeLen_internal hk2
    obtain ⟨j, hj⟩ := borderIdx_some_of_border_false hbf
    refine ⟨j, hj, ?_⟩
    apply getD_true_false
    rw [← get_border_of_idx hj]
    exact hbf
  set Fr := (Finset.range cw.right_border.length).filter
    (fun i => cw.right_border.get? i = some false) with hFrdef
  set Fd := (Finset.range cw.down_border.length).filter
    (fun i => cw.down_border.get? i = some false) with hFddef
  set F := Fr.image (fun i => ((Dir.Right : Dir), i)) ∪
      Fd.image (fun i => ((Dir.Down : Dir), i)) with hFdef
  have hmemF : ∀ (dd : Dir) (i : Nat),
      ((dd, i) ∈ F) ↔ (cw.borderArr dd).get? i = some false := by
    intro dd i
    rw [hFdef, Finset.mem_union, Finset.mem_image, Finset.mem_image]
    constructor
    · rintro (⟨j, hj, hji⟩ | ⟨j, hj, hji⟩)
      · have hdd : (Dir.Right : Dir) = dd := congrArg Prod.fst hji
        have hii : j = i := congrArg Prod.snd hji
        rw [hFrdef, Finset.mem_filter] at hj
        rw [← hdd, ← hii]
        exact hj.2
      · have hdd : (Dir.Down : Dir) = dd := congrArg Prod.fst hji
        have hii : j = i := congrArg Prod.snd hji
        rw [hFddef, Finset.mem_filter] at hj
        rw [← hdd, ← hii]
        exact hj.2
    · intro hgi
      have hilen : i < (cw.borderArr dd).length := (List.get?_eq_some.mp hgi).1
      cases dd
      · exact Or.inl ⟨i, by
          rw [hFrdef]
          exact Finset.mem_filter.mpr ⟨Finset.mem_range.mpr hilen, hgi⟩, rfl⟩
      · exact Or.inr ⟨i, by
          rw [hFddef]
          exact Finset.mem_filter.mpr ⟨Finset.mem_range.mpr hilen, hgi⟩, rfl⟩
  have hdisj : Disjoint (Fr.image (fun i => ((Dir.Right : Dir), i)))
      (Fd.image (fun i => ((Dir.Down : Dir), i))) := by
    rw [Finset.disjoint_left]
    rintro ⟨d0, i0⟩ h1 h2
    rw [Finset.mem_image] at h1 h2
    obtain ⟨j1, _, hj1⟩ := h1
    obtain ⟨j2, _, hj2⟩ := h2
    have e1 : (Dir.Right : Dir) = d0 := congrArg Prod.fst hj1
    have e2 : (Dir.Down : Dir) = d0 := congrArg Prod.fst hj2
    rw [← e2] at e1
    exact absurd e1 (by decide)
  have hcardF : F.card = cw.right_border.count false + cw.down_border.count false := by
    rw [hFdef, Finset.card_union_of_disjoint hdisj,
      Finset.card_image_of_injective _ (fun a b hab => by
        simpa using congrArg Prod.snd hab),
      Finset.card_image_of_injective _ (fun a b hab => by
        simpa using congrArg Prod.snd hab), hFrdef, hFddef,
      count_false_card, count_false_card]
  have hbij : (cw.words.sigma fun w => Finset.range (w.length - 1)).card = F.card := by
    apply Finset.card_bij (fun a _ =>
      ((run a.1).2,
        (cw.borderIdx (run a.1).2
          ((run a.1).1 + (run a.1).2.point * (a.2 : Int))).getD 0))
    · intro a ha
      obtain ⟨hw, hk⟩ := Finset.mem_sigma.mp ha
      obtain ⟨j, hj, hjf⟩ := hkey a.1 hw a.2 (Finset.mem_range.mp hk)
      rw [hj]
      exact (hmemF _ _).mpr hjf
    · intro a1 ha1 a2 ha2 heq
      obtain ⟨hw1, hk1⟩ := Finset.mem_sigma.mp ha1
      obtain ⟨hw2, hk2⟩ := Finset.mem_sigma.mp ha2
      obtain ⟨j1, hj1, _⟩ := hkey a1.1 hw1 a1.2 (Finset.mem_range.mp hk1)
      obtain ⟨j2, hj2, _⟩ := hkey a2.1 hw2 a2.2 (Finset.mem_range.mp hk2)
      rw [hj1, hj2] at heq
      have hd12 : (run a1.1).2 = (run a2.1).2 := congrArg Prod.fst heq
      have hj12 : j1 = j2 := by simpa using congrArg Prod.snd heq
      rw [← hd12, ← hj12] at hj2
      have hpt := borderIdx_inj hj1 hj2
      have hs12 : (run a1.1).1 = (run a2.1).1 := by
        apply @longRun_overlap_eq cw (run a1.1).1 (run a2.1).1 (run a1.1).2
          a1.2 a2.2
        · rw [hd12]
          have := hrun1 a2.1 hw2
          omega
        · have h2 := hrun1 a1.1 hw1
          have hl := hwlen a1.1 hw1
          have hk1' := Finset.mem_range.mp hk1
          omega
        · rw [hd12]
          have h2 := hrun1 a2.1 hw2
          have hl := hwlen a2.1 hw2
          have hk2' := Finset.mem_range.mp hk2
          omega
        · exact hpt
      have hkk : a1.2 = a2.2 := by
        apply dirPt_cancel_nat (d := (run a1.1).2) (p := (run a1.1).1)
        rw [hpt, hs12]
      have hww : a1.1 = a2.1 := by
        rw [← hrun2 a1.1 hw1, ← hrun2 a2.1 hw2, hs12, hd12]
      obtain ⟨w1, k1⟩ := a1
      obtain ⟨w2, k2⟩ := a2
      dsimp only at hww hkk
      subst hww
      subst hkk
      rfl
    · rintro ⟨dd, i⟩ hb
      have hgi := (hmemF dd i).mp hb
      have hilen : i < (cw.borderArr dd).length := (List.get?_eq_some.mp hgi).1
      have hr : ∃ r : Point, cw.borderIdx dd r = some i := by
        cases dd
        · have hi2 : i < (cw.width - 1) * cw.height := by
            rw [← hRlen]
            exact hilen
          obtain ⟨r, hrr⟩ := coord_surj hi2
          exact ⟨r, hrr⟩
        · have hi2 : i < cw.width * (cw.height - 1) := by
            rw [← hDnlen]
            exact hilen
          obtain ⟨r, hrr⟩ := coord_surj hi2
          exact ⟨r, hrr⟩
      obtain ⟨r, hri⟩ := hr
      have hbf : cw.get_border r dd = false := by
        rw [get_border_of_idx hri]
        exact get?_false_getD hgi
      obtain ⟨s, m, hrm, hm2⟩ := border_false_in_run hbf
      have hlong : 2 ≤ cw.rangeLen s dd := by omega
      have hw : cw.word_at s dd ∈ cw.words := (hB _).mpr ⟨s, dd, hlong, rfl⟩
      have hwl : (cw.word_at s dd).length = cw.rangeLen s dd :=
        word_at_length_eq (fun k hk => by
          obtain ⟨c, hc, _⟩ := hC s dd hlong k hk
          rw [hc]
          rfl)
      have hmlt : m < (cw.word_at s dd).length - 1 := by omega
      have hrw : run (cw.word_at s dd) = (s, dd) := by
        have h2 := hrun2 _ hw
        obtain ⟨e1, e2⟩ := hE (run (cw.word_at s dd)).1 (run (cw.word_at s dd)).2
          s dd (hrun1 _ hw) hlong (by rw [h2])
        exact Prod.ext e1 e2
      refine ⟨⟨cw.word_at s dd, m⟩,
        Finset.mem_sigma.mpr ⟨hw, Finset.mem_range.mpr hmlt⟩, ?_⟩
      dsimp only
      rw [hrw]
      rw [show (s, dd).1 + ((s, dd).2 : Dir).point * (m : Int) = r from hrm.symm, hri]
      rfl
  have hsum : ∑ w ∈ cw.words, (w.length - 1) =
      (cw.words.sigma fun w => Finset.range (w.length - 1)).card := by
    rw [Finset.card_sigma]
    simp
  have hcb : cw.count_borders =
      cw.right_border.count true + cw.down_border.count true := rfl
  rw [hsum, hbij, hcardF, hcb]
  have e1 := count_true_add_count_false cw.right_border
  have e2 := count_true_add_count_false cw.down_border
  obtain ⟨a, hae⟩ : ∃ a, cw.width = a + 1 := ⟨cw.width - 1, by omega⟩
  obtain ⟨b, hbe⟩ : ∃ b, cw.height = b + 1 := ⟨cw.height - 1, by omega⟩
  have hmax : cw.max_border_count = 2 * (a * b) + a + b := by
    unfold Crosswords.max_border_count
    rw [hae, hbe]
    have hr2 : 2 * (a + 1) * (b + 1) = 2 * (a * b) + 2 * a + 2 * b + 2 := by ring
    rw [hr2]
    obtain ⟨m, hm⟩ : ∃ m, a * b = m := ⟨_, rfl⟩
    rw [hm]
    omega
  have hlr : cw.right_border.length = a * b + a := by
    rw [hRlen, hae, hbe]
    simp only [Nat.add_sub_cancel]
    ring
  have hld : cw.down_border.length = a * b + b := by
    rw [hDnlen, hae, hbe]
    simp only [Nat.add_sub_cancel]
    ring
  rw [hlr] at e1
  rw [hld] at e2
  rw [hmax]
  obtain ⟨m, hm⟩ : ∃ m, a * b = m := ⟨_, rfl⟩
  rw [hm] at e1 e2 ⊢
  omega

/-- Counterexample to claim C5 as stated: placing the all-BLOCK word "##" downwards,
then "AB" rightwards and "AX" downwards at the origin of a fresh 2-by-2 grid is a
sequence of successful `try_word` calls after which `count_borders` plus the sum of
`|w| - 1` over the words set is 5, not `max_border_count = 4`: the overwritten "##" is
never deregistered because `word_at` no longer spells it. -/
theorem C5_border_count_counterexample :
    ((Crosswords.new 2 2).try_word ⟨0, 0⟩ .Down ['#', '#']).1 = true ∧
      (G5a.try_word ⟨0, 0⟩ .Right ['A', 'B']).1 = true ∧
      (G5b.try_word ⟨0, 0⟩ .Down ['A', 'X']).1 = true ∧
      G5c.count_borders + ∑ w ∈ G5c.words, (w.length - 1) ≠ G5c.max_border_count := by
  refine ⟨by decide, by decide, by decide, ?_⟩
  decide

/-- Claim C5 (amended to BLOCK-free placements): for every grid state reachable from
`new(W, H)` by placements of BLOCK-free words and removals, `count_borders()` plus the
sum of `|w| - 1` over the words set equals `max_border_count() = 2WH - W - H`. -/
theorem C5_border_count {cw : Crosswords} (h : ReachableBF cw) :
    cw.count_borders + ∑ w ∈ cw.words, (w.length - 1) = cw.max_border_count :=
  inv_border_count (reach_inv h)

/-- Witness for C5: the state of a fresh 2-by-2 grid after placing AB satisfies the
border-count equation. -/
theorem C5_border_count_witness :
    ((Crosswords.new 2 2).try_word ⟨0, 0⟩ .Right ['A', 'B']).2.count_borders +
      ∑ w ∈ ((Crosswords.new 2 2).try_word ⟨0, 0⟩ .Right ['A', 'B']).2.words,
        (w.length - 1) =
      ((Crosswords.new 2 2).try_word ⟨0, 0⟩ .Right ['A', 'B']).2.max_border_count :=
  C5_border_count
    (ReachableBF.place (Crosswords.new 2 2) ⟨0, 0⟩ .Right ['A', 'B']
      (ReachableBF.start 2 2 (by omega) (by omega)) (by decide))

/-! Place-then-remove as an identity: the C6 analysis. -/

theorem Crosswords.ext_fields {cw1 cw2 : Crosswords} (hw : cw1.width = cw2.width)
    (hh : cw1.height = cw2.height) (hc : cw1.chars = cw2.chars)
    (hr : cw1.right_border = cw2.right_border)
    (hd : cw1.down_border = cw2.down_border)
    (hws : cw1.words = cw2.words) : cw1 = cw2 := by
  cases cw1
  cases cw2
  dsimp only at hw hh hc hr hd hws
  subst hw
  subst hh
  subst hc
  subst hr
  subst hd
  subst hws
  rfl

theorem borderArr_right (cw : Crosswords) : cw.borderArr .Right = cw.right_border := rfl

theorem borderArr_down (cw : Crosswords) : cw.borderArr .Down = cw.down_border := rfl

theorem chars_ext {cw1 cw2 : Crosswords} (hw : cw1.width = cw2.width)
    (hh : cw1.height = cw2.height)
    (hl1 : cw1.chars.length = cw1.width * cw1.height)
    (hl2 : cw2.chars.length = cw1.width * cw1.height)
    (hc : ∀ r, cw1.get_char r = cw2.get_char r) : cw1.chars = cw2.chars := by
  apply List.ext_get?
  intro i
  by_cases hi : i < cw1.width * cw1.height
  · obtain ⟨r, hr⟩ := coord_surj hi
    have h1 := hc r
    unfold Crosswords.get_char at h1
    rw [← hw, ← hh, hr] at h1
    simp only [Option.some_bind] at h1
    exact h1
  · rw [List.get?_eq_none.mpr (by omega), List.get?_eq_none.mpr (by omega)]

theorem right_border_ext {cw1 cw2 : Crosswords} (hw : cw1.width = cw2.width)
    (hh : cw1.height = cw2.height)
    (hl1 : cw1.right_border.length = (cw1.width - 1) * cw1.height)
    (hl2 : cw2.right_border.length = (cw1.width - 1) * cw1.height)
    (hb : ∀ r, cw1.get_border r .Right = cw2.get_border r .Right) :
    cw1.right_border = cw2.right_border := by
  apply List.ext_get?
  intro i
  by_cases hi : i < (cw1.width - 1) * cw1.height
  · obtain ⟨r, hr⟩ := coord_surj hi
    have hidx1 : cw1.borderIdx .Right r = some i := hr
    have hidx2 : cw2.borderIdx .Right r = some i := by
      show r.coord (cw2.width - 1) cw2.height = some i
      rw [← hw, ← hh]
      exact hr
    have h1 := hb r
    rw [get_border_of_idx hidx1, get_border_of_idx hidx2,
      borderArr_right, borderArr_right] at h1
    rcases hg1 : cw1.right_border.get? i with _ | b1
    · exact absurd (List.get?_eq_none.mp hg1) (by omega)
    · rcases hg2 : cw2.right_border.get? i with _ | b2
      · exact absurd (List.get?_eq_none.mp hg2) (by omega)
      · rw [List.getD_eq_get?, List.getD_eq_get?, hg1, hg2] at h1
        simp only [Option.getD_some] at h1
        rw [h1]
  · rw [List.get?_eq_none.mpr (by omega), List.get?_eq_none.mpr (by omega)]

theorem down_border_ext {cw1 cw2 : Crosswords} (hw : cw1.width = cw2.width)
    (hh : cw1.height = cw2.height)
    (hl1 : cw1.down_border.length = cw1.width * (cw1.height - 1))
    (hl2 : cw2.down_border.length = cw1.width * (cw1.height - 1))
    (hb : ∀ r, cw1.get_border r .Down = cw2.get_border r .Down) :
    cw1.down_border = cw2.down_border := by
  apply List.ext_get?
  intro i
  by_cases hi : i < cw1.width * (cw1.height - 1)
  · obtain ⟨r, hr⟩ := coord_surj hi
    have hidx1 : cw1.borderIdx .Down r = some i := hr
    have hidx2 : cw2.borderIdx .Down r = some i := by
      show r.coord cw2.width (cw2.height - 1) = some i
      rw [← hw, ← hh]
      exact hr
    have h1 := hb r
    rw [get_border_of_idx hidx1, get_border_of_idx hidx2,
      borderArr_down, borderArr_down] at h1
    rcases hg1 : cw1.down_border.get? i with _ | b1
    · exact absurd (List.get?_eq_none.mp hg1) (by omega)
    · rcases hg2 : cw2.down_border.get? i with _ | b2
      · exact absurd (List.get?_eq_none.mp hg2) (by omega)
      · rw [List.getD_eq_get?, List.getD_eq_get?, hg1, hg2] at h1
        simp only [Option.getD_some] at h1
        rw [h1]
  · rw [List.get?_eq_none.mpr (by omega), List.get?_eq_none.mpr (by omega)]

theorem block_cell_isolated {g : Crosswords} (hinv : g.Inv) {r : Point}
    (hc : g.get_char r = some BLOCK) (d' : Dir) : g.both_borders r d' = true := by
  have hC := hinv.2.2.1
  unfold Crosswords.both_borders
  cases hb1x : g.get_border r d' with
  | false =>
    exfalso
    obtain ⟨s, m, hrm, hm2⟩ := border_false_in_run hb1x
    have hlong : 2 ≤ g.rangeLen s d' := by omega
    obtain ⟨c, hcc, hcb⟩ := hC s d' hlong m (by omega)
    rw [← hrm, hc] at hcc
    exact hcb (Option.some.inj hcc).symm
  | true =>
    cases hb2x : g.get_border (r - d'.point) d' with
    | false =>
      exfalso
      obtain ⟨s, m, hrm, hm2⟩ := border_false_in_run hb2x
      have hr_eq : r = s + d'.point * ((m + 1 : Nat) : Int) := by
        rw [point_mul_succ_right, ← hrm, point_sub_add_point]
      have hlong : 2 ≤ g.rangeLen s d' := by omega
      obtain ⟨c, hcc, hcb⟩ := hC s d' hlong (m + 1) (by omega)
      rw [← hr_eq, hc] at hcc
      exact hcb (Option.some.inj hcc).symm
    | true => rfl

theorem allowed_span_border_true {g : Crosswords} {p : Point} {d : Dir} {w : CVec}
    (hinv : g.Inv) (hallow : g.is_word_allowed p d w = true)
    (hnosup : ∀ k < w.length, g.word_at (p + d.point * (k : Int)) d ∉ g.words) :
    ∀ k < w.length, g.get_border (p + d.point * (k : Int)) d = true := by
  have hdim := hinv.1
  have hB := hinv.2.1
  obtain ⟨hlen2, hnotin, hb1, hb2, hcell⟩ := allowed_facts hdim hallow
  intro k hk
  by_contra hcon
  have hbf : g.get_border (p + d.point * (k : Int)) d = false :=
    border_false_of_ne_true hcon
  obtain ⟨s, m, hrm, hm2⟩ := border_false_in_run hbf
  have hlong : 2 ≤ g.rangeLen s d := by omega
  have hsw : g.word_at s d ∈ g.words := (hB _).mpr ⟨s, d, hlong, rfl⟩
  rcases le_or_lt m k with hle | hlt
  · have hs_eq : s = p + d.point * ((k - m : Nat) : Int) := by
      apply dirPt_cancel_right (d := d) (t := (m : Int))
      rw [dirPt_shift, show k - m + m = k from by omega]
      exact hrm.symm
    apply hnosup (k - m) (by omega)
    rw [← hs_eq]
    exact hsw
  · have hp_eq : p = s + d.point * ((m - k : Nat) : Int) := by
      apply dirPt_cancel_right (d := d) (t := (k : Int))
      rw [dirPt_shift, show m - k + k = m from by omega]
      exact hrm
    have hbefore : p - d.point = s + d.point * ((m - k - 1 : Nat) : Int) := by
      rw [hp_eq, point_mul_sub_one s d.point (m - k) (by omega)]
    have hint := @rangeLen_internal g s d (m - k - 1) (by omega)
    rw [← hbefore] at hint
    rw [hint] at hb1
    exact absurd hb1 (by simp)

theorem place_remove_eq {g : Crosswords} {p : Point} {d : Dir} {w : CVec}
    (hinv : g.Inv) (hbf : BLOCK ∉ w)
    (hallow : g.is_word_allowed p d w = true)
    (hnosup : ∀ k < w.length, g.word_at (p + d.point * (k : Int)) d ∉ g.words) :
    (g.push_word p d w).pop_word p d = (w, g) := by
  have hdim := hinv.1
  have hB := hinv.2.1
  have hD := hinv.2.2.2.2
  obtain ⟨hlen2, hnotin, hb1, hb2, hcell⟩ := allowed_facts hdim hallow
  have hdim' : (g.push_word p d w).dimsOK := push_word_dimsOK hdim
  have hW : (g.push_word p d w).word_at p d = w := push_word_at_self hdim hallow
  have hlen' : ¬((g.push_word p d w).word_at p d).length ≤ 1 := by
    rw [hW]
    omega
  have hspan : ∀ k < w.length, g.get_border (p + d.point * (k : Int)) d = true :=
    allowed_span_border_true hinv hallow hnosup
  have hbb_eq : ∀ r, (g.push_word p d w).both_borders r d.other =
      g.both_borders r d.other := by
    intro r
    unfold Crosswords.both_borders
    rw [push_word_get_border_dir (Dir.other_ne d),
      push_word_get_border_dir (Dir.other_ne d)]
  have hborder_d : ∀ r, ((g.push_word p d w).pop_word p d).2.get_border r d =
      g.get_border r d := by
    intro r
    by_cases hq : ∃ k, k < w.length ∧ r = p + d.point * (k : Int)
    · obtain ⟨k, hk, rfl⟩ := hq
      rw [hspan k hk]
      exact pop_border_cell hdim' hlen' (by rw [hW]; exact hk)
    · push_neg at hq
      have hq' : ∀ k < ((g.push_word p d w).word_at p d).length,
          r ≠ p + d.point * (k : Int) := by
        rw [hW]
        exact hq
      rw [pop_border_other hlen' (Or.inr hq')]
      exact push_word_get_border_other (fun k hk => hq k (by omega))
  have hborder : ∀ r (d' : Dir), ((g.push_word p d w).pop_word p d).2.get_border r d' =
      g.get_border r d' := by
    intro r d'
    by_cases hd' : d' = d
    · subst hd'
      exact hborder_d r
    · have hdo : d' = d.other := dir_eq_other_of_ne hd'
      subst hdo
      rw [pop_border_other hlen' (Or.inl (Dir.other_ne d))]
      exact push_word_get_border_dir (Dir.other_ne d)
  have hchar : ∀ r, ((g.push_word p d w).pop_word p d).2.get_char r =
      g.get_char r := by
    intro r
    by_cases hq : ∃ k, k < w.length ∧ r = p + d.point * (k : Int)
    · obtain ⟨k, hk, rfl⟩ := hq
      obtain ⟨⟨i, hi⟩, hch⟩ := hcell k hk
      rcases hch with hch | hch
      · obtain ⟨c, hc⟩ : ∃ c, w.get? k = some c := by
          rcases hw : w.get? k with _ | c
          · exact absurd (List.get?_eq_none.mp hw) (by omega)
          · exact ⟨c, rfl⟩
        have hcb : c ≠ BLOCK := fun hcb => hbf (hcb ▸ List.get?_mem hc)
        have hlet : g.is_letter (p + d.point * (k : Int)) = true := by
          unfold Crosswords.is_letter
          rw [hch, hc]
          simp [hcb]
        have hbbd_true : g.both_borders (p + d.point * (k : Int)) d = true := by
          unfold Crosswords.both_borders
          rw [hspan k hk]
          rcases Nat.eq_zero_or_pos k with rfl | hk1
          · rw [show (p + d.point * ((0 : Nat) : Int)) - d.point = p - d.point from
              by rw [point_mul_zero], hb1]
            rfl
          · rw [point_mul_sub_one p d.point k hk1, hspan (k - 1) (by omega)]
            rfl
        have hbbo : g.both_borders (p + d.point * (k : Int)) d.other = false := by
          rcases hD _ hlet with hbbx | hbbx
          · cases d
            · rw [hbbx] at hbbd_true
              exact absurd hbbd_true (by simp)
            · exact hbbx
          · cases d
            · exact hbbx
            · rw [hbbx] at hbbd_true
              exact absurd hbbd_true (by simp)
        have hkeep := @pop_char_cell_keep (g.push_word p d w) p d hlen'
          k (by rw [hW]; exact hk) (by rw [hbb_eq]; exact hbbo)
        rw [hkeep, push_word_get_char_write hdim hk hc hi, hch, hc]
      · have hiso : g.both_borders (p + d.point * (k : Int)) d.other = true :=
          block_cell_isolated hinv hch d.other
        have hcoord' : (p + d.point * (k : Int)).coord (g.push_word p d w).width
            (g.push_word p d w).height = some i := by
          rw [push_word_width, push_word_height]
          exact hi
        have hblank := @pop_char_cell_blank (g.push_word p d w) p d hdim' hlen'
          k (by rw [hW]; exact hk) (by rw [hbb_eq]; exact hiso) i hcoord'
        rw [hblank, hch]
    · push_neg at hq
      have hq' : ∀ k < ((g.push_word p d w).word_at p d).length,
          r ≠ p + d.point * (k : Int) := by
        rw [hW]
        exact hq
      rw [pop_char_other hlen' hq']
      exact push_word_get_char_other (fun k hk => hq k hk)
  have hwords : ((g.push_word p d w).pop_word p d).2.words = g.words := by
    rw [pop_word_words hlen', hW]
    apply Finset.ext
    intro u
    rw [Finset.mem_erase]
    constructor
    · rintro ⟨hune, humem⟩
      rcases (push_word_words g p d w u).mp humem with rfl | ⟨hug, _⟩
      · exact absurd rfl hune
      · exact hug
    · intro hu
      refine ⟨fun hueq => hnotin (hueq ▸ hu), ?_⟩
      exact (push_word_words g p d w u).mpr
        (Or.inr ⟨hu, fun k hk hueq => hnosup k hk (hueq ▸ hu)⟩)
  have hfin_dim : ((g.push_word p d w).pop_word p d).2.dimsOK :=
    pop_word_dimsOK hdim' hlen'
  have hwfin : ((g.push_word p d w).pop_word p d).2.width = g.width := by
    rw [pop_word_width hlen', push_word_width]
  have hhfin : ((g.push_word p d w).pop_word p d).2.height = g.height := by
    rw [pop_word_height hlen', push_word_height]
  have heq_fin : ((g.push_word p d w).pop_word p d).2 = g := by
    apply Crosswords.ext_fields hwfin hhfin
    · exact chars_ext hwfin hhfin hfin_dim.2.2.1
        (by rw [hwfin, hhfin]; exact hdim.2.2.1) hchar
    · exact right_border_ext hwfin hhfin hfin_dim.2.2.2.1
        (by rw [hwfin, hhfin]; exact hdim.2.2.2.1) (fun r => hborder r .Right)
    · exact down_border_ext hwfin hhfin hfin_dim.2.2.2.2
        (by rw [hwfin, hhfin]; exact hdim.2.2.2.2) (fun r => hborder r .Down)
    · exact hwords
  have h1 : ((g.push_word p d w).pop_word p d).1 = w := by
    rw [pop_word_fst hlen', hW]
  exact Prod.ext h1 heq_fin

/-- Counterexample to claim C6 as stated: on the 3-by-1 grid `G6s` holding a stray
letter A that belongs to no word, placing AB at the origin succeeds and removes
nothing from the (empty) words set, yet popping it immediately afterwards blanks the
stray letter, so the resulting grid differs from `G6s`. -/
theorem C6_place_remove_counterexample :
    G6s.words = ∅ ∧ (G6s.try_word ⟨0, 0⟩ .Right ['A', 'B']).1 = true ∧
      ((G6s.try_word ⟨0, 0⟩ .Right ['A', 'B']).2.pop_word ⟨0, 0⟩ .Right).2 ≠ G6s :=
  ⟨by decide, by decide, by decide⟩

/-- Claim C6 (amended to reachable states): on every grid state reachable from
`new(W, H)` by placements of BLOCK-free words and removals, if `try_word` succeeds
with a BLOCK-free word without deregistering any existing parallel word, then an
immediate `pop_word` returns that word and restores the grid exactly; and in the
superseding BARBAZ scenario on a fresh 6-by-2 grid, removing BARBAZ leaves the words
set empty (BAR and BAZ are not restored) and yields the fresh grid again. -/
theorem C6_place_remove {g : Crosswords} (hreach : ReachableBF g) (p : Point)
    (d : Dir) (w : CVec) (hbf : BLOCK ∉ w)
    (hallow : g.is_word_allowed p d w = true)
    (hnosup : ∀ k < w.length, g.word_at (p + d.point * (k : Int)) d ∉ g.words) :
    ((g.try_word p d w).1 = true ∧ (g.try_word p d w).2.pop_word p d = (w, g)) ∧
      ((G6c.pop_word ⟨0, 0⟩ .Right).2.words = ∅ ∧
        (G6c.pop_word ⟨0, 0⟩ .Right).2 = Crosswords.new 6 2) := by
  constructor
  · have h1 : (g.try_word p d w).1 = true := by
      simp [Crosswords.try_word, hallow]
    have h2 : (g.try_word p d w).2 = g.push_word p d w := by
      simp [Crosswords.try_word, hallow]
    refine ⟨h1, ?_⟩
    rw [h2]
    exact place_remove_eq (reach_inv hreach) hbf hallow hnosup
  · exact ⟨by decide, by decide⟩

/-- Witness for C6: on a fresh 2-by-2 grid, placing AB at the origin and popping it
returns AB and the fresh grid. -/
theorem C6_place_remove_witness :
    ((Crosswords.new 2 2).try_word ⟨0, 0⟩ .Right ['A', 'B']).1 = true ∧
      ((Crosswords.new 2 2).try_word ⟨0, 0⟩ .Right ['A', 'B']).2.pop_word ⟨0, 0⟩
        .Right = (['A', 'B'], Crosswords.new 2 2) :=
  (C6_place_remove (ReachableBF.start 2 2 (by omega) (by omega)) ⟨0, 0⟩ .Right
    ['A', 'B'] (by decide) (by decide) (by decide)).1

end Cwr
